import Mathlib

/-!
# The expression calculator of `calculator.c`

A shallow embedding of the recursive-descent evaluator and of `main`, and the
properties of the specification proved (or refuted) about it.

## Conventions of the embedding

* The text under the cursor is a `List Char`, one `Char` per byte.  The list is
  the memory from the cursor on: the empty list and a list that starts with the
  NUL character both stand for a cursor at the terminator (`peek` returns NUL).
* `cursor++` is `List.tail`; a function that moves the global cursor returns
  the text that is left together with its value.
* `throw_error` (message on `stderr`, then `exit(1)`) is `Except.error` with the
  error kind; every caller passes an error on unchanged.
* A `double` is the rational number it denotes.  Every arithmetic operation of
  the source whose exact result need not be a `double` is followed by the
  rounding `rnd : ℚ → ℚ` of the machine, which is a parameter of the
  embedding.  Negation, `fabs`, `floor`, `round` and the comparisons are exact.
  What the integer-mode theorems need of the rounding is collected in
  `IsDoubleRounding`, which IEEE 754 binary64 rounding (`binary64`) is proved
  to satisfy; the theorems on range checks, guards and error paths hold for
  every rounding.  No operation of the program overflows (operands
  are bounded by the range ceiling and divisors are at least `1e-4` in
  magnitude), so infinities and NaN do not arise; the sign of zero is not
  modelled.
* `main` returns the value it hands to `printf`: the integer in integer mode,
  the double in float mode.  What `%.4f` writes for a double is given by
  `format_4f` from the sign bit and the magnitude of the double; since the sign
  of a zero is not modelled, `PrintsFloat` admits both signs for the value
  zero.
* The three mutually recursive evaluators take a recursion budget (`fuel`);
  `main` starts them with `3 * length + 3`, which is proved to be enough.
-/

namespace Calculator

/-- The fatal errors of the program, one per `throw_error` message, named as in
the specification.  `OutOfFuel` is not an error of the program: it marks a
recursion budget of the embedding that ran out. -/
inductive ParseError where
  /-- "Expected a number" -/
  | ExpectedNumber
  /-- "Number exceeds allowed range" -/
  | NumberOutOfRange
  /-- "Value out of range" -/
  | OutOfRange
  /-- "Missing closing parenthesis" -/
  | MissingCloseParen
  /-- "Non-integer result in integer mode" -/
  | NonIntegerResult
  /-- "Division by zero or near-zero" -/
  | DivisionByZero
  /-- "Unexpected characters after expression" -/
  | TrailingInput
  /-- "Invalid character in input" -/
  | InvalidCharacter
  /-- "Empty input" -/
  | EmptyInput
  /-- "Input exceeds allowed size" -/
  | InputTooLarge
  /-- "Unknown argument" -/
  | UnknownArgument
  /-- "Final result not an integer" -/
  | FinalNotInteger
  /-- The recursion budget of the embedding ran out. -/
  | OutOfFuel
  deriving DecidableEq, Repr

/-- What a successful run prints: `%lld` of an integer, or `%.4f` of a double
(the double is kept; the decimal formatting is not part of the embedding). -/
inductive Output where
  | integer (n : ℤ)
  | floating (x : ℚ)
  deriving DecidableEq

/-- `#define MAX_BUFFER 1024` -/
def MAX_BUFFER : ℕ := 1024

/-- `static const double VALUE_LIMIT = 2e9;` (an integer below `2^53`, so the
literal is exact). -/
def VALUE_LIMIT : ℚ := 2000000000

/-- `isspace` in the C locale: space, `\t`, `\n`, `\v`, `\f`, `\r`. -/
def isspace (c : Char) : Bool :=
  c = ' ' || c = '\t' || c = '\n' || c = '\x0b' || c = '\x0c' || c = '\r'

/-- `isdigit`: the bytes `'0'` to `'9'`. -/
def isdigit (c : Char) : Bool :=
  decide (48 ≤ c.toNat) && decide (c.toNat ≤ 57)

/-- `*cursor`: the byte under the cursor, NUL at the end of the text. -/
def peek (s : List Char) : Char :=
  s.headD '\x00'

/-- `trim_spaces`: `while (*cursor && isspace(*cursor)) cursor++;` -/
def trim_spaces : List Char → List Char
  | [] => []
  | c :: s => if c ≠ '\x00' ∧ isspace c then trim_spaces s else c :: s

/-- `is_valid_character` -/
def is_valid_character (ch : Char) : Bool :=
  isdigit ch || ch = '(' || ch = ')' || ch = '*' || ch = '+' || ch = '-' || ch = '/' ||
    isspace ch

/-- The `while (isdigit(*cursor))` loop of `extract_number`, started with the
value accumulated so far.  The product and the sum are rounded one after the
other. -/
def extract_number_loop (rnd : ℚ → ℚ) : ℚ → List Char → Except ParseError (ℚ × List Char)
  | num, [] => .ok (num, [])
  | num, c :: s =>
    if isdigit c then
      let num1 := rnd (rnd (num * 10) + ((c.toNat - 48 : ℕ) : ℚ))
      if num1 > VALUE_LIMIT then .error .NumberOutOfRange
      else extract_number_loop rnd num1 s
    else .ok (num, c :: s)

/-- `extract_number` -/
def extract_number (rnd : ℚ → ℚ) (s : List Char) : Except ParseError (ℚ × List Char) :=
  let s1 := trim_spaces s
  if ¬ isdigit (peek s1) then .error .ExpectedNumber
  else extract_number_loop rnd 0 s1

/-- `validate_range` -/
def validate_range (x : ℚ) : Except ParseError Unit :=
  if x < -VALUE_LIMIT ∨ x > VALUE_LIMIT then .error .OutOfRange else .ok ()

/-- The C library `round`: to the nearest integer, halfway cases away from
zero. -/
def c_round (x : ℚ) : ℤ :=
  if 0 ≤ x then ⌊x + 1 / 2⌋ else ⌈x - 1 / 2⌉

/-- `is_whole_number`: `fabs(x - round(x)) < 1e-9`; the literal `1e-9` is the
double nearest to it. -/
def is_whole_number (rnd : ℚ → ℚ) (x : ℚ) : Bool :=
  decide (|rnd (x - (c_round x : ℚ))| < rnd (1 / 1000000000))

/-- `integer_divide` -/
def integer_divide (rnd : ℚ → ℚ) (lhs rhs : ℚ) : Except ParseError ℚ :=
  if |rhs| < rnd (1 / 10000) then .error .DivisionByZero
  else
    let result : ℚ := (⌊rnd (lhs / rhs)⌋ : ℤ)
    match validate_range result with
    | .error e => .error e
    | .ok _ => .ok result

/-- `floating_divide` -/
def floating_divide (rnd : ℚ → ℚ) (lhs rhs : ℚ) : Except ParseError ℚ :=
  if |rhs| < rnd (1 / 10000) then .error .DivisionByZero
  else
    let result : ℚ := rnd (lhs / rhs)
    match validate_range result with
    | .error e => .error e
    | .ok _ => .ok result

/-- The sign loop of `evaluate_factor`:
`while (*cursor == '+' || *cursor == '-') { ...; cursor++; trim_spaces(); }`.
Every iteration consumes a byte, so a budget of the length of the text is
never exhausted. -/
def sign_loop : ℕ → Bool → List Char → Bool × List Char
  | 0, negative, s => (negative, s)
  | k + 1, negative, s =>
    if peek s = '+' ∨ peek s = '-' then
      sign_loop k (if peek s = '-' then !negative else negative) (trim_spaces s.tail)
    else (negative, s)

/-- The end of `evaluate_factor`: apply the sign, validate the range, return. -/
def finish_factor (negative : Bool) (val : ℚ) (s : List Char) :
    Except ParseError (ℚ × List Char) :=
  let val1 := if negative then -val else val
  match validate_range val1 with
  | .error e => .error e
  | .ok _ => .ok (val1, s)

mutual

/-- `evaluate_factor` -/
def evaluate_factor (rnd : ℚ → ℚ) (use_floats : Bool) :
    ℕ → List Char → Except ParseError (ℚ × List Char)
  | 0, _ => .error .OutOfFuel
  | fuel + 1, s =>
    let s0 := trim_spaces s
    let signs := sign_loop s0.length false s0
    let negative := signs.1
    let s1 := signs.2
    if peek s1 = '(' then
      match evaluate_expression rnd use_floats fuel s1.tail with
      | .error e => .error e
      | .ok (val, s2) =>
        let s3 := trim_spaces s2
        if peek s3 = ')' then finish_factor negative val s3.tail
        else .error .MissingCloseParen
    else
      match extract_number rnd s1 with
      | .error e => .error e
      | .ok (val, s2) => finish_factor negative val s2

/-- The `while (*cursor == '*' || *cursor == '/')` loop of `evaluate_term`,
started with the running value. -/
def evaluate_term_loop (rnd : ℚ → ℚ) (use_floats : Bool) :
    ℕ → ℚ → List Char → Except ParseError (ℚ × List Char)
  | 0, _, _ => .error .OutOfFuel
  | fuel + 1, val, s =>
    if peek s = '*' ∨ peek s = '/' then
      let op := peek s
      match evaluate_factor rnd use_floats fuel (trim_spaces s.tail) with
      | .error e => .error e
      | .ok (right, s1) =>
        let s2 := trim_spaces s1
        if op = '*' then
          let val1 := rnd (val * right)
          match validate_range val1 with
          | .error e => .error e
          | .ok _ =>
            if !use_floats && !is_whole_number rnd val1 then .error .NonIntegerResult
            else evaluate_term_loop rnd use_floats fuel val1 s2
        else
          match (if use_floats then floating_divide rnd val right
                 else integer_divide rnd val right) with
          | .error e => .error e
          | .ok val1 => evaluate_term_loop rnd use_floats fuel val1 s2
    else .ok (val, s)

/-- `evaluate_term` -/
def evaluate_term (rnd : ℚ → ℚ) (use_floats : Bool) :
    ℕ → List Char → Except ParseError (ℚ × List Char)
  | 0, _ => .error .OutOfFuel
  | fuel + 1, s =>
    match evaluate_factor rnd use_floats fuel s with
    | .error e => .error e
    | .ok (val, s1) => evaluate_term_loop rnd use_floats fuel val (trim_spaces s1)

/-- The `while (*cursor == '+' || *cursor == '-')` loop of
`evaluate_expression`, started with the running value. -/
def evaluate_expression_loop (rnd : ℚ → ℚ) (use_floats : Bool) :
    ℕ → ℚ → List Char → Except ParseError (ℚ × List Char)
  | 0, _, _ => .error .OutOfFuel
  | fuel + 1, val, s =>
    if peek s = '+' ∨ peek s = '-' then
      let op := peek s
      match evaluate_term rnd use_floats fuel (trim_spaces s.tail) with
      | .error e => .error e
      | .ok (right, s1) =>
        let s2 := trim_spaces s1
        let val1 := if op = '+' then rnd (val + right) else rnd (val - right)
        match validate_range val1 with
        | .error e => .error e
        | .ok _ =>
          if !use_floats && !is_whole_number rnd val1 then .error .NonIntegerResult
          else evaluate_expression_loop rnd use_floats fuel val1 s2
    else .ok (val, s)

/-- `evaluate_expression` -/
def evaluate_expression (rnd : ℚ → ℚ) (use_floats : Bool) :
    ℕ → List Char → Except ParseError (ℚ × List Char)
  | 0, _ => .error .OutOfFuel
  | fuel + 1, s =>
    match evaluate_term rnd use_floats fuel s with
    | .error e => .error e
    | .ok (val, s1) => evaluate_expression_loop rnd use_floats fuel val (trim_spaces s1)

end

/-- `sanitize_input`: copy the bytes before the terminator that are not
whitespace, then terminate. -/
def sanitize_input : List Char → List Char
  | [] => []
  | c :: s =>
    if c = '\x00' then []
    else if isspace c then sanitize_input s
    else c :: sanitize_input s

/-- `check_valid_chars`: walks the string up to its terminator. -/
def check_valid_chars : List Char → Except ParseError Unit
  | [] => .ok ()
  | c :: s =>
    if c = '\x00' then .ok ()
    else if ¬ is_valid_character c then .error .InvalidCharacter
    else check_valid_chars s

/-- The argument loop of `main`: `--float` sets `use_floats`, anything else is
fatal. -/
def parse_args : Bool → List String → Except ParseError Bool
  | use_floats, [] => .ok use_floats
  | _, arg :: rest =>
    if arg = "--float" then parse_args true rest else .error .UnknownArgument

/-- The read loop of `main`: at most `MAX_BUFFER - 1` bytes of standard input
fit; a longer input is fatal. -/
def read_input (stdin : List Char) : Except ParseError (List Char) :=
  if stdin.length > MAX_BUFFER - 1 then .error .InputTooLarge else .ok stdin

/-- The recursion budget `main` gives the evaluator. -/
def fuel_for (buffer : List Char) : ℕ :=
  3 * buffer.length + 3

/-- `main`, from the command-line arguments (without the program name) and the
bytes of standard input to the printed result or the fatal error. -/
def main (rnd : ℚ → ℚ) (args : List String) (stdin : List Char) :
    Except ParseError Output :=
  match parse_args false args with
  | .error e => .error e
  | .ok use_floats =>
    match read_input stdin with
    | .error e => .error e
    | .ok raw =>
      match check_valid_chars raw with
      | .error e => .error e
      | .ok _ =>
        let buffer := sanitize_input raw
        if peek buffer = '\x00' then .error .EmptyInput
        else
          match evaluate_expression rnd use_floats (fuel_for buffer) buffer with
          | .error e => .error e
          | .ok (result, cursor) =>
            if peek (trim_spaces cursor) ≠ '\x00' then .error .TrailingInput
            else if use_floats then .ok (.floating result)
            else if !is_whole_number rnd result then .error .FinalNotInteger
            else .ok (.integer (c_round result))

/-! ## Notions used to state the properties -/

/-- A value within the range ceiling: `-2e9 <= x <= 2e9`. -/
def InRange (x : ℚ) : Prop :=
  -VALUE_LIMIT ≤ x ∧ x ≤ VALUE_LIMIT

/-- The result is a result of the program, not an exhausted recursion budget. -/
def Settled {α : Type} (r : Except ParseError α) : Prop :=
  r ≠ .error .OutOfFuel

/-- What the integer-mode theorems assume of the rounding of the machine; each
field is a property of IEEE 754 binary64 with round-to-nearest. -/
structure IsDoubleRounding (rnd : ℚ → ℚ) : Prop where
  /-- Integers of magnitude up to `2^53` are doubles. -/
  exact_int : ∀ n : ℤ, |n| ≤ 2 ^ 53 → rnd (n : ℚ) = (n : ℚ)
  /-- In the normal range the relative error of a rounding is at most `2^-53`. -/
  rel_error : ∀ x : ℚ, 1 / 2 ^ 64 ≤ |x| → |x| ≤ 2 ^ 64 → |rnd x - x| ≤ |x| / 2 ^ 53
  /-- Rounding is monotone. -/
  mono : ∀ x y : ℚ, x ≤ y → rnd x ≤ rnd y
  /-- The double nearest to `1e-4` (`0x3F1A36E2EB1C432D`) lies above it. -/
  guard_above : (1 : ℚ) / 10000 ≤ rnd (1 / 10000)

/-! ### The rounding of the machine

The concrete instances of the theorems are stated for IEEE 754 binary64. -/

/-- Rounding to the nearest integer, halfway cases to the even one. -/
def round_half_even (y : ℚ) : ℤ :=
  if y - (⌊y⌋ : ℚ) < 1 / 2 then ⌊y⌋
  else if 1 / 2 < y - (⌊y⌋ : ℚ) then ⌊y⌋ + 1
  else if ⌊y⌋ % 2 = 0 then ⌊y⌋ else ⌊y⌋ + 1

/-- The exponent of the binade of a non-zero rational in binary64: the floor of
its binary logarithm, and `-1022` for the subnormal numbers. -/
def binary64_exponent (x : ℚ) : ℤ :=
  max (Int.log 2 |x|) (-1022)

/-- IEEE 754 binary64 rounding to nearest, ties to even, of a rational of
magnitude below `2^1024`: 53 significant bits, gradual underflow below
`2^-1022`. -/
def binary64 (x : ℚ) : ℚ :=
  if x = 0 then 0
  else (round_half_even (x / 2 ^ (binary64_exponent x - 52)) : ℚ) *
    2 ^ (binary64_exponent x - 52)

/-! ## The grammar, as trees

`expr -> term (('+'|'-') term)*`, `term -> factor (('*'|'/') factor)*`,
`factor -> ('+'|'-')* ('(' expr ')' | digit+)`.  A chain is kept as the
left-nested tree the loops of the evaluators build. -/

/-- A sentence of the grammar, read as a tree.  `Tree.WellFormed` says which
trees are sentences; `Tree.text` is the sentence. -/
inductive Tree where
  /-- `digit+`: a first digit and the digits after it -/
  | num (d : Fin 10) (ds : List (Fin 10))
  /-- `'+' factor` -/
  | pos (e : Tree)
  /-- `'-' factor` -/
  | neg (e : Tree)
  /-- `'(' expr ')'` -/
  | paren (e : Tree)
  /-- `term '*' factor` -/
  | mul (l r : Tree)
  /-- `term '/' factor` -/
  | div (l r : Tree)
  /-- `expr '+' term` -/
  | add (l r : Tree)
  /-- `expr '-' term` -/
  | sub (l r : Tree)

/-- The grammar level of a tree: 0 for a factor, 1 for a proper term, 2 for a
proper expression.  A factor is also a term and a term is also an expression. -/
def Tree.level : Tree → ℕ
  | .num _ _ => 0
  | .pos _ => 0
  | .neg _ => 0
  | .paren _ => 0
  | .mul _ _ => 1
  | .div _ _ => 1
  | .add _ _ => 2
  | .sub _ _ => 2

/-- The trees that are sentences of the grammar: a sign applies to a factor,
the right operand of `*` and `/` is a factor and the left one a term, the right
operand of `+` and `-` is a term. -/
def Tree.WellFormed : Tree → Prop
  | .num _ _ => True
  | .pos e => e.WellFormed ∧ e.level = 0
  | .neg e => e.WellFormed ∧ e.level = 0
  | .paren e => e.WellFormed
  | .mul l r => l.WellFormed ∧ r.WellFormed ∧ l.level ≤ 1 ∧ r.level = 0
  | .div l r => l.WellFormed ∧ r.WellFormed ∧ l.level ≤ 1 ∧ r.level = 0
  | .add l r => l.WellFormed ∧ r.WellFormed ∧ r.level ≤ 1
  | .sub l r => l.WellFormed ∧ r.WellFormed ∧ r.level ≤ 1

/-- The byte of a decimal digit. -/
def digit_char (d : Fin 10) : Char :=
  Char.ofNat (48 + d.val)

/-- The text of a number literal. -/
def digits_text (ds : List (Fin 10)) : List Char :=
  ds.map digit_char

/-- The natural number a run of digits denotes, continuing from `acc`. -/
def digits_value (acc : ℕ) (ds : List (Fin 10)) : ℕ :=
  ds.foldl (fun a d => a * 10 + d.val) acc

/-- The sentence of a tree, without whitespace (the sanitized form). -/
def Tree.text : Tree → List Char
  | .num d ds => digits_text (d :: ds)
  | .pos e => '+' :: e.text
  | .neg e => '-' :: e.text
  | .paren e => '(' :: (e.text ++ [')'])
  | .mul l r => l.text ++ '*' :: r.text
  | .div l r => l.text ++ '/' :: r.text
  | .add l r => l.text ++ '+' :: r.text
  | .sub l r => l.text ++ '-' :: r.text

/-- The true mathematical value of a tree under exact arithmetic; `none` when
a divisor is zero. -/
def Tree.exact : Tree → Option ℚ
  | .num d ds => some (digits_value 0 (d :: ds) : ℚ)
  | .pos e => e.exact
  | .neg e => e.exact.map (fun x => -x)
  | .paren e => e.exact
  | .mul l r => l.exact.bind fun a => r.exact.map fun b => a * b
  | .div l r => l.exact.bind fun a => r.exact.bind fun b => if b = 0 then none else some (a / b)
  | .add l r => l.exact.bind fun a => r.exact.map fun b => a + b
  | .sub l r => l.exact.bind fun a => r.exact.map fun b => a - b

/-- The tree itself and all the trees below it: the literals and the
intermediate results of the expression. -/
def Tree.subtrees : Tree → List Tree
  | .num d ds => [.num d ds]
  | .pos e => .pos e :: e.subtrees
  | .neg e => .neg e :: e.subtrees
  | .paren e => .paren e :: e.subtrees
  | .mul l r => .mul l r :: (l.subtrees ++ r.subtrees)
  | .div l r => .div l r :: (l.subtrees ++ r.subtrees)
  | .add l r => .add l r :: (l.subtrees ++ r.subtrees)
  | .sub l r => .sub l r :: (l.subtrees ++ r.subtrees)

/-- The integer range ceiling, `2 * 10^9`. -/
def INT_LIMIT : ℤ := 2000000000

/-- Keep an integer that is within the range ceiling. -/
def within_limit (z : ℤ) : Option ℤ :=
  if |z| ≤ INT_LIMIT then some z else none

/-- The reference semantics of integer mode: exact integers, every chain
applied left to right to a running value, `/` as floor division, and no value
unless every literal and every intermediate value is within the range ceiling
and no divisor is zero. -/
def Tree.value : Tree → Option ℤ
  | .num d ds => within_limit (digits_value 0 (d :: ds) : ℤ)
  | .pos e => e.value
  | .neg e => e.value.map (fun x => -x)
  | .paren e => e.value
  | .mul l r => l.value.bind fun a => r.value.bind fun b => within_limit (a * b)
  | .div l r => l.value.bind fun a => r.value.bind fun b =>
      if b = 0 then none else some ⌊(a : ℚ) / (b : ℚ)⌋
  | .add l r => l.value.bind fun a => r.value.bind fun b => within_limit (a + b)
  | .sub l r => l.value.bind fun a => r.value.bind fun b => within_limit (a - b)

/-- The output of `evaluate_factor` on a text with one more leading `-`. -/
def negate_result : Except ParseError (ℚ × List Char) → Except ParseError (ℚ × List Char)
  | .error e => .error e
  | .ok (v, s) => .ok (-v, s)

/-- The text `t` is read by integer-mode `evaluate_factor` as a factor of value
`z`, whatever follows it (as long as no digit follows directly). -/
def FactorParses (rnd : ℚ → ℚ) (t : List Char) (z : ℤ) : Prop :=
  ∀ rest : List Char, isdigit (peek rest) = false →
    ∃ n, evaluate_factor rnd false n (t ++ rest) = .ok ((z : ℚ), rest)

/-- The text `t` is read by integer-mode `evaluate_term` as the beginning of a
chain of `*` and `/` with running value `z`: the call continues as the loop of
`evaluate_term` does from `z` on what follows. -/
def TermParses (rnd : ℚ → ℚ) (t : List Char) (z : ℤ) : Prop :=
  ∀ (rest : List Char) (r : Except ParseError (ℚ × List Char)),
    isdigit (peek rest) = false → Settled r →
    (∃ n, evaluate_term_loop rnd false n (z : ℚ) (trim_spaces rest) = r) →
    ∃ n, evaluate_term rnd false n (t ++ rest) = r

/-- The text `t` is read by integer-mode `evaluate_expression` as the beginning
of a chain of `+` and `-` with running value `z`, when what follows does not
continue the last term. -/
def ExprParses (rnd : ℚ → ℚ) (t : List Char) (z : ℤ) : Prop :=
  ∀ (rest : List Char) (r : Except ParseError (ℚ × List Char)),
    isdigit (peek rest) = false →
    ¬ (peek (trim_spaces rest) = '*' ∨ peek (trim_spaces rest) = '/') → Settled r →
    (∃ n, evaluate_expression_loop rnd false n (z : ℚ) (trim_spaces rest) = r) →
    ∃ n, evaluate_expression rnd false n (t ++ rest) = r

/-- The text starts with a byte that is not whitespace. -/
def StartsDense (t : List Char) : Prop :=
  ∃ c t1, t = c :: t1 ∧ isspace c = false

/-- A number literal of the input: a non-empty run of decimal digits (leading
zeros allowed). -/
structure Literal where
  /-- the first digit -/
  first : Fin 10
  /-- the digits after the first -/
  more : List (Fin 10)

/-- The natural number the literal denotes. -/
def Literal.value (a : Literal) : ℕ :=
  digits_value 0 (a.first :: a.more)

/-- The bytes of the literal. -/
def Literal.text (a : Literal) : List Char :=
  digits_text (a.first :: a.more)

/-- The literal as a tree of the grammar. -/
def Literal.tree (a : Literal) : Tree :=
  .num a.first a.more

/-- Every byte of the run is `+`, `-` or whitespace: a run of unary signs as
`evaluate_factor` skips it. -/
def IsSignRun (signs : List Char) : Prop :=
  ∀ c ∈ signs, c = '+' ∨ c = '-' ∨ (c ≠ '\x00' ∧ isspace c = true)

/-! ## Whole numbers -/

/-- A whole number: the rational is an integer. -/
def IsWhole (x : ℚ) : Prop :=
  ∃ z : ℤ, x = (z : ℚ)

/-- An outcome of an evaluator that respects the whole-number discipline of
integer mode: it is neither of the errors `NonIntegerResult` and
`FinalNotInteger`, and its value, if it has one, is a whole number. -/
def WholeOutcome (r : Except ParseError (ℚ × List Char)) : Prop :=
  (∀ e, r = .error e → e ≠ .NonIntegerResult ∧ e ≠ .FinalNotInteger) ∧
  ∀ v s, r = .ok (v, s) → IsWhole v

/-- Within `1e-9` of the nearest integer. -/
def NearInteger (x : ℚ) : Prop :=
  |x - (c_round x : ℚ)| < 1 / 1000000000

/-! ## The grammar, as derivations -/

/-- The nonterminals of the grammar. -/
inductive Nonterminal where
  | expr
  | term
  | factor
  deriving DecidableEq

/-- Derivability from the grammar
`expr -> term (('+'|'-') term)*`, `term -> factor (('*'|'/') factor)*`,
`factor -> ('+'|'-')* ('(' expr ')' | digit+)`,
with the chains written as left recursion and the sign run as a prefix. -/
inductive Derives : Nonterminal → List Char → Prop
  /-- `digit+` -/
  | digits (ds : List Char) : ds ≠ [] → (∀ c ∈ ds, isdigit c = true) → Derives .factor ds
  /-- `'(' expr ')'` -/
  | paren (t : List Char) : Derives .expr t → Derives .factor ('(' :: (t ++ [')']))
  /-- one more leading `+` -/
  | plus (t : List Char) : Derives .factor t → Derives .factor ('+' :: t)
  /-- one more leading `-` -/
  | minus (t : List Char) : Derives .factor t → Derives .factor ('-' :: t)
  /-- a chain of one factor -/
  | of_factor (t : List Char) : Derives .factor t → Derives .term t
  /-- one more `'*' factor` -/
  | mul (t u : List Char) : Derives .term t → Derives .factor u →
      Derives .term (t ++ '*' :: u)
  /-- one more `'/' factor` -/
  | div (t u : List Char) : Derives .term t → Derives .factor u →
      Derives .term (t ++ '/' :: u)
  /-- a chain of one term -/
  | of_term (t : List Char) : Derives .term t → Derives .expr t
  /-- one more `'+' term` -/
  | add (t u : List Char) : Derives .expr t → Derives .term u →
      Derives .expr (t ++ '+' :: u)
  /-- one more `'-' term` -/
  | sub (t u : List Char) : Derives .expr t → Derives .term u →
      Derives .expr (t ++ '-' :: u)

/-- A text as `sanitize_input` leaves it: no whitespace and no NUL byte. -/
def Dense (s : List Char) : Prop :=
  ∀ c ∈ s, c ≠ '\x00' ∧ isspace c = false

/-- The level of a nonterminal, as `Tree.level` counts it. -/
def Nonterminal.level : Nonterminal → ℕ
  | .factor => 0
  | .term => 1
  | .expr => 2

/-! ## Reading a text in either mode -/

/-- The text `t` is read by `evaluate_factor`, in the mode `uf`, as a factor of
value `v`, whatever follows it (as long as no digit follows directly). -/
def FactorReads (rnd : ℚ → ℚ) (uf : Bool) (t : List Char) (v : ℚ) : Prop :=
  ∀ rest : List Char, isdigit (peek rest) = false →
    ∃ n, evaluate_factor rnd uf n (t ++ rest) = .ok (v, rest)

/-- The text `t` is read by `evaluate_term`, in the mode `uf`, as the beginning
of a chain of `*` and `/` with running value `v`: the call continues as the
loop of `evaluate_term` does from `v` on what follows. -/
def TermReads (rnd : ℚ → ℚ) (uf : Bool) (t : List Char) (v : ℚ) : Prop :=
  ∀ (rest : List Char) (r : Except ParseError (ℚ × List Char)),
    isdigit (peek rest) = false → Settled r →
    (∃ n, evaluate_term_loop rnd uf n v (trim_spaces rest) = r) →
    ∃ n, evaluate_term rnd uf n (t ++ rest) = r

/-- The text `t` is read by `evaluate_expression`, in the mode `uf`, as the
beginning of a chain of `+` and `-` with running value `v`, when what follows
does not continue the last term. -/
def ExprReads (rnd : ℚ → ℚ) (uf : Bool) (t : List Char) (v : ℚ) : Prop :=
  ∀ (rest : List Char) (r : Except ParseError (ℚ × List Char)),
    isdigit (peek rest) = false →
    ¬ (peek (trim_spaces rest) = '*' ∨ peek (trim_spaces rest) = '/') → Settled r →
    (∃ n, evaluate_expression_loop rnd uf n v (trim_spaces rest) = r) →
    ∃ n, evaluate_expression rnd uf n (t ++ rest) = r

/-! ## Float mode on trees, and the line it prints -/

/-- Keep a double that passes `validate_range`. -/
def within_ceiling (x : ℚ) : Option ℚ :=
  if -VALUE_LIMIT ≤ x ∧ x ≤ VALUE_LIMIT then some x else none

/-- The value of a tree in the double arithmetic of float mode, with the checks
of the program: a literal is kept when it is at most `2 * 10^9`; a product, a
quotient, a sum and a difference are rounded to a double and kept when the
double is within the range ceiling; a quotient is only taken when the divisor is
not below the double `1e-4` in magnitude.  `none` when a check fails. -/
def Tree.float_value (rnd : ℚ → ℚ) : Tree → Option ℚ
  | .num d ds =>
    if digits_value 0 (d :: ds) ≤ 2000000000 then some (digits_value 0 (d :: ds) : ℚ)
    else none
  | .pos e => e.float_value rnd
  | .neg e => (e.float_value rnd).map (fun x => -x)
  | .paren e => e.float_value rnd
  | .mul l r => (l.float_value rnd).bind fun a => (r.float_value rnd).bind fun b =>
      within_ceiling (rnd (a * b))
  | .div l r => (l.float_value rnd).bind fun a => (r.float_value rnd).bind fun b =>
      if |b| < rnd (1 / 10000) then none else within_ceiling (rnd (a / b))
  | .add l r => (l.float_value rnd).bind fun a => (r.float_value rnd).bind fun b =>
      within_ceiling (rnd (a + b))
  | .sub l r => (l.float_value rnd).bind fun a => (r.float_value rnd).bind fun b =>
      within_ceiling (rnd (a - b))

/-- The conversion `%.4f` of the C library's `printf`, after the C standard
with the default rounding direction of IEEE 754: for a finite double with the
sign bit `negative` and the magnitude `mag`, a minus sign when the sign bit is
set (also for a negative zero and for a negative value that rounds to zero),
then the magnitude rounded to the nearest multiple of `0.0001`, halfway cases
to even, written as its integer part in decimal, a point and four decimals. -/
def format_4f (negative : Bool) (mag : ℚ) : List Char :=
  let q : ℕ := (round_half_even (mag * 10000)).toNat
  (if negative then ['-'] else []) ++ Nat.toDigits 10 (q / 10000) ++
    ['.', Nat.digitChar (q / 1000 % 10), Nat.digitChar (q / 100 % 10),
      Nat.digitChar (q / 10 % 10), Nat.digitChar (q % 10)]

/-- A text that `printf("%.4f")` may write, before the newline, for a double
of value `x`.  The sign bit of a non-zero double is the sign of its value.  The
embedding does not keep the sign bit of a zero, so for the value zero both
`0.0000` and `-0.0000` are admitted. -/
def PrintsFloat (x : ℚ) (text : List Char) : Prop :=
  ∃ negative : Bool, (x < 0 → negative = true) ∧ (0 < x → negative = false) ∧
    text = format_4f negative |x|

/-- A float-mode run on the input succeeds and may write the text (followed by
a newline) on standard output: `printf("%.4f\n", result)`. -/
def FloatModePrints (rnd : ℚ → ℚ) (stdin : List Char) (text : List Char) : Prop :=
  ∃ x : ℚ, main rnd ["--float"] stdin = .ok (.floating x) ∧ PrintsFloat x text

/-! ## Failing on a text in either mode -/

/-- The call of `evaluate_factor`, in the mode `uf`, on the text `t` fails with
an error of the program, whatever follows (as long as no digit follows
directly). -/
def FactorFails (rnd : ℚ → ℚ) (uf : Bool) (t : List Char) : Prop :=
  ∀ rest : List Char, isdigit (peek rest) = false →
    ∃ n e, e ≠ ParseError.OutOfFuel ∧ evaluate_factor rnd uf n (t ++ rest) = .error e

/-- The call of `evaluate_term`, in the mode `uf`, on the text `t` fails with
an error of the program, whatever follows. -/
def TermFails (rnd : ℚ → ℚ) (uf : Bool) (t : List Char) : Prop :=
  ∀ rest : List Char, isdigit (peek rest) = false →
    ∃ n e, e ≠ ParseError.OutOfFuel ∧ evaluate_term rnd uf n (t ++ rest) = .error e

/-- The call of `evaluate_expression`, in the mode `uf`, on the text `t` fails
with an error of the program, when what follows does not continue the last
term. -/
def ExprFails (rnd : ℚ → ℚ) (uf : Bool) (t : List Char) : Prop :=
  ∀ rest : List Char, isdigit (peek rest) = false →
    ¬ (peek (trim_spaces rest) = '*' ∨ peek (trim_spaces rest) = '/') →
    ∃ n e, e ≠ ParseError.OutOfFuel ∧ evaluate_expression rnd uf n (t ++ rest) = .error e

/-! ## Elementary facts about the scanner and the checks -/

theorem peek_nil : peek [] = '\x00' := rfl

theorem peek_cons (c : Char) (s : List Char) : peek (c :: s) = c := rfl

theorem trim_spaces_suffix (s : List Char) : trim_spaces s <:+ s := by
  induction s with
  | nil => exact List.suffix_refl _
  | cons c s ih =>
    unfold trim_spaces
    split_ifs
    · exact ih.trans (List.suffix_cons c s)
    · exact List.suffix_refl _

theorem trim_spaces_length_le (s : List Char) : (trim_spaces s).length ≤ s.length :=
  (trim_spaces_suffix s).length_le

/-- After `trim_spaces` the cursor is at the terminator or at a byte that is not
whitespace. -/
theorem peek_trim_spaces (s : List Char) :
    peek (trim_spaces s) = '\x00' ∨ isspace (peek (trim_spaces s)) = false := by
  induction s with
  | nil => exact Or.inl rfl
  | cons c s ih =>
    unfold trim_spaces
    split_ifs with h
    · exact ih
    · rw [peek_cons]
      by_cases hc : c = '\x00'
      · exact Or.inl hc
      · right
        by_contra hsp
        exact h ⟨hc, by simpa using hsp⟩

theorem trim_spaces_of_not_isspace {c : Char} (s : List Char) (h : isspace c = false) :
    trim_spaces (c :: s) = c :: s := by
  unfold trim_spaces
  rw [if_neg]
  rintro ⟨-, h2⟩
  rw [h] at h2
  cases h2

theorem trim_spaces_nil : trim_spaces [] = [] := rfl

theorem validate_range_ok_iff {x : ℚ} {u : Unit} : validate_range x = .ok u ↔ InRange x := by
  unfold validate_range InRange
  by_cases hx : x < -VALUE_LIMIT ∨ x > VALUE_LIMIT
  · rw [if_pos hx]
    constructor
    · intro h; cases h
    · intro h
      rcases hx with hx | hx
      · exact absurd h.1 (not_le.mpr hx)
      · exact absurd h.2 (not_le.mpr hx)
  · rw [if_neg hx]
    push_neg at hx
    exact ⟨fun _ => hx, fun _ => rfl⟩

theorem validate_range_error {x : ℚ} {e : ParseError} (h : validate_range x = .error e) :
    e = .OutOfRange ∧ ¬ InRange x := by
  unfold validate_range at h
  by_cases hx : x < -VALUE_LIMIT ∨ x > VALUE_LIMIT
  · rw [if_pos hx] at h
    cases h
    refine ⟨rfl, fun hr => ?_⟩
    rcases hx with hx | hx
    · exact absurd hr.1 (not_le.mpr hx)
    · exact absurd hr.2 (not_le.mpr hx)
  · rw [if_neg hx] at h
    cases h

theorem validate_range_of_inRange {x : ℚ} (h : InRange x) : validate_range x = .ok () :=
  validate_range_ok_iff.mpr h

theorem inRange_neg {x : ℚ} (h : InRange x) : InRange (-x) := by
  unfold InRange at *
  constructor <;> linarith [h.1, h.2]

/-- `finish_factor` succeeds exactly when the signed value is within the range
ceiling, and then returns it with the cursor unchanged. -/
theorem finish_factor_ok_iff {negative : Bool} {val v : ℚ} {s s' : List Char} :
    finish_factor negative val s = .ok (v, s') ↔
      InRange v ∧ v = (if negative then -val else val) ∧ s' = s := by
  simp only [finish_factor]
  rcases hv : validate_range (if negative = true then -val else val) with e | u
  · simp only [reduceCtorEq, false_iff, not_and]
    intro h1 h2
    rw [h2] at h1
    rw [validate_range_of_inRange h1] at hv
    cases hv
  · simp only [Except.ok.injEq, Prod.mk.injEq]
    have := validate_range_ok_iff.mp hv
    constructor
    · rintro ⟨h1, h2⟩
      exact ⟨h1 ▸ this, h1.symm, h2.symm⟩
    · rintro ⟨-, h2, h3⟩
      exact ⟨h2.symm, h3.symm⟩

theorem finish_factor_settled (negative : Bool) (val : ℚ) (s : List Char) :
    Settled (finish_factor negative val s) := by
  simp only [finish_factor, Settled]
  rcases hv : validate_range (if negative = true then -val else val) with e | u
  · rw [(validate_range_error hv).1]
    simp
  · simp

theorem integer_divide_range {rnd : ℚ → ℚ} {a b v : ℚ}
    (h : integer_divide rnd a b = .ok v) : InRange v := by
  simp only [integer_divide] at h
  by_cases hb : |b| < rnd (1 / 10000)
  · simp only [if_pos hb, reduceCtorEq] at h
  · rcases hv : validate_range ((⌊rnd (a / b)⌋ : ℤ) : ℚ) with e | u
    · simp only [if_neg hb, hv, reduceCtorEq] at h
    · simp only [if_neg hb, hv, Except.ok.injEq] at h
      rw [← h]
      exact validate_range_ok_iff.mp hv

theorem floating_divide_range {rnd : ℚ → ℚ} {a b v : ℚ}
    (h : floating_divide rnd a b = .ok v) : InRange v := by
  simp only [floating_divide] at h
  by_cases hb : |b| < rnd (1 / 10000)
  · simp only [if_pos hb, reduceCtorEq] at h
  · rcases hv : validate_range (rnd (a / b)) with e | u
    · simp only [if_neg hb, hv, reduceCtorEq] at h
    · simp only [if_neg hb, hv, Except.ok.injEq] at h
      rw [← h]
      exact validate_range_ok_iff.mp hv

theorem integer_divide_settled (rnd : ℚ → ℚ) (a b : ℚ) : Settled (integer_divide rnd a b) := by
  simp only [integer_divide, Settled]
  by_cases hb : |b| < rnd (1 / 10000)
  · simp only [if_pos hb, ne_eq, Except.error.injEq, reduceCtorEq, not_false_eq_true]
  · rcases hv : validate_range ((⌊rnd (a / b)⌋ : ℤ) : ℚ) with e | u
    · simp only [if_neg hb, (validate_range_error hv).1, ne_eq, Except.error.injEq,
        reduceCtorEq, not_false_eq_true]
    · simp only [if_neg hb, ne_eq, reduceCtorEq, not_false_eq_true]

theorem floating_divide_settled (rnd : ℚ → ℚ) (a b : ℚ) :
    Settled (floating_divide rnd a b) := by
  simp only [floating_divide, Settled]
  by_cases hb : |b| < rnd (1 / 10000)
  · simp only [if_pos hb, ne_eq, Except.error.injEq, reduceCtorEq, not_false_eq_true]
  · rcases hv : validate_range (rnd (a / b)) with e | u
    · simp only [if_neg hb, (validate_range_error hv).1, ne_eq, Except.error.injEq,
        reduceCtorEq, not_false_eq_true]
    · simp only [if_neg hb, ne_eq, reduceCtorEq, not_false_eq_true]

/-! ## The range ceiling bounds every returned value -/

theorem evaluate_range (rnd : ℚ → ℚ) (uf : Bool) : ∀ n : ℕ,
    (∀ s v s', evaluate_factor rnd uf n s = .ok (v, s') → InRange v) ∧
    (∀ val s v s', InRange val → evaluate_term_loop rnd uf n val s = .ok (v, s') → InRange v) ∧
    (∀ s v s', evaluate_term rnd uf n s = .ok (v, s') → InRange v) ∧
    (∀ val s v s', InRange val →
      evaluate_expression_loop rnd uf n val s = .ok (v, s') → InRange v) ∧
    (∀ s v s', evaluate_expression rnd uf n s = .ok (v, s') → InRange v) := by
  intro n
  induction n with
  | zero =>
    refine ⟨?_, ?_, ?_, ?_, ?_⟩ <;> intros <;> simp_all [evaluate_factor, evaluate_term_loop,
      evaluate_term, evaluate_expression_loop, evaluate_expression]
  | succ n ih =>
    obtain ⟨ihF, ihTL, ihT, ihEL, ihE⟩ := ih
    refine ⟨?_, ?_, ?_, ?_, ?_⟩
    · intro s v s' h
      simp only [evaluate_factor] at h
      generalize sign_loop (trim_spaces s).length false (trim_spaces s) = sg at h
      by_cases hp : peek sg.2 = '('
      · simp only [if_pos hp] at h
        rcases hE : evaluate_expression rnd uf n sg.2.tail with e | ⟨val, s2⟩
        · simp only [hE, reduceCtorEq] at h
        · simp only [hE] at h
          by_cases hc : peek (trim_spaces s2) = ')'
          · simp only [if_pos hc] at h
            exact (finish_factor_ok_iff.mp h).1
          · simp only [if_neg hc, reduceCtorEq] at h
      · simp only [if_neg hp] at h
        rcases hN : extract_number rnd sg.2 with e | ⟨val, s2⟩
        · simp only [hN, reduceCtorEq] at h
        · simp only [hN] at h
          exact (finish_factor_ok_iff.mp h).1
    · intro val s v s' hval h
      simp only [evaluate_term_loop] at h
      by_cases hop : peek s = '*' ∨ peek s = '/'
      · simp only [if_pos hop] at h
        rcases hF : evaluate_factor rnd uf n (trim_spaces s.tail) with e | ⟨right, s1⟩
        · simp only [hF, reduceCtorEq] at h
        · simp only [hF] at h
          by_cases hmul : peek s = '*'
          · simp only [if_pos hmul] at h
            rcases hv : validate_range (rnd (val * right)) with e | u
            · simp only [hv, reduceCtorEq] at h
            · simp only [hv] at h
              by_cases hw : (!uf && !is_whole_number rnd (rnd (val * right))) = true
              · simp only [if_pos hw, reduceCtorEq] at h
              · simp only [if_neg hw] at h
                exact ihTL _ _ _ _ (validate_range_ok_iff.mp hv) h
          · simp only [if_neg hmul] at h
            rcases hd : (if uf = true then floating_divide rnd val right
                else integer_divide rnd val right) with e | val1
            · simp only [hd, reduceCtorEq] at h
            · simp only [hd] at h
              refine ihTL _ _ _ _ ?_ h
              by_cases hu : uf = true
              · rw [if_pos hu] at hd
                exact floating_divide_range hd
              · rw [if_neg hu] at hd
                exact integer_divide_range hd
      · simp only [if_neg hop, Except.ok.injEq, Prod.mk.injEq] at h
        rw [← h.1]
        exact hval
    · intro s v s' h
      simp only [evaluate_term] at h
      rcases hF : evaluate_factor rnd uf n s with e | ⟨val, s1⟩
      · simp only [hF, reduceCtorEq] at h
      · simp only [hF] at h
        exact ihTL _ _ _ _ (ihF _ _ _ hF) h
    · intro val s v s' hval h
      simp only [evaluate_expression_loop] at h
      by_cases hop : peek s = '+' ∨ peek s = '-'
      · simp only [if_pos hop] at h
        rcases hT : evaluate_term rnd uf n (trim_spaces s.tail) with e | ⟨right, s1⟩
        · simp only [hT, reduceCtorEq] at h
        · simp only [hT] at h
          generalize (if peek s = '+' then rnd (val + right) else rnd (val - right)) = val1 at h
          rcases hv : validate_range val1 with e | u
          · simp only [hv, reduceCtorEq] at h
          · simp only [hv] at h
            by_cases hw : (!uf && !is_whole_number rnd val1) = true
            · simp only [if_pos hw, reduceCtorEq] at h
            · simp only [if_neg hw] at h
              exact ihEL _ _ _ _ (validate_range_ok_iff.mp hv) h
      · simp only [if_neg hop, Except.ok.injEq, Prod.mk.injEq] at h
        rw [← h.1]
        exact hval
    · intro s v s' h
      simp only [evaluate_expression] at h
      rcases hT : evaluate_term rnd uf n s with e | ⟨val, s1⟩
      · simp only [hT, reduceCtorEq] at h
      · simp only [hT] at h
        exact ihEL _ _ _ _ (ihT _ _ _ hT) h

/-! ## The cursor only moves forward -/

theorem length_tail_of_peek {s : List Char} {c : Char} (h : peek s = c) (hc : c ≠ '\x00') :
    s.tail.length + 1 = s.length := by
  cases s with
  | nil => exact absurd h.symm hc
  | cons a t => simp

theorem sign_loop_suffix (k : ℕ) (negative : Bool) (s : List Char) :
    (sign_loop k negative s).2 <:+ s := by
  induction k generalizing negative s with
  | zero => exact List.suffix_refl _
  | succ k ih =>
    simp only [sign_loop]
    by_cases hop : peek s = '+' ∨ peek s = '-'
    · rw [if_pos hop]
      exact (ih _ _).trans ((trim_spaces_suffix _).trans (List.tail_suffix s))
    · rw [if_neg hop]

theorem extract_number_loop_suffix (rnd : ℚ → ℚ) (num : ℚ) (s : List Char) {v : ℚ}
    {s' : List Char} (h : extract_number_loop rnd num s = .ok (v, s')) : s' <:+ s := by
  induction s generalizing num with
  | nil =>
    simp only [extract_number_loop, Except.ok.injEq, Prod.mk.injEq] at h
    rw [← h.2]
  | cons c s ih =>
    simp only [extract_number_loop] at h
    by_cases hd : isdigit c = true
    · simp only [if_pos hd] at h
      split_ifs at h
      exact (ih _ h).trans (List.suffix_cons c s)
    · simp only [if_neg hd, Except.ok.injEq, Prod.mk.injEq] at h
      rw [← h.2]

theorem extract_number_suffix (rnd : ℚ → ℚ) (s : List Char) {v : ℚ}
    {s' : List Char} (h : extract_number rnd s = .ok (v, s')) : s' <:+ s := by
  simp only [extract_number] at h
  split_ifs at h
  exact (extract_number_loop_suffix rnd _ _ h).trans (trim_spaces_suffix s)

/-- The cursor only moves forward: what an evaluator leaves is a suffix of what
it was given. -/
theorem evaluate_suffix (rnd : ℚ → ℚ) (uf : Bool) : ∀ n : ℕ,
    (∀ s v s', evaluate_factor rnd uf n s = .ok (v, s') → s' <:+ s) ∧
    (∀ val s v s', evaluate_term_loop rnd uf n val s = .ok (v, s') → s' <:+ s) ∧
    (∀ s v s', evaluate_term rnd uf n s = .ok (v, s') → s' <:+ s) ∧
    (∀ val s v s', evaluate_expression_loop rnd uf n val s = .ok (v, s') → s' <:+ s) ∧
    (∀ s v s', evaluate_expression rnd uf n s = .ok (v, s') → s' <:+ s) := by
  intro n
  induction n with
  | zero =>
    refine ⟨?_, ?_, ?_, ?_, ?_⟩ <;> intros <;> simp_all [evaluate_factor, evaluate_term_loop,
      evaluate_term, evaluate_expression_loop, evaluate_expression]
  | succ n ih =>
    obtain ⟨ihF, ihTL, ihT, ihEL, ihE⟩ := ih
    refine ⟨?_, ?_, ?_, ?_, ?_⟩
    · intro s v s' h
      simp only [evaluate_factor] at h
      have hsg := (sign_loop_suffix (trim_spaces s).length false (trim_spaces s)).trans
        (trim_spaces_suffix s)
      generalize sign_loop (trim_spaces s).length false (trim_spaces s) = sg at h hsg
      by_cases hp : peek sg.2 = '('
      · simp only [if_pos hp] at h
        rcases hE : evaluate_expression rnd uf n sg.2.tail with e | ⟨val, s2⟩
        · simp only [hE, reduceCtorEq] at h
        · simp only [hE] at h
          by_cases hc : peek (trim_spaces s2) = ')'
          · simp only [if_pos hc] at h
            rw [(finish_factor_ok_iff.mp h).2.2]
            exact (List.tail_suffix _).trans ((trim_spaces_suffix _).trans
              ((ihE _ _ _ hE).trans ((List.tail_suffix _).trans hsg)))
          · simp only [if_neg hc, reduceCtorEq] at h
      · simp only [if_neg hp] at h
        rcases hN : extract_number rnd sg.2 with e | ⟨val, s2⟩
        · simp only [hN, reduceCtorEq] at h
        · simp only [hN] at h
          rw [(finish_factor_ok_iff.mp h).2.2]
          exact (extract_number_suffix rnd _ hN).trans hsg
    · intro val s v s' h
      simp only [evaluate_term_loop] at h
      by_cases hop : peek s = '*' ∨ peek s = '/'
      · simp only [if_pos hop] at h
        rcases hF : evaluate_factor rnd uf n (trim_spaces s.tail) with e | ⟨right, s1⟩
        · simp only [hF, reduceCtorEq] at h
        · simp only [hF] at h
          have hs1 : trim_spaces s1 <:+ s :=
            (trim_spaces_suffix _).trans ((ihF _ _ _ hF).trans
              ((trim_spaces_suffix _).trans (List.tail_suffix s)))
          by_cases hmul : peek s = '*'
          · simp only [if_pos hmul] at h
            rcases hv : validate_range (rnd (val * right)) with e | u
            · simp only [hv, reduceCtorEq] at h
            · simp only [hv] at h
              by_cases hw : (!uf && !is_whole_number rnd (rnd (val * right))) = true
              · simp only [if_pos hw, reduceCtorEq] at h
              · simp only [if_neg hw] at h
                exact (ihTL _ _ _ _ h).trans hs1
          · simp only [if_neg hmul] at h
            rcases hd : (if uf = true then floating_divide rnd val right
                else integer_divide rnd val right) with e | val1
            · simp only [hd, reduceCtorEq] at h
            · simp only [hd] at h
              exact (ihTL _ _ _ _ h).trans hs1
      · simp only [if_neg hop, Except.ok.injEq, Prod.mk.injEq] at h
        rw [← h.2]
    · intro s v s' h
      simp only [evaluate_term] at h
      rcases hF : evaluate_factor rnd uf n s with e | ⟨val, s1⟩
      · simp only [hF, reduceCtorEq] at h
      · simp only [hF] at h
        exact (ihTL _ _ _ _ h).trans ((trim_spaces_suffix _).trans (ihF _ _ _ hF))
    · intro val s v s' h
      simp only [evaluate_expression_loop] at h
      by_cases hop : peek s = '+' ∨ peek s = '-'
      · simp only [if_pos hop] at h
        rcases hT : evaluate_term rnd uf n (trim_spaces s.tail) with e | ⟨right, s1⟩
        · simp only [hT, reduceCtorEq] at h
        · simp only [hT] at h
          have hs1 : trim_spaces s1 <:+ s :=
            (trim_spaces_suffix _).trans ((ihT _ _ _ hT).trans
              ((trim_spaces_suffix _).trans (List.tail_suffix s)))
          generalize (if peek s = '+' then rnd (val + right) else rnd (val - right)) = val1 at h
          rcases hv : validate_range val1 with e | u
          · simp only [hv, reduceCtorEq] at h
          · simp only [hv] at h
            by_cases hw : (!uf && !is_whole_number rnd val1) = true
            · simp only [if_pos hw, reduceCtorEq] at h
            · simp only [if_neg hw] at h
              exact (ihEL _ _ _ _ h).trans hs1
      · simp only [if_neg hop, Except.ok.injEq, Prod.mk.injEq] at h
        rw [← h.2]
    · intro s v s' h
      simp only [evaluate_expression] at h
      rcases hT : evaluate_term rnd uf n s with e | ⟨val, s1⟩
      · simp only [hT, reduceCtorEq] at h
      · simp only [hT] at h
        exact (ihEL _ _ _ _ h).trans ((trim_spaces_suffix _).trans (ihT _ _ _ hT))

/-! ## The recursion budget

Three units per byte are never exhausted, and more budget does not change a
result. -/

theorem settled_ok {α : Type} (a : α) : Settled (Except.ok a : Except ParseError α) := by
  simp [Settled]

theorem settled_error {α : Type} {e : ParseError} (h : e ≠ .OutOfFuel) :
    Settled (Except.error e : Except ParseError α) := by
  simpa [Settled] using h

theorem not_settled_outOfFuel {α : Type} :
    ¬ Settled (Except.error ParseError.OutOfFuel : Except ParseError α) := by
  simp [Settled]

theorem error_ne_of_settled {α : Type} {x : Except ParseError α} {e : ParseError}
    (hx : Settled x) (h : x = .error e) : e ≠ .OutOfFuel := by
  intro he
  rw [h, he] at hx
  exact not_settled_outOfFuel hx

theorem extract_number_loop_settled (rnd : ℚ → ℚ) (num : ℚ) (s : List Char) :
    Settled (extract_number_loop rnd num s) := by
  induction s generalizing num with
  | nil => exact settled_ok _
  | cons c s ih =>
    simp only [extract_number_loop]
    split_ifs
    · exact settled_error (by decide)
    · exact ih _
    · exact settled_ok _

theorem extract_number_settled (rnd : ℚ → ℚ) (s : List Char) :
    Settled (extract_number rnd s) := by
  simp only [extract_number]
  by_cases hd : ¬ isdigit (peek (trim_spaces s)) = true
  · rw [if_pos hd]
    exact settled_error (by decide)
  · rw [if_neg hd]
    exact extract_number_loop_settled rnd _ _

/-- A recursion budget of three per byte of text (plus three) is never
exhausted. -/
theorem evaluate_settled (rnd : ℚ → ℚ) (uf : Bool) : ∀ n : ℕ,
    (∀ s, 3 * s.length + 1 ≤ n → Settled (evaluate_factor rnd uf n s)) ∧
    (∀ val s, 3 * s.length + 1 ≤ n → Settled (evaluate_term_loop rnd uf n val s)) ∧
    (∀ s, 3 * s.length + 2 ≤ n → Settled (evaluate_term rnd uf n s)) ∧
    (∀ val s, 3 * s.length + 1 ≤ n → Settled (evaluate_expression_loop rnd uf n val s)) ∧
    (∀ s, 3 * s.length + 3 ≤ n → Settled (evaluate_expression rnd uf n s)) := by
  intro n
  induction n with
  | zero =>
    refine ⟨?_, ?_, ?_, ?_, ?_⟩ <;> intros <;> omega
  | succ n ih =>
    obtain ⟨ihF, ihTL, ihT, ihEL, ihE⟩ := ih
    refine ⟨?_, ?_, ?_, ?_, ?_⟩
    · intro s hn
      simp only [evaluate_factor]
      have hsg := ((sign_loop_suffix (trim_spaces s).length false (trim_spaces s)).trans
        (trim_spaces_suffix s)).length_le
      generalize sign_loop (trim_spaces s).length false (trim_spaces s) = sg at hsg
      by_cases hp : peek sg.2 = '('
      · simp only [if_pos hp]
        have hlen := length_tail_of_peek hp (by decide)
        have hE := ihE sg.2.tail (by omega)
        rcases hr : evaluate_expression rnd uf n sg.2.tail with e | ⟨val, s2⟩
        · exact settled_error (error_ne_of_settled hE hr)
        · simp only
          split_ifs
          · exact finish_factor_settled _ _ _
          · exact settled_error (by decide)
      · simp only [if_neg hp]
        rcases hr : extract_number rnd sg.2 with e | ⟨val, s2⟩
        · exact settled_error (error_ne_of_settled (extract_number_settled rnd _) hr)
        · exact finish_factor_settled _ _ _
    · intro val s hn
      simp only [evaluate_term_loop]
      by_cases hop : peek s = '*' ∨ peek s = '/'
      · simp only [if_pos hop]
        have hlen : s.tail.length + 1 = s.length := by
          rcases hop with h | h
          · exact length_tail_of_peek h (by decide)
          · exact length_tail_of_peek h (by decide)
        have htl := trim_spaces_length_le s.tail
        have hF := ihF (trim_spaces s.tail) (by omega)
        rcases hr : evaluate_factor rnd uf n (trim_spaces s.tail) with e | ⟨right, s1⟩
        · exact settled_error (error_ne_of_settled hF hr)
        · simp only
          have hs1 := ((evaluate_suffix rnd uf n).1 _ _ _ hr).length_le
          have hs2 := trim_spaces_length_le s1
          by_cases hmul : peek s = '*'
          · simp only [if_pos hmul]
            rcases hv : validate_range (rnd (val * right)) with e | u
            · exact settled_error (by rw [(validate_range_error hv).1]; decide)
            · simp only
              split_ifs
              · exact settled_error (by decide)
              · exact ihTL _ _ (by omega)
          · simp only [if_neg hmul]
            rcases hd : (if uf = true then floating_divide rnd val right
                else integer_divide rnd val right) with e | val1
            · refine settled_error (error_ne_of_settled ?_ hd)
              split_ifs
              · exact floating_divide_settled _ _ _
              · exact integer_divide_settled _ _ _
            · exact ihTL _ _ (by omega)
      · simp only [if_neg hop]
        exact settled_ok _
    · intro s hn
      simp only [evaluate_term]
      have hF := ihF s (by omega)
      rcases hr : evaluate_factor rnd uf n s with e | ⟨val, s1⟩
      · exact settled_error (error_ne_of_settled hF hr)
      · have hs1 := ((evaluate_suffix rnd uf n).1 _ _ _ hr).length_le
        have hs2 := trim_spaces_length_le s1
        exact ihTL _ _ (by omega)
    · intro val s hn
      simp only [evaluate_expression_loop]
      by_cases hop : peek s = '+' ∨ peek s = '-'
      · simp only [if_pos hop]
        have hlen : s.tail.length + 1 = s.length := by
          rcases hop with h | h
          · exact length_tail_of_peek h (by decide)
          · exact length_tail_of_peek h (by decide)
        have htl := trim_spaces_length_le s.tail
        have hT := ihT (trim_spaces s.tail) (by omega)
        rcases hr : evaluate_term rnd uf n (trim_spaces s.tail) with e | ⟨right, s1⟩
        · exact settled_error (error_ne_of_settled hT hr)
        · simp only
          have hs1 := ((evaluate_suffix rnd uf n).2.2.1 _ _ _ hr).length_le
          have hs2 := trim_spaces_length_le s1
          generalize (if peek s = '+' then rnd (val + right) else rnd (val - right)) = val1
          rcases hv : validate_range val1 with e | u
          · exact settled_error (by rw [(validate_range_error hv).1]; decide)
          · simp only
            split_ifs
            · exact settled_error (by decide)
            · exact ihEL _ _ (by omega)
      · simp only [if_neg hop]
        exact settled_ok _
    · intro s hn
      simp only [evaluate_expression]
      have hT := ihT s (by omega)
      rcases hr : evaluate_term rnd uf n s with e | ⟨val, s1⟩
      · exact settled_error (error_ne_of_settled hT hr)
      · have hs1 := ((evaluate_suffix rnd uf n).2.2.1 _ _ _ hr).length_le
        have hs2 := trim_spaces_length_le s1
        exact ihEL _ _ (by omega)

/-- More budget does not change a result of the program. -/
theorem evaluate_fuel_succ (rnd : ℚ → ℚ) (uf : Bool) : ∀ n : ℕ,
    (∀ s, Settled (evaluate_factor rnd uf n s) →
      evaluate_factor rnd uf (n + 1) s = evaluate_factor rnd uf n s) ∧
    (∀ val s, Settled (evaluate_term_loop rnd uf n val s) →
      evaluate_term_loop rnd uf (n + 1) val s = evaluate_term_loop rnd uf n val s) ∧
    (∀ s, Settled (evaluate_term rnd uf n s) →
      evaluate_term rnd uf (n + 1) s = evaluate_term rnd uf n s) ∧
    (∀ val s, Settled (evaluate_expression_loop rnd uf n val s) →
      evaluate_expression_loop rnd uf (n + 1) val s =
        evaluate_expression_loop rnd uf n val s) ∧
    (∀ s, Settled (evaluate_expression rnd uf n s) →
      evaluate_expression rnd uf (n + 1) s = evaluate_expression rnd uf n s) := by
  intro n
  induction n with
  | zero =>
    refine ⟨?_, ?_, ?_, ?_, ?_⟩ <;> intros <;> simp_all [evaluate_factor, evaluate_term_loop,
      evaluate_term, evaluate_expression_loop, evaluate_expression, Settled]
  | succ n ih =>
    obtain ⟨ihF, ihTL, ihT, ihEL, ihE⟩ := ih
    refine ⟨?_, ?_, ?_, ?_, ?_⟩
    · intro s hs
      rw [evaluate_factor, evaluate_factor] at *
      simp only at hs ⊢
      generalize sign_loop (trim_spaces s).length false (trim_spaces s) = sg at hs ⊢
      by_cases hp : peek sg.2 = '('
      · simp only [if_pos hp] at hs ⊢
        have hE : Settled (evaluate_expression rnd uf n sg.2.tail) := by
          intro hr
          rw [hr] at hs
          exact not_settled_outOfFuel hs
        rw [ihE _ hE]
      · simp only [if_neg hp] at hs ⊢
    · intro val s hs
      rw [evaluate_term_loop, evaluate_term_loop] at *
      simp only at hs ⊢
      by_cases hop : peek s = '*' ∨ peek s = '/'
      · simp only [if_pos hop] at hs ⊢
        have hF : Settled (evaluate_factor rnd uf n (trim_spaces s.tail)) := by
          intro hr
          rw [hr] at hs
          exact not_settled_outOfFuel hs
        rw [ihF _ hF]
        rcases hr : evaluate_factor rnd uf n (trim_spaces s.tail) with e | ⟨right, s1⟩
        · rfl
        · simp only [hr] at hs ⊢
          by_cases hmul : peek s = '*'
          · simp only [if_pos hmul] at hs ⊢
            rcases hv : validate_range (rnd (val * right)) with e | u
            · rfl
            · simp only [hv] at hs ⊢
              by_cases hw : (!uf && !is_whole_number rnd (rnd (val * right))) = true
              · simp only [if_pos hw]
              · simp only [if_neg hw] at hs ⊢
                exact ihTL _ _ hs
          · simp only [if_neg hmul] at hs ⊢
            rcases hd : (if uf = true then floating_divide rnd val right
                else integer_divide rnd val right) with e | val1
            · rfl
            · simp only [hd] at hs ⊢
              exact ihTL _ _ hs
      · simp only [if_neg hop]
    · intro s hs
      rw [evaluate_term, evaluate_term] at *
      have hF : Settled (evaluate_factor rnd uf n s) := by
        intro hr
        rw [hr] at hs
        exact not_settled_outOfFuel hs
      rw [ihF _ hF]
      rcases hr : evaluate_factor rnd uf n s with e | ⟨val, s1⟩
      · rfl
      · simp only [hr] at hs ⊢
        exact ihTL _ _ hs
    · intro val s hs
      rw [evaluate_expression_loop, evaluate_expression_loop] at *
      simp only at hs ⊢
      by_cases hop : peek s = '+' ∨ peek s = '-'
      · simp only [if_pos hop] at hs ⊢
        have hT : Settled (evaluate_term rnd uf n (trim_spaces s.tail)) := by
          intro hr
          rw [hr] at hs
          exact not_settled_outOfFuel hs
        rw [ihT _ hT]
        rcases hr : evaluate_term rnd uf n (trim_spaces s.tail) with e | ⟨right, s1⟩
        · rfl
        · simp only [hr] at hs ⊢
          generalize (if peek s = '+' then rnd (val + right) else rnd (val - right)) = val1
            at hs ⊢
          rcases hv : validate_range val1 with e | u
          · rfl
          · simp only [hv] at hs ⊢
            by_cases hw : (!uf && !is_whole_number rnd val1) = true
            · simp only [if_pos hw]
            · simp only [if_neg hw] at hs ⊢
              exact ihEL _ _ hs
      · simp only [if_neg hop]
    · intro s hs
      rw [evaluate_expression, evaluate_expression] at *
      have hT : Settled (evaluate_term rnd uf n s) := by
        intro hr
        rw [hr] at hs
        exact not_settled_outOfFuel hs
      rw [ihT _ hT]
      rcases hr : evaluate_term rnd uf n s with e | ⟨val, s1⟩
      · rfl
      · simp only [hr] at hs ⊢
        exact ihEL _ _ hs

/-! ## IEEE 754 binary64 rounding is a double rounding -/

theorem floor_le_round_half_even (y : ℚ) : ⌊y⌋ ≤ round_half_even y := by
  unfold round_half_even
  split_ifs <;> omega

theorem round_half_even_le_floor_add_one (y : ℚ) : round_half_even y ≤ ⌊y⌋ + 1 := by
  unfold round_half_even
  split_ifs <;> omega

theorem round_half_even_int (n : ℤ) : round_half_even (n : ℚ) = n := by
  unfold round_half_even
  rw [Int.floor_intCast, sub_self, if_pos (by norm_num)]

theorem abs_round_half_even_sub_le (y : ℚ) : |(round_half_even y : ℚ) - y| ≤ 1 / 2 := by
  have h1 := Int.floor_le y
  have h2 := Int.lt_floor_add_one y
  unfold round_half_even
  rw [abs_le]
  split_ifs with ha hb hc
  · constructor <;> linarith
  · push_cast
    constructor <;> linarith
  · constructor <;> linarith
  · push_cast
    constructor <;> linarith

theorem round_half_even_mono {y z : ℚ} (h : y ≤ z) : round_half_even y ≤ round_half_even z := by
  rcases (Int.floor_mono h).lt_or_eq with hlt | heq
  · have h1 := round_half_even_le_floor_add_one y
    have h2 := floor_le_round_half_even z
    omega
  · unfold round_half_even
    rw [heq]
    have hyz : y - (⌊z⌋ : ℚ) ≤ z - (⌊z⌋ : ℚ) := by linarith
    split_ifs <;> first | omega | (exfalso; linarith)

theorem le_round_half_even {m : ℤ} {y : ℚ} (h : (m : ℚ) ≤ y) : m ≤ round_half_even y := by
  have := round_half_even_mono h
  rwa [round_half_even_int] at this

theorem round_half_even_le {m : ℤ} {y : ℚ} (h : y ≤ (m : ℚ)) : round_half_even y ≤ m := by
  have := round_half_even_mono h
  rwa [round_half_even_int] at this


theorem binary64_of_ne_zero {x : ℚ} (hx : x ≠ 0) :
    binary64 x = (round_half_even (x / 2 ^ (binary64_exponent x - 52)) : ℚ) *
      2 ^ (binary64_exponent x - 52) := by
  rw [binary64, if_neg hx]

theorem binary64_zero : binary64 0 = 0 := by
  rw [binary64, if_pos rfl]

theorem ulp_pos (e : ℤ) : (0 : ℚ) < 2 ^ (e - 52) := zpow_pos (by norm_num) _

theorem two_zpow_eq_mul_ulp (e : ℤ) (k : ℕ) :
    (2 : ℚ) ^ (e - 52 + k) = ((2 ^ k : ℤ) : ℚ) * 2 ^ (e - 52) := by
  rw [zpow_add₀ (by norm_num), zpow_natCast, mul_comm]
  push_cast
  rfl

theorem abs_lt_two_zpow_exponent {x : ℚ} : |x| < 2 ^ (binary64_exponent x + 1) := by
  have h1 := Int.lt_zpow_succ_log_self (b := 2) (by norm_num) |x|
  have h2 : ((2 : ℕ) : ℚ) ^ (Int.log 2 |x| + 1) ≤ 2 ^ (binary64_exponent x + 1) := by
    rw [Nat.cast_ofNat]
    exact zpow_le_zpow_right₀ (by norm_num) (by unfold binary64_exponent; omega)
  exact lt_of_lt_of_le h1 h2

theorem two_zpow_exponent_le_abs {x : ℚ} (hx : x ≠ 0) (h : -1022 ≤ Int.log 2 |x|) :
    2 ^ binary64_exponent x ≤ |x| := by
  have h1 := Int.zpow_log_le_self (b := 2) (r := |x|) (by norm_num) (abs_pos.mpr hx)
  rw [Nat.cast_ofNat] at h1
  have h2 : binary64_exponent x = Int.log 2 |x| := by
    unfold binary64_exponent
    omega
  rw [h2]
  exact h1

/-- A multiple of the unit in the last place that is an integer number of
units is a double. -/
theorem binary64_of_int_mul_ulp {x : ℚ} (hx : x ≠ 0) (k : ℤ)
    (hk : x = (k : ℚ) * 2 ^ (binary64_exponent x - 52)) : binary64 x = x := by
  have hu := ulp_pos (binary64_exponent x)
  have : x / 2 ^ (binary64_exponent x - 52) = (k : ℚ) := by
    rw [div_eq_iff hu.ne']
    exact hk
  rw [binary64_of_ne_zero hx, this, round_half_even_int, ← hk]

theorem binary64_exponent_int {n : ℤ} (hn : n ≠ 0) (hle : |n| ≤ 2 ^ 53) :
    binary64_exponent (n : ℚ) = Int.log 2 |(n : ℚ)| ∧ 0 ≤ Int.log 2 |(n : ℚ)| ∧
      Int.log 2 |(n : ℚ)| ≤ 53 := by
  have hpos : (0 : ℚ) < |(n : ℚ)| := abs_pos.mpr (by exact_mod_cast hn)
  have h1 : (1 : ℚ) ≤ |(n : ℚ)| := by
    have := Int.one_le_abs hn
    rw [← Int.cast_abs]
    exact_mod_cast this
  have h2 : |(n : ℚ)| < 2 ^ (54 : ℤ) := by
    rw [← Int.cast_abs]
    have : |n| < 2 ^ 54 := lt_of_le_of_lt hle (by norm_num)
    have h3 : ((|n| : ℤ) : ℚ) < ((2 ^ 54 : ℤ) : ℚ) := by exact_mod_cast this
    refine lt_of_lt_of_le h3 (le_of_eq ?_)
    norm_num
  have hlo : 0 ≤ Int.log 2 |(n : ℚ)| := by
    rw [← Int.zpow_le_iff_le_log (by norm_num) hpos]
    simpa using h1
  have hhi : Int.log 2 |(n : ℚ)| < 54 := by
    rw [← Int.lt_zpow_iff_log_lt (by norm_num) hpos]
    simpa using h2
  refine ⟨?_, hlo, by omega⟩
  unfold binary64_exponent
  omega

/-- Integers of magnitude up to `2^53` are doubles. -/
theorem binary64_int (n : ℤ) (hle : |n| ≤ 2 ^ 53) : binary64 (n : ℚ) = (n : ℚ) := by
  by_cases hn : n = 0
  · rw [hn, Int.cast_zero, binary64_zero]
  have hnq : (n : ℚ) ≠ 0 := by exact_mod_cast hn
  obtain ⟨he, hlo, hhi⟩ := binary64_exponent_int hn hle
  rcases hhi.lt_or_eq with hlt | heq
  · -- the unit in the last place is `2 ^ -m` for a natural `m`
    obtain ⟨m, hm⟩ : ∃ m : ℕ, (m : ℤ) = 52 - Int.log 2 |(n : ℚ)| :=
      ⟨(52 - Int.log 2 |(n : ℚ)|).toNat, Int.toNat_of_nonneg (by omega)⟩
    apply binary64_of_int_mul_ulp hnq (n * 2 ^ m)
    rw [he]
    have hexp : Int.log 2 |(n : ℚ)| - 52 = -(m : ℤ) := by omega
    rw [hexp, zpow_neg, zpow_natCast]
    push_cast
    field_simp
  · -- `|n| = 2 ^ 53`
    have hpos : (0 : ℚ) < |(n : ℚ)| := abs_pos.mpr hnq
    have h1 := Int.zpow_log_le_self (b := 2) (r := |(n : ℚ)|) (by norm_num) hpos
    rw [heq] at h1
    have h2 : (2 : ℤ) ^ 53 ≤ |n| := by
      have h3 : ((2 ^ 53 : ℤ) : ℚ) ≤ ((|n| : ℤ) : ℚ) := by
        rw [Int.cast_abs]
        refine le_trans (le_of_eq ?_) h1
        norm_num
      exact_mod_cast h3
    have habs : |n| = 2 ^ 53 := le_antisymm hle h2
    have hk : ∃ k : ℤ, n = 2 * k := by
      rcases abs_eq (by norm_num : (0 : ℤ) ≤ 2 ^ 53) |>.mp habs with h | h
      · exact ⟨2 ^ 52, by rw [h]; norm_num⟩
      · exact ⟨-2 ^ 52, by rw [h]; norm_num⟩
    obtain ⟨k, hk⟩ := hk
    apply binary64_of_int_mul_ulp hnq k
    rw [he, heq, hk]
    push_cast
    norm_num
    ring

/-- In the normal range the error of a rounding is at most `2^-53` of the
magnitude. -/
theorem binary64_rel_error (x : ℚ) (hlo : 1 / 2 ^ 64 ≤ |x|) (_hhi : |x| ≤ 2 ^ 64) :
    |binary64 x - x| ≤ |x| / 2 ^ 53 := by
  have hpos : 0 < |x| := lt_of_lt_of_le (by positivity) hlo
  have hx : x ≠ 0 := abs_pos.mp hpos
  have hlog : -1022 ≤ Int.log 2 |x| := by
    have : (-64 : ℤ) ≤ Int.log 2 |x| := by
      rw [← Int.zpow_le_iff_le_log (by norm_num) hpos]
      refine le_trans (le_of_eq ?_) hlo
      norm_num
    omega
  have hE := two_zpow_exponent_le_abs hx hlog
  have hu := ulp_pos (binary64_exponent x)
  have herr := abs_round_half_even_sub_le (x / 2 ^ (binary64_exponent x - 52))
  have hsplit : binary64 x - x =
      ((round_half_even (x / 2 ^ (binary64_exponent x - 52)) : ℚ) -
        x / 2 ^ (binary64_exponent x - 52)) * 2 ^ (binary64_exponent x - 52) := by
    rw [binary64_of_ne_zero hx, sub_mul, div_mul_cancel₀ _ hu.ne']
  have hulp : (2 : ℚ) ^ (binary64_exponent x - 52) = 2 ^ binary64_exponent x / 2 ^ 52 := by
    rw [zpow_sub₀ (by norm_num)]
    norm_num
  rw [hsplit, abs_mul, abs_of_pos hu, hulp]
  have h2 : (0 : ℚ) < 2 ^ binary64_exponent x := zpow_pos (by norm_num) _
  calc |(round_half_even (x / (2 ^ binary64_exponent x / 2 ^ 52)) : ℚ) -
          x / (2 ^ binary64_exponent x / 2 ^ 52)| * (2 ^ binary64_exponent x / 2 ^ 52)
      ≤ 1 / 2 * (2 ^ binary64_exponent x / 2 ^ 52) := by
        rw [hulp] at herr
        exact mul_le_mul_of_nonneg_right herr (by positivity)
    _ = 2 ^ binary64_exponent x / 2 ^ 53 := by ring
    _ ≤ |x| / 2 ^ 53 := by
        apply div_le_div_of_nonneg_right hE (by positivity)

theorem binary64_nonneg {x : ℚ} (hx : 0 < x) : 0 ≤ binary64 x := by
  have hu := ulp_pos (binary64_exponent x)
  rw [binary64_of_ne_zero hx.ne']
  have : (0 : ℤ) ≤ round_half_even (x / 2 ^ (binary64_exponent x - 52)) :=
    le_round_half_even (by push_cast; positivity)
  have h2 : (0 : ℚ) ≤ (round_half_even (x / 2 ^ (binary64_exponent x - 52)) : ℚ) := by
    exact_mod_cast this
  positivity

theorem binary64_nonpos {x : ℚ} (hx : x < 0) : binary64 x ≤ 0 := by
  have hu := ulp_pos (binary64_exponent x)
  rw [binary64_of_ne_zero hx.ne]
  have : round_half_even (x / 2 ^ (binary64_exponent x - 52)) ≤ (0 : ℤ) :=
    round_half_even_le (by
      push_cast
      exact div_nonpos_of_nonpos_of_nonneg hx.le hu.le)
  have h2 : (round_half_even (x / 2 ^ (binary64_exponent x - 52)) : ℚ) ≤ 0 := by
    exact_mod_cast this
  exact mul_nonpos_of_nonpos_of_nonneg h2 hu.le

/-- A rounding stays within the binade bounds `k * ulp` that enclose the
number. -/
theorem binary64_le_of_le_mul_ulp {x : ℚ} (hx : x ≠ 0) (k : ℤ)
    (h : x ≤ (k : ℚ) * 2 ^ (binary64_exponent x - 52)) :
    binary64 x ≤ (k : ℚ) * 2 ^ (binary64_exponent x - 52) := by
  have hu := ulp_pos (binary64_exponent x)
  rw [binary64_of_ne_zero hx]
  have : round_half_even (x / 2 ^ (binary64_exponent x - 52)) ≤ k :=
    round_half_even_le (by rw [div_le_iff₀ hu]; exact h)
  have h2 : (round_half_even (x / 2 ^ (binary64_exponent x - 52)) : ℚ) ≤ (k : ℚ) := by
    exact_mod_cast this
  exact mul_le_mul_of_nonneg_right h2 hu.le

theorem binary64_ge_of_mul_ulp_le {x : ℚ} (hx : x ≠ 0) (k : ℤ)
    (h : (k : ℚ) * 2 ^ (binary64_exponent x - 52) ≤ x) :
    (k : ℚ) * 2 ^ (binary64_exponent x - 52) ≤ binary64 x := by
  have hu := ulp_pos (binary64_exponent x)
  rw [binary64_of_ne_zero hx]
  have : k ≤ round_half_even (x / 2 ^ (binary64_exponent x - 52)) :=
    le_round_half_even (by rw [le_div_iff₀ hu]; exact h)
  have h2 : (k : ℚ) ≤ (round_half_even (x / 2 ^ (binary64_exponent x - 52)) : ℚ) := by
    exact_mod_cast this
  exact mul_le_mul_of_nonneg_right h2 hu.le

theorem two_zpow_succ_eq (e : ℤ) : (2 : ℚ) ^ (e + 1) = ((2 ^ 53 : ℤ) : ℚ) * 2 ^ (e - 52) := by
  have := two_zpow_eq_mul_ulp e 53
  rw [← this]
  congr 1
  push_cast
  ring

theorem two_zpow_eq (e : ℤ) : (2 : ℚ) ^ e = ((2 ^ 52 : ℤ) : ℚ) * 2 ^ (e - 52) := by
  have := two_zpow_eq_mul_ulp e 52
  rw [← this]
  congr 1
  push_cast
  ring

theorem binary64_le_top {x : ℚ} (hx : x ≠ 0) : binary64 x ≤ 2 ^ (binary64_exponent x + 1) := by
  rw [two_zpow_succ_eq]
  apply binary64_le_of_le_mul_ulp hx
  rw [← two_zpow_succ_eq]
  exact (le_abs_self x).trans abs_lt_two_zpow_exponent.le

theorem neg_two_zpow_succ_eq (e : ℤ) :
    -(2 : ℚ) ^ (e + 1) = ((-(2 ^ 53) : ℤ) : ℚ) * 2 ^ (e - 52) := by
  rw [two_zpow_succ_eq]
  push_cast
  ring

theorem neg_two_zpow_eq (e : ℤ) : -(2 : ℚ) ^ e = ((-(2 ^ 52) : ℤ) : ℚ) * 2 ^ (e - 52) := by
  rw [two_zpow_eq e]
  push_cast
  ring

theorem binary64_ge_bot {x : ℚ} (hx : x ≠ 0) : -2 ^ (binary64_exponent x + 1) ≤ binary64 x := by
  rw [neg_two_zpow_succ_eq]
  apply binary64_ge_of_mul_ulp_le hx
  rw [← neg_two_zpow_succ_eq]
  exact (neg_le_neg abs_lt_two_zpow_exponent.le).trans (neg_abs_le x)

theorem binary64_ge_binade {x : ℚ} (hx : 0 < x) (h : -1022 ≤ Int.log 2 |x|) :
    2 ^ binary64_exponent x ≤ binary64 x := by
  rw [two_zpow_eq]
  apply binary64_ge_of_mul_ulp_le hx.ne'
  rw [← two_zpow_eq]
  have := two_zpow_exponent_le_abs hx.ne' h
  rwa [abs_of_pos hx] at this

theorem binary64_le_neg_binade {x : ℚ} (hx : x < 0) (h : -1022 ≤ Int.log 2 |x|) :
    binary64 x ≤ -2 ^ binary64_exponent x := by
  rw [neg_two_zpow_eq]
  apply binary64_le_of_le_mul_ulp hx.ne
  rw [← neg_two_zpow_eq]
  have := two_zpow_exponent_le_abs hx.ne h
  rw [abs_of_neg hx] at this
  linarith

theorem binary64_exponent_mono {x y : ℚ} (hx : x ≠ 0) (h : |x| ≤ |y|) :
    binary64_exponent x ≤ binary64_exponent y := by
  have := Int.log_mono_right (b := 2) (abs_pos.mpr hx) h
  unfold binary64_exponent
  omega

theorem log_of_exponent_gt {x y : ℚ} (h : binary64_exponent x < binary64_exponent y) :
    -1022 ≤ Int.log 2 |y| := by
  unfold binary64_exponent at h
  omega

theorem binary64_mono_of_exponent_eq {x y : ℚ} (hx : x ≠ 0) (hy : y ≠ 0)
    (he : binary64_exponent x = binary64_exponent y) (h : x ≤ y) :
    binary64 x ≤ binary64 y := by
  have hu := ulp_pos (binary64_exponent y)
  rw [binary64_of_ne_zero hx, binary64_of_ne_zero hy, he]
  have : round_half_even (x / 2 ^ (binary64_exponent y - 52)) ≤
      round_half_even (y / 2 ^ (binary64_exponent y - 52)) :=
    round_half_even_mono (div_le_div_of_nonneg_right h hu.le)
  have h2 : (round_half_even (x / 2 ^ (binary64_exponent y - 52)) : ℚ) ≤
      (round_half_even (y / 2 ^ (binary64_exponent y - 52)) : ℚ) := by exact_mod_cast this
  exact mul_le_mul_of_nonneg_right h2 hu.le

/-- Rounding is monotone. -/
theorem binary64_mono (x y : ℚ) (h : x ≤ y) : binary64 x ≤ binary64 y := by
  rcases lt_trichotomy x 0 with hx | rfl | hx
  · rcases lt_trichotomy y 0 with hy | rfl | hy
    · have habs : |y| ≤ |x| := by
        rw [abs_of_neg hx, abs_of_neg hy]
        linarith
      rcases (binary64_exponent_mono hy.ne habs).lt_or_eq with hlt | heq
      · have h1 := binary64_le_neg_binade hx (log_of_exponent_gt hlt)
        have h2 := binary64_ge_bot hy.ne
        have h3 : (2 : ℚ) ^ (binary64_exponent y + 1) ≤ 2 ^ binary64_exponent x :=
          zpow_le_zpow_right₀ (by norm_num) (by omega)
        linarith
      · exact binary64_mono_of_exponent_eq hx.ne hy.ne heq.symm h
    · rw [binary64_zero]
      exact binary64_nonpos hx
    · exact (binary64_nonpos hx).trans (binary64_nonneg hy)
  · rcases h.lt_or_eq with hy | rfl
    · rw [binary64_zero]
      exact binary64_nonneg hy
    · exact le_refl _
  · have hy : 0 < y := lt_of_lt_of_le hx h
    have habs : |x| ≤ |y| := by
      rw [abs_of_pos hx, abs_of_pos hy]
      exact h
    rcases (binary64_exponent_mono hx.ne' habs).lt_or_eq with hlt | heq
    · have h1 := binary64_le_top hx.ne'
      have h2 := binary64_ge_binade hy (log_of_exponent_gt hlt)
      have h3 : (2 : ℚ) ^ (binary64_exponent x + 1) ≤ 2 ^ binary64_exponent y :=
        zpow_le_zpow_right₀ (by norm_num) (by omega)
      linarith
    · exact binary64_mono_of_exponent_eq hx.ne' hy.ne' heq h

theorem le_round_half_even_of_half_lt {y : ℚ} (h : 1 / 2 < y - (⌊y⌋ : ℚ)) :
    y ≤ (round_half_even y : ℚ) := by
  have h2 := Int.lt_floor_add_one y
  unfold round_half_even
  rw [if_neg (not_lt.mpr h.le), if_pos h]
  push_cast
  exact h2.le

/-- The double nearest to `1e-4` lies above `1e-4`. -/
theorem binary64_guard_above : (1 : ℚ) / 10000 ≤ binary64 (1 / 10000) := by
  have hpos : (0 : ℚ) < |(1 : ℚ) / 10000| := by norm_num
  have hlog : Int.log 2 |(1 : ℚ) / 10000| = -14 := by
    apply le_antisymm
    · have : Int.log 2 |(1 : ℚ) / 10000| < -13 := by
        rw [← Int.lt_zpow_iff_log_lt (by norm_num) hpos]
        norm_num [abs_of_pos]
      omega
    · rw [← Int.zpow_le_iff_le_log (by norm_num) hpos]
      norm_num [abs_of_pos]
  have he : binary64_exponent (1 / 10000) = -14 := by
    unfold binary64_exponent
    rw [hlog]
    rfl
  have hu : (2 : ℚ) ^ ((-14 : ℤ) - 52) = 1 / 73786976294838206464 := by norm_num
  rw [binary64_of_ne_zero (by norm_num), he, hu]
  have hy : (1 : ℚ) / 10000 / (1 / 73786976294838206464) = 73786976294838206464 / 10000 := by
    norm_num
  rw [hy]
  have hfl : ⌊(73786976294838206464 : ℚ) / 10000⌋ = 7378697629483820 := by
    rw [Int.floor_eq_iff]
    norm_num
  have := le_round_half_even_of_half_lt (y := (73786976294838206464 : ℚ) / 10000)
    (by rw [hfl]; norm_num)
  calc (1 : ℚ) / 10000 = 73786976294838206464 / 10000 * (1 / 73786976294838206464) := by
        norm_num
    _ ≤ _ := mul_le_mul_of_nonneg_right this (by norm_num)

/-- IEEE 754 binary64 rounding has the properties the integer-mode theorems
assume. -/
theorem isDoubleRounding_binary64 : IsDoubleRounding binary64 where
  exact_int := binary64_int
  rel_error := binary64_rel_error
  mono := binary64_mono
  guard_above := binary64_guard_above

/-! ## Integer arithmetic is exact under a double rounding -/

theorem rnd_int {rnd : ℚ → ℚ} (hr : IsDoubleRounding rnd) (z : ℤ) (hz : |z| ≤ 4 * INT_LIMIT) :
    rnd (z : ℚ) = (z : ℚ) := by
  apply hr.exact_int
  have : (4 : ℤ) * INT_LIMIT ≤ 2 ^ 53 := by norm_num [INT_LIMIT]
  exact hz.trans this

theorem rnd_zero {rnd : ℚ → ℚ} (hr : IsDoubleRounding rnd) : rnd 0 = 0 := by
  have := rnd_int hr 0 (by norm_num [INT_LIMIT])
  simpa using this

theorem rnd_small_bounds {rnd : ℚ → ℚ} (hr : IsDoubleRounding rnd) (x : ℚ)
    (h1 : 1 / 2 ^ 64 ≤ x) (h2 : x ≤ 1 / 2) : 0 < rnd x ∧ rnd x < 1 := by
  have hx : |x| = x := abs_of_nonneg (le_trans (by positivity) h1)
  have h := hr.rel_error x (by rw [hx]; exact h1) (by rw [hx]; exact h2.trans (by norm_num))
  rw [hx, abs_le] at h
  have hpos : 0 < x := lt_of_lt_of_le (by positivity) h1
  have h3 : x / 2 ^ 53 ≤ x / 2 := by
    apply div_le_div_of_nonneg_left hpos.le (by norm_num) (by norm_num)
  constructor
  · linarith [h.1]
  · linarith [h.2]

theorem guard_pos {rnd : ℚ → ℚ} (hr : IsDoubleRounding rnd) :
    0 < rnd (1 / 10000) ∧ rnd (1 / 10000) < 1 :=
  rnd_small_bounds hr _ (by norm_num) (by norm_num)

theorem whole_eps_pos {rnd : ℚ → ℚ} (hr : IsDoubleRounding rnd) :
    0 < rnd (1 / 1000000000) :=
  (rnd_small_bounds hr _ (by norm_num) (by norm_num)).1

theorem c_round_int (z : ℤ) : c_round (z : ℚ) = z := by
  unfold c_round
  split_ifs with h
  · rw [Int.floor_eq_iff]
    constructor <;> linarith
  · rw [Int.ceil_eq_iff]
    constructor <;> linarith

theorem is_whole_number_int {rnd : ℚ → ℚ} (hr : IsDoubleRounding rnd) (z : ℤ) :
    is_whole_number rnd (z : ℚ) = true := by
  unfold is_whole_number
  rw [c_round_int, sub_self, rnd_zero hr, abs_zero]
  exact decide_eq_true (whole_eps_pos hr)

theorem inRange_int {z : ℤ} : InRange (z : ℚ) ↔ |z| ≤ INT_LIMIT := by
  unfold InRange VALUE_LIMIT INT_LIMIT
  rw [abs_le]
  constructor
  · rintro ⟨h1, h2⟩
    constructor
    · exact_mod_cast h1
    · exact_mod_cast h2
  · rintro ⟨h1, h2⟩
    constructor
    · exact_mod_cast h1
    · exact_mod_cast h2

/-- A positive multiple of `1 / B` that comes from an integer is at least
`1 / B`. -/
theorem one_div_le_of_int_mul {y B : ℚ} (hB : 0 < B) (hy : 0 < y) (m : ℤ)
    (hm : y * B = |(m : ℚ)|) : 1 / B ≤ y := by
  have hpos : 0 < |(m : ℚ)| := by rw [← hm]; positivity
  have hm0 : m ≠ 0 := by
    rintro rfl
    simp at hpos
  have h1 : (1 : ℚ) ≤ |(m : ℚ)| := by
    have := Int.one_le_abs hm0
    rw [← Int.cast_abs]
    exact_mod_cast this
  rw [div_le_iff₀ hB]
  linarith

/-- The floor of the rounded quotient of two integers within the range ceiling
is the floor of the exact quotient: the quotient is an integer, or it is
farther from the integers than the rounding error. -/
theorem floor_rnd_div {rnd : ℚ → ℚ} (hr : IsDoubleRounding rnd) (a b : ℤ)
    (ha : |a| ≤ INT_LIMIT) (hb : b ≠ 0) (hb2 : |b| ≤ INT_LIMIT) :
    ⌊rnd ((a : ℚ) / (b : ℚ))⌋ = ⌊(a : ℚ) / (b : ℚ)⌋ := by
  have hbq : (b : ℚ) ≠ 0 := by exact_mod_cast hb
  have hB : 0 < |(b : ℚ)| := abs_pos.mpr hbq
  have hB1 : (1 : ℚ) ≤ |(b : ℚ)| := by
    have := Int.one_le_abs hb
    rw [← Int.cast_abs]
    exact_mod_cast this
  have hB2 : |(b : ℚ)| ≤ 2000000000 := by
    rw [← Int.cast_abs]
    have : |b| ≤ (2000000000 : ℤ) := hb2
    exact_mod_cast this
  have hA : |(a : ℚ)| ≤ 2000000000 := by
    rw [← Int.cast_abs]
    have : |a| ≤ (2000000000 : ℤ) := ha
    exact_mod_cast this
  have hxabs : |(a : ℚ) / (b : ℚ)| = |(a : ℚ)| / |(b : ℚ)| := abs_div _ _
  have hxle : |(a : ℚ) / (b : ℚ)| ≤ 2000000000 := by
    rw [hxabs, div_le_iff₀ hB]
    nlinarith [abs_nonneg (a : ℚ)]
  generalize hx : (a : ℚ) / (b : ℚ) = x at *
  have hxb : x * (b : ℚ) = a := by
    rw [← hx]
    field_simp
  by_cases hint : x = ((⌊x⌋ : ℤ) : ℚ)
  · have hn : |⌊x⌋| ≤ 4 * INT_LIMIT := by
      have h1 : |((⌊x⌋ : ℤ) : ℚ)| ≤ 2000000000 := by rw [← hint]; exact hxle
      rw [← Int.cast_abs] at h1
      have h2 : |⌊x⌋| ≤ (2000000000 : ℤ) := by exact_mod_cast h1
      exact h2.trans (by norm_num [INT_LIMIT])
    have : rnd x = x := by
      rw [hint]
      exact rnd_int hr _ hn
    rw [this]
  · have hlt : ((⌊x⌋ : ℤ) : ℚ) < x := lt_of_le_of_ne (Int.floor_le x) (Ne.symm hint)
    have hlt2 : x < ((⌊x⌋ : ℤ) : ℚ) + 1 := Int.lt_floor_add_one x
    have hlow : 1 / |(b : ℚ)| ≤ x - ((⌊x⌋ : ℤ) : ℚ) := by
      apply one_div_le_of_int_mul hB (by linarith) (a - ⌊x⌋ * b)
      rw [← abs_of_pos (show 0 < x - ((⌊x⌋ : ℤ) : ℚ) by linarith), ← abs_mul]
      congr 1
      push_cast
      rw [sub_mul, hxb]
    have hhigh : 1 / |(b : ℚ)| ≤ ((⌊x⌋ : ℤ) : ℚ) + 1 - x := by
      apply one_div_le_of_int_mul hB (by linarith) ((⌊x⌋ + 1) * b - a)
      rw [← abs_of_pos (show 0 < ((⌊x⌋ : ℤ) : ℚ) + 1 - x by linarith), ← abs_mul]
      congr 1
      push_cast
      rw [sub_mul, hxb]
    have ha0 : a ≠ 0 := by
      rintro rfl
      apply hint
      rw [← hx]
      simp
    have hA1 : (1 : ℚ) ≤ |(a : ℚ)| := by
      have := Int.one_le_abs ha0
      rw [← Int.cast_abs]
      exact_mod_cast this
    have hxlow : 1 / 2 ^ 64 ≤ |x| := by
      rw [hxabs, le_div_iff₀ hB]
      have : (1 : ℚ) / 2 ^ 64 * |(b : ℚ)| ≤ 1 / 2 ^ 64 * 2000000000 :=
        mul_le_mul_of_nonneg_left hB2 (by positivity)
      have h3 : (1 : ℚ) / 2 ^ 64 * 2000000000 ≤ 1 := by norm_num
      linarith
    have herr := hr.rel_error x hxlow (hxle.trans (by norm_num))
    have herr2 : |x| / 2 ^ 53 < 1 / |(b : ℚ)| := by
      rw [hxabs, div_div, div_lt_div_iff₀ (by positivity) hB]
      have : |(a : ℚ)| * |(b : ℚ)| ≤ 2000000000 * |(b : ℚ)| :=
        mul_le_mul_of_nonneg_right hA hB.le
      have h4 : (2000000000 : ℚ) * |(b : ℚ)| < 1 * (|(b : ℚ)| * 2 ^ 53) := by
        nlinarith
      linarith
    rw [abs_le] at herr
    rw [Int.floor_eq_iff]
    constructor
    · linarith [herr.1]
    · linarith [herr.2]

theorem floor_div_abs_le (a b : ℤ) (ha : |a| ≤ INT_LIMIT) (hb : b ≠ 0) :
    |⌊(a : ℚ) / (b : ℚ)⌋| ≤ INT_LIMIT := by
  have hbq : (b : ℚ) ≠ 0 := by exact_mod_cast hb
  have hB : 0 < |(b : ℚ)| := abs_pos.mpr hbq
  have hB1 : (1 : ℚ) ≤ |(b : ℚ)| := by
    have := Int.one_le_abs hb
    rw [← Int.cast_abs]
    exact_mod_cast this
  have hA : |(a : ℚ)| ≤ (INT_LIMIT : ℚ) := by
    rw [← Int.cast_abs]
    exact_mod_cast ha
  have hL : (0 : ℚ) ≤ (INT_LIMIT : ℚ) := le_trans (abs_nonneg _) hA
  have hxle : |(a : ℚ) / (b : ℚ)| ≤ (INT_LIMIT : ℚ) := by
    rw [abs_div, div_le_iff₀ hB]
    nlinarith [abs_nonneg (a : ℚ)]
  rw [abs_le] at hxle ⊢
  constructor
  · rw [Int.le_floor]
    push_cast
    exact hxle.1
  · have h1 := Int.floor_le ((a : ℚ) / (b : ℚ))
    have h2 : ((⌊(a : ℚ) / (b : ℚ)⌋ : ℤ) : ℚ) ≤ (INT_LIMIT : ℚ) := h1.trans hxle.2
    exact_mod_cast h2

/-- In integer mode a division of in-range integers by a non-zero integer
returns the floor of the exact quotient. -/
theorem integer_divide_int {rnd : ℚ → ℚ} (hr : IsDoubleRounding rnd) (a b : ℤ)
    (ha : |a| ≤ INT_LIMIT) (hb : b ≠ 0) (hb2 : |b| ≤ INT_LIMIT) :
    integer_divide rnd (a : ℚ) (b : ℚ) = .ok ((⌊(a : ℚ) / (b : ℚ)⌋ : ℤ) : ℚ) := by
  have hB1 : (1 : ℚ) ≤ |(b : ℚ)| := by
    have := Int.one_le_abs hb
    rw [← Int.cast_abs]
    exact_mod_cast this
  have hg : ¬ |(b : ℚ)| < rnd (1 / 10000) := by
    have := (guard_pos hr).2
    rw [not_lt]
    linarith
  simp only [integer_divide, if_neg hg, floor_rnd_div hr a b ha hb hb2]
  rw [validate_range_of_inRange (inRange_int.mpr (floor_div_abs_le a b ha hb))]

/-- A zero divisor is rejected. -/
theorem integer_divide_zero {rnd : ℚ → ℚ} (hr : IsDoubleRounding rnd) (a : ℚ) :
    integer_divide rnd a 0 = .error .DivisionByZero := by
  have hg : |(0 : ℚ)| < rnd (1 / 10000) := by
    rw [abs_zero]
    exact (guard_pos hr).1
  simp only [integer_divide, if_pos hg]

/-! ## The sign loop and unary signs -/

theorem sign_loop_fuel (k j : ℕ) (negative : Bool) (s : List Char)
    (hk : s.length ≤ k) (hj : s.length ≤ j) :
    sign_loop k negative s = sign_loop j negative s := by
  induction k generalizing j negative s with
  | zero =>
    have hs : s = [] := List.length_eq_zero.mp (Nat.le_zero.mp hk)
    subst hs
    cases j with
    | zero => rfl
    | succ j => simp [sign_loop, peek]
  | succ k ih =>
    by_cases hop : peek s = '+' ∨ peek s = '-'
    · have hlen : s.tail.length + 1 = s.length := by
        rcases hop with h | h
        · exact length_tail_of_peek h (by decide)
        · exact length_tail_of_peek h (by decide)
      have htl := trim_spaces_length_le s.tail
      cases j with
      | zero => omega
      | succ j =>
        simp only [sign_loop, if_pos hop]
        exact ih j _ _ (by omega) (by omega)
    · cases j with
      | zero => simp only [sign_loop, if_neg hop]
      | succ j => simp only [sign_loop, if_neg hop]

theorem sign_loop_not (k : ℕ) (negative : Bool) (s : List Char) :
    sign_loop k (!negative) s = (!(sign_loop k negative s).1, (sign_loop k negative s).2) := by
  induction k generalizing negative s with
  | zero => rfl
  | succ k ih =>
    by_cases hop : peek s = '+' ∨ peek s = '-'
    · simp only [sign_loop, if_pos hop]
      by_cases hm : peek s = '-'
      · simp only [if_pos hm]
        exact ih _ _
      · simp only [if_neg hm]
        exact ih _ _
    · simp only [sign_loop, if_neg hop]

theorem sign_loop_of_not_sign (k : ℕ) (negative : Bool) (s : List Char)
    (h : ¬ (peek s = '+' ∨ peek s = '-')) : sign_loop k negative s = (negative, s) := by
  cases k with
  | zero => rfl
  | succ k => simp only [sign_loop, if_neg h]

/-- With a budget of the length of the text the sign loop ends at a byte that
is not a sign, as the `while` of the source does. -/
theorem sign_loop_done (k : ℕ) (negative : Bool) (s : List Char) (hk : s.length ≤ k) :
    ¬ (peek (sign_loop k negative s).2 = '+' ∨ peek (sign_loop k negative s).2 = '-') := by
  induction k generalizing negative s with
  | zero =>
    have hs : s = [] := List.length_eq_zero.mp (Nat.le_zero.mp hk)
    subst hs
    simp [sign_loop, peek]
  | succ k ih =>
    by_cases hop : peek s = '+' ∨ peek s = '-'
    · have hlen : s.tail.length + 1 = s.length := by
        rcases hop with h | h
        · exact length_tail_of_peek h (by decide)
        · exact length_tail_of_peek h (by decide)
      have htl := trim_spaces_length_le s.tail
      simp only [sign_loop, if_pos hop]
      exact ih _ _ (by omega)
    · simp only [sign_loop, if_neg hop]
      exact hop

theorem validate_range_neg (x : ℚ) : validate_range (-x) = validate_range x := by
  unfold validate_range
  by_cases h : x < -VALUE_LIMIT ∨ x > VALUE_LIMIT
  · have h2 : -x < -VALUE_LIMIT ∨ -x > VALUE_LIMIT := by
      rcases h with h | h
      · right; linarith
      · left; linarith
    rw [if_pos h, if_pos h2]
  · have h2 : ¬ (-x < -VALUE_LIMIT ∨ -x > VALUE_LIMIT) := by
      rintro (h2 | h2)
      · exact h (Or.inr (by linarith))
      · exact h (Or.inl (by linarith))
    rw [if_neg h, if_neg h2]

theorem finish_factor_not (negative : Bool) (val : ℚ) (s : List Char) :
    finish_factor (!negative) val s = negate_result (finish_factor negative val s) := by
  cases negative
  · simp only [finish_factor, Bool.not_false, if_true, Bool.false_eq_true, if_false,
      validate_range_neg]
    rcases validate_range val with e | u <;> rfl
  · simp only [finish_factor, Bool.not_true, if_true, Bool.false_eq_true, if_false,
      validate_range_neg]
    rcases validate_range val with e | u
    · rfl
    · simp only [negate_result, neg_neg]

/-- The part of `evaluate_factor` after the sign loop, as a function of the
sign flag: one more `-` negates the result. -/
theorem evaluate_factor_of_signs (rnd : ℚ → ℚ) (uf : Bool) (n : ℕ) (s : List Char) :
    evaluate_factor rnd uf (n + 1) s =
      (let signs := sign_loop (trim_spaces s).length false (trim_spaces s)
       if peek signs.2 = '(' then
         match evaluate_expression rnd uf n signs.2.tail with
         | .error e => .error e
         | .ok (val, s2) =>
           if peek (trim_spaces s2) = ')' then finish_factor signs.1 val (trim_spaces s2).tail
           else .error .MissingCloseParen
       else
         match extract_number rnd signs.2 with
         | .error e => .error e
         | .ok (val, s2) => finish_factor signs.1 val s2) := by
  rw [evaluate_factor]

/-- A leading `+` does not change the value of a factor. -/
theorem evaluate_factor_plus (rnd : ℚ → ℚ) (uf : Bool) (n : ℕ) (s : List Char) :
    evaluate_factor rnd uf (n + 1) ('+' :: s) = evaluate_factor rnd uf (n + 1) s := by
  have h1 : trim_spaces ('+' :: s) = '+' :: s := trim_spaces_of_not_isspace s (by decide)
  have h2 : sign_loop (s.length + 1) false ('+' :: s) =
      sign_loop (trim_spaces s).length false (trim_spaces s) := by
    rw [sign_loop, if_pos (Or.inl (peek_cons _ _))]
    simp only [peek_cons, List.tail_cons]
    rw [if_neg (by decide)]
    exact sign_loop_fuel _ _ _ _ (trim_spaces_length_le s) (le_refl _)
  rw [evaluate_factor_of_signs, evaluate_factor_of_signs, h1]
  simp only [List.length_cons, h2]

/-- A leading `-` negates the value of a factor. -/
theorem evaluate_factor_minus (rnd : ℚ → ℚ) (uf : Bool) (n : ℕ) (s : List Char) :
    evaluate_factor rnd uf (n + 1) ('-' :: s) =
      negate_result (evaluate_factor rnd uf (n + 1) s) := by
  have h1 : trim_spaces ('-' :: s) = '-' :: s := trim_spaces_of_not_isspace s (by decide)
  have h2 : sign_loop (s.length + 1) false ('-' :: s) =
      (!(sign_loop (trim_spaces s).length false (trim_spaces s)).1,
        (sign_loop (trim_spaces s).length false (trim_spaces s)).2) := by
    rw [sign_loop, if_pos (Or.inr (peek_cons _ _))]
    simp only [peek_cons, List.tail_cons, if_true]
    rw [show (!false) = true from rfl, ← sign_loop_not]
    exact sign_loop_fuel _ _ _ _ (trim_spaces_length_le s) (le_refl _)
  rw [evaluate_factor_of_signs, evaluate_factor_of_signs, h1]
  simp only [List.length_cons, h2]
  generalize sign_loop (trim_spaces s).length false (trim_spaces s) = sg
  by_cases hp : peek sg.2 = '('
  · simp only [if_pos hp]
    rcases evaluate_expression rnd uf n sg.2.tail with e | ⟨val, s2⟩
    · rfl
    · simp only
      by_cases hc : peek (trim_spaces s2) = ')'
      · simp only [if_pos hc]
        exact finish_factor_not _ _ _
      · simp only [if_neg hc]
        rfl
  · simp only [if_neg hp]
    rcases extract_number rnd sg.2 with e | ⟨val, s2⟩
    · rfl
    · exact finish_factor_not _ _ _

/-- Leading whitespace does not change the value of a factor. -/
theorem evaluate_factor_space (rnd : ℚ → ℚ) (uf : Bool) (n : ℕ) (c : Char) (s : List Char)
    (hc : c ≠ '\x00') (hsp : isspace c = true) :
    evaluate_factor rnd uf n (c :: s) = evaluate_factor rnd uf n s := by
  cases n with
  | zero => rfl
  | succ n =>
    have h1 : trim_spaces (c :: s) = trim_spaces s := by
      rw [trim_spaces, if_pos ⟨hc, hsp⟩]
    rw [evaluate_factor_of_signs, evaluate_factor_of_signs, h1]

/-! ## Number literals -/

theorem isdigit_digit_char (d : Fin 10) : isdigit (digit_char d) = true := by
  revert d; decide

theorem digit_char_toNat (d : Fin 10) : (digit_char d).toNat - 48 = d.val := by
  revert d; decide

theorem isspace_digit_char (d : Fin 10) : isspace (digit_char d) = false := by
  revert d; decide

theorem digit_char_not_sign (d : Fin 10) : ¬ (digit_char d = '+' ∨ digit_char d = '-') := by
  revert d; decide

theorem digit_char_ne_paren (d : Fin 10) : digit_char d ≠ '(' := by
  revert d; decide

theorem digits_value_ge (acc : ℕ) (ds : List (Fin 10)) : acc ≤ digits_value acc ds := by
  induction ds generalizing acc with
  | nil => exact le_refl _
  | cons d ds ih =>
    have := ih (acc * 10 + d.val)
    simp only [digits_value, List.foldl_cons] at this ⊢
    omega

theorem digits_value_cons (acc : ℕ) (d : Fin 10) (ds : List (Fin 10)) :
    digits_value acc (d :: ds) = digits_value (acc * 10 + d.val) ds := rfl

theorem rnd_nat {rnd : ℚ → ℚ} (hr : IsDoubleRounding rnd) (n : ℕ) (hn : n ≤ 2000000000) :
    rnd (n : ℚ) = (n : ℚ) := by
  have := rnd_int hr (n : ℤ) (by
    rw [abs_of_nonneg (by positivity)]
    have : (n : ℤ) ≤ 2000000000 := by exact_mod_cast hn
    exact this.trans (by norm_num [INT_LIMIT]))
  simpa using this

/-- The digit loop reads a run of digits that denotes a number within the range
ceiling exactly, and stops at the first byte that is not a digit. -/
theorem extract_number_loop_digits {rnd : ℚ → ℚ} (hr : IsDoubleRounding rnd) (acc : ℕ)
    (ds : List (Fin 10)) (rest : List Char) (hrest : isdigit (peek rest) = false)
    (hv : digits_value acc ds ≤ 2000000000) :
    extract_number_loop rnd (acc : ℚ) (digits_text ds ++ rest) =
      .ok ((digits_value acc ds : ℚ), rest) := by
  induction ds generalizing acc with
  | nil =>
    cases rest with
    | nil => rfl
    | cons c t =>
      rw [peek_cons] at hrest
      simp only [digits_text, List.map_nil, List.nil_append, extract_number_loop, hrest,
        Bool.false_eq_true, if_false]
      rfl
  | cons d ds ih =>
    rw [digits_value_cons] at hv ⊢
    have hacc := digits_value_ge (acc * 10 + d.val) ds
    have h10 : rnd ((acc : ℚ) * 10) = (acc : ℚ) * 10 := by
      have := rnd_nat hr (acc * 10) (by omega)
      push_cast at this
      exact this
    have h11 : rnd ((acc : ℚ) * 10 + (d.val : ℚ)) = ((acc * 10 + d.val : ℕ) : ℚ) := by
      have := rnd_nat hr (acc * 10 + d.val) (by omega)
      push_cast at this ⊢
      exact this
    have hle : ¬ (((acc * 10 + d.val : ℕ) : ℚ) > VALUE_LIMIT) := by
      rw [not_lt]
      unfold VALUE_LIMIT
      have : acc * 10 + d.val ≤ 2000000000 := by omega
      exact_mod_cast this
    simp only [digits_text, List.map_cons, List.cons_append, extract_number_loop,
      isdigit_digit_char, if_true, digit_char_toNat, h10, h11, if_neg hle]
    exact ih _ hv

theorem extract_number_digits {rnd : ℚ → ℚ} (hr : IsDoubleRounding rnd)
    (d : Fin 10) (ds : List (Fin 10)) (rest : List Char) (hrest : isdigit (peek rest) = false)
    (hv : digits_value 0 (d :: ds) ≤ 2000000000) :
    extract_number rnd (digits_text (d :: ds) ++ rest) =
      .ok ((digits_value 0 (d :: ds) : ℚ), rest) := by
  have h1 : trim_spaces (digits_text (d :: ds) ++ rest) = digits_text (d :: ds) ++ rest :=
    trim_spaces_of_not_isspace _ (isspace_digit_char d)
  have h2 : isdigit (peek (digits_text (d :: ds) ++ rest)) = true := isdigit_digit_char d
  have := extract_number_loop_digits hr 0 (d :: ds) rest hrest hv
  simp only [Nat.cast_zero] at this
  simp only [extract_number, h1, h2, not_true_eq_false, if_false, this]

/-- `evaluate_factor` on a number literal within the range ceiling. -/
theorem evaluate_factor_num {rnd : ℚ → ℚ} (hr : IsDoubleRounding rnd) (uf : Bool) (n : ℕ)
    (d : Fin 10) (ds : List (Fin 10)) (rest : List Char) (hrest : isdigit (peek rest) = false)
    (hv : digits_value 0 (d :: ds) ≤ 2000000000) :
    evaluate_factor rnd uf (n + 1) (digits_text (d :: ds) ++ rest) =
      .ok ((digits_value 0 (d :: ds) : ℚ), rest) := by
  have h1 : trim_spaces (digits_text (d :: ds) ++ rest) = digits_text (d :: ds) ++ rest :=
    trim_spaces_of_not_isspace _ (isspace_digit_char d)
  have h2 : peek (digits_text (d :: ds) ++ rest) = digit_char d := rfl
  have h3 := sign_loop_of_not_sign (digits_text (d :: ds) ++ rest).length false
    (digits_text (d :: ds) ++ rest) (by rw [h2]; exact digit_char_not_sign d)
  have h4 : InRange ((digits_value 0 (d :: ds) : ℕ) : ℚ) := by
    unfold InRange VALUE_LIMIT
    constructor
    · have : (0 : ℚ) ≤ ((digits_value 0 (d :: ds) : ℕ) : ℚ) := by positivity
      linarith
    · exact_mod_cast hv
  rw [evaluate_factor_of_signs, h1, h3]
  simp only [h2, if_neg (digit_char_ne_paren d), extract_number_digits hr d ds rest hrest hv]
  exact finish_factor_ok_iff.mpr ⟨h4, by simp, rfl⟩

/-! ## Results at a larger budget -/

theorem fuel_lift {α : Type} (f : ℕ → Except ParseError α)
    (hstep : ∀ n, Settled (f n) → f (n + 1) = f n) {n m : ℕ} (hnm : n ≤ m)
    (hs : Settled (f n)) : f m = f n := by
  induction m, hnm using Nat.le_induction with
  | base => rfl
  | succ k _ ih =>
    rw [hstep k (by rw [ih]; exact hs), ih]

theorem evaluate_factor_lift {rnd : ℚ → ℚ} {uf : Bool} {n m : ℕ} {s : List Char}
    {r : Except ParseError (ℚ × List Char)} (h : evaluate_factor rnd uf n s = r)
    (hs : Settled r) (hnm : n ≤ m) : evaluate_factor rnd uf m s = r := by
  subst h
  exact fuel_lift (fun k => evaluate_factor rnd uf k s)
    (fun k hk => (evaluate_fuel_succ rnd uf k).1 s hk) hnm hs

theorem evaluate_term_loop_lift {rnd : ℚ → ℚ} {uf : Bool} {n m : ℕ} {val : ℚ} {s : List Char}
    {r : Except ParseError (ℚ × List Char)} (h : evaluate_term_loop rnd uf n val s = r)
    (hs : Settled r) (hnm : n ≤ m) : evaluate_term_loop rnd uf m val s = r := by
  subst h
  exact fuel_lift (fun k => evaluate_term_loop rnd uf k val s)
    (fun k hk => (evaluate_fuel_succ rnd uf k).2.1 val s hk) hnm hs

theorem evaluate_term_lift {rnd : ℚ → ℚ} {uf : Bool} {n m : ℕ} {s : List Char}
    {r : Except ParseError (ℚ × List Char)} (h : evaluate_term rnd uf n s = r)
    (hs : Settled r) (hnm : n ≤ m) : evaluate_term rnd uf m s = r := by
  subst h
  exact fuel_lift (fun k => evaluate_term rnd uf k s)
    (fun k hk => (evaluate_fuel_succ rnd uf k).2.2.1 s hk) hnm hs

theorem evaluate_expression_loop_lift {rnd : ℚ → ℚ} {uf : Bool} {n m : ℕ} {val : ℚ}
    {s : List Char} {r : Except ParseError (ℚ × List Char)}
    (h : evaluate_expression_loop rnd uf n val s = r)
    (hs : Settled r) (hnm : n ≤ m) : evaluate_expression_loop rnd uf m val s = r := by
  subst h
  exact fuel_lift (fun k => evaluate_expression_loop rnd uf k val s)
    (fun k hk => (evaluate_fuel_succ rnd uf k).2.2.2.1 val s hk) hnm hs

theorem evaluate_expression_lift {rnd : ℚ → ℚ} {uf : Bool} {n m : ℕ} {s : List Char}
    {r : Except ParseError (ℚ × List Char)} (h : evaluate_expression rnd uf n s = r)
    (hs : Settled r) (hnm : n ≤ m) : evaluate_expression rnd uf m s = r := by
  subst h
  exact fuel_lift (fun k => evaluate_expression rnd uf k s)
    (fun k hk => (evaluate_fuel_succ rnd uf k).2.2.2.2 s hk) hnm hs

/-! ## One step of each evaluator on a successful path -/

theorem evaluate_term_loop_stop (rnd : ℚ → ℚ) (uf : Bool) (n : ℕ) (val : ℚ) (s : List Char)
    (h : ¬ (peek s = '*' ∨ peek s = '/')) :
    evaluate_term_loop rnd uf (n + 1) val s = .ok (val, s) := by
  rw [evaluate_term_loop, if_neg h]

theorem evaluate_expression_loop_stop (rnd : ℚ → ℚ) (uf : Bool) (n : ℕ) (val : ℚ)
    (s : List Char) (h : ¬ (peek s = '+' ∨ peek s = '-')) :
    evaluate_expression_loop rnd uf (n + 1) val s = .ok (val, s) := by
  rw [evaluate_expression_loop, if_neg h]

theorem evaluate_term_loop_mul {rnd : ℚ → ℚ} {uf : Bool} {n : ℕ} {val y : ℚ}
    {s t : List Char} (hF : evaluate_factor rnd uf n (trim_spaces s) = .ok (y, t))
    (hv : InRange (rnd (val * y)))
    (hw : uf = true ∨ is_whole_number rnd (rnd (val * y)) = true) :
    evaluate_term_loop rnd uf (n + 1) val ('*' :: s) =
      evaluate_term_loop rnd uf n (rnd (val * y)) (trim_spaces t) := by
  have hw2 : ¬ ((!uf && !is_whole_number rnd (rnd (val * y))) = true) := by
    rcases hw with h | h <;> simp [h]
  rw [evaluate_term_loop, if_pos (Or.inl (peek_cons _ _))]
  simp only [peek_cons, List.tail_cons, hF, if_true, validate_range_of_inRange hv, if_neg hw2]

theorem evaluate_term_loop_div {rnd : ℚ → ℚ} {uf : Bool} {n : ℕ} {val y q : ℚ}
    {s t : List Char} (hF : evaluate_factor rnd uf n (trim_spaces s) = .ok (y, t))
    (hd : (if uf = true then floating_divide rnd val y
      else integer_divide rnd val y) = .ok q) :
    evaluate_term_loop rnd uf (n + 1) val ('/' :: s) =
      evaluate_term_loop rnd uf n q (trim_spaces t) := by
  rw [evaluate_term_loop, if_pos (Or.inr (peek_cons _ _))]
  simp only [peek_cons, List.tail_cons, hF, if_neg (show ¬ ('/' = '*') by decide), hd]

theorem evaluate_expression_loop_add {rnd : ℚ → ℚ} {uf : Bool} {n : ℕ} {val y : ℚ}
    {s t : List Char} (hT : evaluate_term rnd uf n (trim_spaces s) = .ok (y, t))
    (hv : InRange (rnd (val + y)))
    (hw : uf = true ∨ is_whole_number rnd (rnd (val + y)) = true) :
    evaluate_expression_loop rnd uf (n + 1) val ('+' :: s) =
      evaluate_expression_loop rnd uf n (rnd (val + y)) (trim_spaces t) := by
  have hw2 : ¬ ((!uf && !is_whole_number rnd (rnd (val + y))) = true) := by
    rcases hw with h | h <;> simp [h]
  rw [evaluate_expression_loop, if_pos (Or.inl (peek_cons _ _))]
  simp only [peek_cons, List.tail_cons, hT, if_true, validate_range_of_inRange hv, if_neg hw2]

theorem evaluate_expression_loop_sub {rnd : ℚ → ℚ} {uf : Bool} {n : ℕ} {val y : ℚ}
    {s t : List Char} (hT : evaluate_term rnd uf n (trim_spaces s) = .ok (y, t))
    (hv : InRange (rnd (val - y)))
    (hw : uf = true ∨ is_whole_number rnd (rnd (val - y)) = true) :
    evaluate_expression_loop rnd uf (n + 1) val ('-' :: s) =
      evaluate_expression_loop rnd uf n (rnd (val - y)) (trim_spaces t) := by
  have hw2 : ¬ ((!uf && !is_whole_number rnd (rnd (val - y))) = true) := by
    rcases hw with h | h <;> simp [h]
  rw [evaluate_expression_loop, if_pos (Or.inr (peek_cons _ _))]
  simp only [peek_cons, List.tail_cons, hT, if_neg (show ¬ ('-' = '+') by decide),
    validate_range_of_inRange hv, if_neg hw2]

theorem evaluate_term_of_factor {rnd : ℚ → ℚ} {uf : Bool} {n : ℕ} {val : ℚ}
    {s s1 : List Char} (hF : evaluate_factor rnd uf n s = .ok (val, s1)) :
    evaluate_term rnd uf (n + 1) s = evaluate_term_loop rnd uf n val (trim_spaces s1) := by
  rw [evaluate_term, hF]

theorem evaluate_expression_of_term {rnd : ℚ → ℚ} {uf : Bool} {n : ℕ} {val : ℚ}
    {s s1 : List Char} (hT : evaluate_term rnd uf n s = .ok (val, s1)) :
    evaluate_expression rnd uf (n + 1) s =
      evaluate_expression_loop rnd uf n val (trim_spaces s1) := by
  rw [evaluate_expression, hT]

theorem evaluate_factor_paren {rnd : ℚ → ℚ} {uf : Bool} {n : ℕ} {val : ℚ}
    {s s2 : List Char} (hE : evaluate_expression rnd uf n s = .ok (val, s2))
    (hc : peek (trim_spaces s2) = ')') (hv : InRange val) :
    evaluate_factor rnd uf (n + 1) ('(' :: s) = .ok (val, (trim_spaces s2).tail) := by
  have h1 : trim_spaces ('(' :: s) = '(' :: s := trim_spaces_of_not_isspace s (by decide)
  have h3 := sign_loop_of_not_sign ('(' :: s).length false ('(' :: s)
    (by rw [peek_cons]; decide)
  rw [evaluate_factor_of_signs, h1, h3]
  simp only [peek_cons, if_true, List.tail_cons, hE, hc]
  exact finish_factor_ok_iff.mpr ⟨hv, by simp, rfl⟩

/-! ## The sentences of the grammar are read as the reference semantics says -/

theorem trim_spaces_idem (s : List Char) : trim_spaces (trim_spaces s) = trim_spaces s := by
  induction s with
  | nil => rfl
  | cons c s ih =>
    by_cases h : c ≠ '\x00' ∧ isspace c = true
    · rw [trim_spaces, if_pos h, ih]
    · rw [trim_spaces, if_neg h, trim_spaces, if_neg h]

theorem trim_spaces_dense {t : List Char} (ht : StartsDense t) (rest : List Char) :
    trim_spaces (t ++ rest) = t ++ rest := by
  obtain ⟨c, t1, rfl, hc⟩ := ht
  exact trim_spaces_of_not_isspace _ hc

theorem termParses_of_factorParses {rnd : ℚ → ℚ} {t : List Char} {z : ℤ}
    (h : FactorParses rnd t z) : TermParses rnd t z := by
  intro rest r hnd hr ⟨n, hn⟩
  obtain ⟨n1, h1⟩ := h rest hnd
  refine ⟨max n n1 + 1, ?_⟩
  rw [evaluate_term_of_factor (evaluate_factor_lift h1 (settled_ok _) (le_max_right n n1))]
  exact evaluate_term_loop_lift hn hr (le_max_left n n1)

theorem exprParses_of_termParses {rnd : ℚ → ℚ} {t : List Char} {z : ℤ}
    (h : TermParses rnd t z) : ExprParses rnd t z := by
  intro rest r hnd hmd hr ⟨n, hn⟩
  obtain ⟨n1, h1⟩ := h rest (.ok ((z : ℚ), trim_spaces rest)) hnd (settled_ok _)
    ⟨1, evaluate_term_loop_stop rnd false 0 _ _ hmd⟩
  refine ⟨max n n1 + 1, ?_⟩
  rw [evaluate_expression_of_term (evaluate_term_lift h1 (settled_ok _) (le_max_right n n1)),
    trim_spaces_idem]
  exact evaluate_expression_loop_lift hn hr (le_max_left n n1)

theorem termParses_mul {rnd : ℚ → ℚ} (hrnd : IsDoubleRounding rnd) {tl tr : List Char}
    {zl zr : ℤ} (hl : TermParses rnd tl zl) (hR : FactorParses rnd tr zr)
    (hd : StartsDense tr) (hv : |zl * zr| ≤ INT_LIMIT) :
    TermParses rnd (tl ++ '*' :: tr) (zl * zr) := by
  intro rest r hnd hr ⟨n, hn⟩
  obtain ⟨n1, h1⟩ := hR rest hnd
  have hprod : rnd ((zl : ℚ) * (zr : ℚ)) = ((zl * zr : ℤ) : ℚ) := by
    rw [← Int.cast_mul]
    exact rnd_int hrnd _ (hv.trans (by norm_num [INT_LIMIT]))
  have key : evaluate_term_loop rnd false (max n n1 + 1) (zl : ℚ) ('*' :: (tr ++ rest)) = r := by
    rw [evaluate_term_loop_mul (y := (zr : ℚ)) (t := rest)
      (by rw [trim_spaces_dense hd]
          exact evaluate_factor_lift h1 (settled_ok _) (le_max_right n n1))
      (by rw [hprod]; exact inRange_int.mpr hv)
      (Or.inr (by rw [hprod]; exact is_whole_number_int hrnd _)), hprod]
    exact evaluate_term_loop_lift hn hr (le_max_left n n1)
  have := hl ('*' :: (tr ++ rest)) r (by rw [peek_cons]; decide) hr
    ⟨_, by rw [trim_spaces_of_not_isspace _ (by decide)]; exact key⟩
  simpa only [List.append_assoc, List.cons_append] using this

theorem termParses_div {rnd : ℚ → ℚ} (hrnd : IsDoubleRounding rnd) {tl tr : List Char}
    {zl zr : ℤ} (hl : TermParses rnd tl zl) (hR : FactorParses rnd tr zr)
    (hd : StartsDense tr) (hzl : |zl| ≤ INT_LIMIT) (hzr : |zr| ≤ INT_LIMIT) (h0 : zr ≠ 0) :
    TermParses rnd (tl ++ '/' :: tr) ⌊(zl : ℚ) / (zr : ℚ)⌋ := by
  intro rest r hnd hr ⟨n, hn⟩
  obtain ⟨n1, h1⟩ := hR rest hnd
  have key : evaluate_term_loop rnd false (max n n1 + 1) (zl : ℚ) ('/' :: (tr ++ rest)) = r := by
    rw [evaluate_term_loop_div (y := (zr : ℚ)) (t := rest)
      (q := ((⌊(zl : ℚ) / (zr : ℚ)⌋ : ℤ) : ℚ))
      (by rw [trim_spaces_dense hd]
          exact evaluate_factor_lift h1 (settled_ok _) (le_max_right n n1))
      (by rw [if_neg (by decide)]; exact integer_divide_int hrnd zl zr hzl h0 hzr)]
    exact evaluate_term_loop_lift hn hr (le_max_left n n1)
  have := hl ('/' :: (tr ++ rest)) r (by rw [peek_cons]; decide) hr
    ⟨_, by rw [trim_spaces_of_not_isspace _ (by decide)]; exact key⟩
  simpa only [List.append_assoc, List.cons_append] using this

theorem exprParses_add {rnd : ℚ → ℚ} (hrnd : IsDoubleRounding rnd) {tl tr : List Char}
    {zl zr : ℤ} (hl : ExprParses rnd tl zl) (hR : TermParses rnd tr zr)
    (hd : StartsDense tr) (hv : |zl + zr| ≤ INT_LIMIT) :
    ExprParses rnd (tl ++ '+' :: tr) (zl + zr) := by
  intro rest r hnd hmd hr ⟨n, hn⟩
  obtain ⟨n1, h1⟩ := hR rest (.ok ((zr : ℚ), trim_spaces rest)) hnd (settled_ok _)
    ⟨1, evaluate_term_loop_stop rnd false 0 _ _ hmd⟩
  have hsum : rnd ((zl : ℚ) + (zr : ℚ)) = ((zl + zr : ℤ) : ℚ) := by
    rw [← Int.cast_add]
    exact rnd_int hrnd _ (hv.trans (by norm_num [INT_LIMIT]))
  have key : evaluate_expression_loop rnd false (max n n1 + 1) (zl : ℚ)
      ('+' :: (tr ++ rest)) = r := by
    rw [evaluate_expression_loop_add (y := (zr : ℚ)) (t := trim_spaces rest)
      (by rw [trim_spaces_dense hd]
          exact evaluate_term_lift h1 (settled_ok _) (le_max_right n n1))
      (by rw [hsum]; exact inRange_int.mpr hv)
      (Or.inr (by rw [hsum]; exact is_whole_number_int hrnd _)), hsum, trim_spaces_idem]
    exact evaluate_expression_loop_lift hn hr (le_max_left n n1)
  have := hl ('+' :: (tr ++ rest)) r (by rw [peek_cons]; decide)
    (by rw [trim_spaces_of_not_isspace _ (by decide), peek_cons]; decide) hr
    ⟨_, by rw [trim_spaces_of_not_isspace _ (by decide)]; exact key⟩
  simpa only [List.append_assoc, List.cons_append] using this

theorem exprParses_sub {rnd : ℚ → ℚ} (hrnd : IsDoubleRounding rnd) {tl tr : List Char}
    {zl zr : ℤ} (hl : ExprParses rnd tl zl) (hR : TermParses rnd tr zr)
    (hd : StartsDense tr) (hv : |zl - zr| ≤ INT_LIMIT) :
    ExprParses rnd (tl ++ '-' :: tr) (zl - zr) := by
  intro rest r hnd hmd hr ⟨n, hn⟩
  obtain ⟨n1, h1⟩ := hR rest (.ok ((zr : ℚ), trim_spaces rest)) hnd (settled_ok _)
    ⟨1, evaluate_term_loop_stop rnd false 0 _ _ hmd⟩
  have hsum : rnd ((zl : ℚ) - (zr : ℚ)) = ((zl - zr : ℤ) : ℚ) := by
    rw [← Int.cast_sub]
    exact rnd_int hrnd _ (hv.trans (by norm_num [INT_LIMIT]))
  have key : evaluate_expression_loop rnd false (max n n1 + 1) (zl : ℚ)
      ('-' :: (tr ++ rest)) = r := by
    rw [evaluate_expression_loop_sub (y := (zr : ℚ)) (t := trim_spaces rest)
      (by rw [trim_spaces_dense hd]
          exact evaluate_term_lift h1 (settled_ok _) (le_max_right n n1))
      (by rw [hsum]; exact inRange_int.mpr hv)
      (Or.inr (by rw [hsum]; exact is_whole_number_int hrnd _)), hsum, trim_spaces_idem]
    exact evaluate_expression_loop_lift hn hr (le_max_left n n1)
  have := hl ('-' :: (tr ++ rest)) r (by rw [peek_cons]; decide)
    (by rw [trim_spaces_of_not_isspace _ (by decide), peek_cons]; decide) hr
    ⟨_, by rw [trim_spaces_of_not_isspace _ (by decide)]; exact key⟩
  simpa only [List.append_assoc, List.cons_append] using this

theorem factorParses_paren {rnd : ℚ → ℚ} {t : List Char} {z : ℤ}
    (h : ExprParses rnd t z) (hv : |z| ≤ INT_LIMIT) :
    FactorParses rnd ('(' :: (t ++ [')'])) z := by
  intro rest _
  have htr : trim_spaces (')' :: rest) = ')' :: rest :=
    trim_spaces_of_not_isspace _ (by decide)
  have hstop : evaluate_expression_loop rnd false 1 (z : ℚ) (trim_spaces (')' :: rest)) =
      .ok ((z : ℚ), ')' :: rest) := by
    rw [htr]
    exact evaluate_expression_loop_stop rnd false 0 _ _ (by rw [peek_cons]; decide)
  obtain ⟨n1, h1⟩ := h (')' :: rest) (.ok ((z : ℚ), ')' :: rest))
    (by rw [peek_cons]; decide) (by rw [htr, peek_cons]; decide) (settled_ok _) ⟨1, hstop⟩
  refine ⟨n1 + 1, ?_⟩
  have := evaluate_factor_paren h1 (by rw [htr, peek_cons]) (inRange_int.mpr hv)
  simpa only [htr, List.tail_cons, List.cons_append, List.append_assoc, List.nil_append,
    List.singleton_append] using this

theorem factorParses_pos {rnd : ℚ → ℚ} {t : List Char} {z : ℤ}
    (h : FactorParses rnd t z) : FactorParses rnd ('+' :: t) z := by
  intro rest hnd
  obtain ⟨n, hn⟩ := h rest hnd
  cases n with
  | zero => simp [evaluate_factor] at hn
  | succ n =>
    refine ⟨n + 1, ?_⟩
    rw [List.cons_append, evaluate_factor_plus, hn]

theorem factorParses_neg {rnd : ℚ → ℚ} {t : List Char} {z : ℤ}
    (h : FactorParses rnd t z) : FactorParses rnd ('-' :: t) (-z) := by
  intro rest hnd
  obtain ⟨n, hn⟩ := h rest hnd
  cases n with
  | zero => simp [evaluate_factor] at hn
  | succ n =>
    refine ⟨n + 1, ?_⟩
    rw [List.cons_append, evaluate_factor_minus, hn]
    simp [negate_result]

theorem factorParses_num {rnd : ℚ → ℚ} (hrnd : IsDoubleRounding rnd) (d : Fin 10)
    (ds : List (Fin 10)) (hv : digits_value 0 (d :: ds) ≤ 2000000000) :
    FactorParses rnd (digits_text (d :: ds)) (digits_value 0 (d :: ds) : ℤ) := by
  intro rest hnd
  refine ⟨1, ?_⟩
  rw [evaluate_factor_num hrnd false 0 d ds rest hnd hv]
  simp

theorem within_limit_eq_some {x z : ℤ} : within_limit x = some z ↔ |x| ≤ INT_LIMIT ∧ x = z := by
  unfold within_limit
  by_cases h : |x| ≤ INT_LIMIT
  · simp [h]
  · simp [h]

theorem startsDense_append {t : List Char} (h : StartsDense t) (u : List Char) :
    StartsDense (t ++ u) := by
  obtain ⟨c, t1, rfl, hc⟩ := h
  exact ⟨c, t1 ++ u, rfl, hc⟩

theorem Tree.text_startsDense (e : Tree) : StartsDense e.text := by
  induction e with
  | num d ds => exact ⟨digit_char d, digits_text ds, rfl, isspace_digit_char d⟩
  | pos e _ => exact ⟨'+', e.text, rfl, by decide⟩
  | neg e _ => exact ⟨'-', e.text, rfl, by decide⟩
  | paren e _ => exact ⟨'(', e.text ++ [')'], rfl, by decide⟩
  | mul l r ihl _ => exact startsDense_append ihl _
  | div l r ihl _ => exact startsDense_append ihl _
  | add l r ihl _ => exact startsDense_append ihl _
  | sub l r ihl _ => exact startsDense_append ihl _

/-- The reference semantics only produces values within the range ceiling. -/
theorem Tree.value_abs_le (e : Tree) : ∀ z : ℤ, e.value = some z → |z| ≤ INT_LIMIT := by
  induction e with
  | num d ds =>
    intro z hz
    obtain ⟨h1, h2⟩ := within_limit_eq_some.mp hz
    rw [← h2]; exact h1
  | pos e ih => exact fun z hz => ih z hz
  | neg e ih =>
    intro z hz
    simp only [Tree.value, Option.map_eq_some'] at hz
    obtain ⟨a, ha, rfl⟩ := hz
    rw [abs_neg]
    exact ih a ha
  | paren e ih => exact fun z hz => ih z hz
  | mul l r _ _ =>
    intro z hz
    simp only [Tree.value, Option.bind_eq_some] at hz
    obtain ⟨a, _, b, _, hab⟩ := hz
    obtain ⟨h1, h2⟩ := within_limit_eq_some.mp hab
    rw [← h2]; exact h1
  | div l r ihl _ =>
    intro z hz
    simp only [Tree.value, Option.bind_eq_some] at hz
    obtain ⟨a, ha, b, _, hab⟩ := hz
    by_cases hb0 : b = 0
    · simp [hb0] at hab
    · simp only [if_neg hb0, Option.some.injEq] at hab
      rw [← hab]
      exact floor_div_abs_le a b (ihl a ha) hb0
  | add l r _ _ =>
    intro z hz
    simp only [Tree.value, Option.bind_eq_some] at hz
    obtain ⟨a, _, b, _, hab⟩ := hz
    obtain ⟨h1, h2⟩ := within_limit_eq_some.mp hab
    rw [← h2]; exact h1
  | sub l r _ _ =>
    intro z hz
    simp only [Tree.value, Option.bind_eq_some] at hz
    obtain ⟨a, _, b, _, hab⟩ := hz
    obtain ⟨h1, h2⟩ := within_limit_eq_some.mp hab
    rw [← h2]; exact h1

/-- The integer-mode evaluators read the sentence of a well-formed tree as the
reference semantics evaluates the tree, at each grammar level. -/
theorem Tree.parses {rnd : ℚ → ℚ} (hrnd : IsDoubleRounding rnd) (e : Tree) :
    e.WellFormed → ∀ z : ℤ, e.value = some z →
      (e.level = 0 → FactorParses rnd e.text z) ∧
      (e.level ≤ 1 → TermParses rnd e.text z) ∧
      ExprParses rnd e.text z := by
  have fromF : ∀ {t : List Char} {z : ℤ} {k : ℕ}, FactorParses rnd t z →
      (k = 0 → FactorParses rnd t z) ∧ (k ≤ 1 → TermParses rnd t z) ∧ ExprParses rnd t z :=
    fun h => ⟨fun _ => h, fun _ => termParses_of_factorParses h,
      exprParses_of_termParses (termParses_of_factorParses h)⟩
  induction e with
  | num d ds =>
    intro _ z hz
    obtain ⟨h1, h2⟩ := within_limit_eq_some.mp hz
    subst h2
    have hv : digits_value 0 (d :: ds) ≤ 2000000000 := by
      rw [abs_of_nonneg (by positivity)] at h1
      have h3 : ((digits_value 0 (d :: ds) : ℕ) : ℤ) ≤ 2000000000 := h1
      exact_mod_cast h3
    exact fromF (factorParses_num hrnd d ds hv)
  | pos e ih =>
    intro hwf z hz
    exact fromF (factorParses_pos ((ih hwf.1 z hz).1 hwf.2))
  | neg e ih =>
    intro hwf z hz
    simp only [Tree.value, Option.map_eq_some'] at hz
    obtain ⟨a, ha, rfl⟩ := hz
    exact fromF (factorParses_neg ((ih hwf.1 a ha).1 hwf.2))
  | paren e ih =>
    intro hwf z hz
    exact fromF (factorParses_paren (ih hwf z hz).2.2 (e.value_abs_le z hz))
  | mul l r ihl ihr =>
    intro hwf z hz
    simp only [Tree.value, Option.bind_eq_some] at hz
    obtain ⟨a, ha, b, hb, hab⟩ := hz
    obtain ⟨h1, rfl⟩ := within_limit_eq_some.mp hab
    obtain ⟨wl, wr, ll, lr⟩ := hwf
    have hT := termParses_mul hrnd ((ihl wl a ha).2.1 ll) ((ihr wr b hb).1 lr)
      r.text_startsDense h1
    exact ⟨fun h => by simp [Tree.level] at h, fun _ => hT, exprParses_of_termParses hT⟩
  | div l r ihl ihr =>
    intro hwf z hz
    simp only [Tree.value, Option.bind_eq_some] at hz
    obtain ⟨a, ha, b, hb, hab⟩ := hz
    obtain ⟨wl, wr, ll, lr⟩ := hwf
    by_cases hb0 : b = 0
    · simp [hb0] at hab
    · simp only [if_neg hb0, Option.some.injEq] at hab
      subst hab
      have hT := termParses_div hrnd ((ihl wl a ha).2.1 ll) ((ihr wr b hb).1 lr)
        r.text_startsDense (l.value_abs_le a ha) (r.value_abs_le b hb) hb0
      exact ⟨fun h => by simp [Tree.level] at h, fun _ => hT, exprParses_of_termParses hT⟩
  | add l r ihl ihr =>
    intro hwf z hz
    simp only [Tree.value, Option.bind_eq_some] at hz
    obtain ⟨a, ha, b, hb, hab⟩ := hz
    obtain ⟨h1, rfl⟩ := within_limit_eq_some.mp hab
    obtain ⟨wl, wr, lr⟩ := hwf
    have hE := exprParses_add hrnd (ihl wl a ha).2.2 ((ihr wr b hb).2.1 lr)
      r.text_startsDense h1
    exact ⟨fun h => by simp [Tree.level] at h, fun h => by simp [Tree.level] at h, hE⟩
  | sub l r ihl ihr =>
    intro hwf z hz
    simp only [Tree.value, Option.bind_eq_some] at hz
    obtain ⟨a, ha, b, hb, hab⟩ := hz
    obtain ⟨h1, rfl⟩ := within_limit_eq_some.mp hab
    obtain ⟨wl, wr, lr⟩ := hwf
    have hE := exprParses_sub hrnd (ihl wl a ha).2.2 ((ihr wr b hb).2.1 lr)
      r.text_startsDense h1
    exact ⟨fun h => by simp [Tree.level] at h, fun h => by simp [Tree.level] at h, hE⟩

/-! ## Runs of `main` on sentences -/

/-- With the budget `main` provides, integer-mode `evaluate_expression` reads
the sentence of a well-formed tree up to the first byte that cannot continue
it, and returns the reference value. -/
theorem evaluate_expression_tree {rnd : ℚ → ℚ} (hrnd : IsDoubleRounding rnd) (e : Tree)
    (hwf : e.WellFormed) (z : ℤ) (hz : e.value = some z) (rest : List Char)
    (hnd : isdigit (peek rest) = false)
    (hmd : ¬ (peek (trim_spaces rest) = '*' ∨ peek (trim_spaces rest) = '/'))
    (hpm : ¬ (peek (trim_spaces rest) = '+' ∨ peek (trim_spaces rest) = '-'))
    (n : ℕ) (hn : 3 * (e.text ++ rest).length + 3 ≤ n) :
    evaluate_expression rnd false n (e.text ++ rest) = .ok ((z : ℚ), trim_spaces rest) := by
  obtain ⟨n1, h1⟩ := (e.parses hrnd hwf z hz).2.2 rest (.ok ((z : ℚ), trim_spaces rest)) hnd hmd
    (settled_ok _) ⟨1, evaluate_expression_loop_stop rnd false 0 _ _ hpm⟩
  have hs := (evaluate_settled rnd false n).2.2.2.2 (e.text ++ rest) hn
  have h2 := evaluate_expression_lift h1 (settled_ok _) (le_max_right n n1)
  have h3 := evaluate_expression_lift (rfl : evaluate_expression rnd false n (e.text ++ rest) = _)
    hs (le_max_left n n1)
  rw [← h3, h2]

theorem is_valid_character_digit_char (d : Fin 10) : is_valid_character (digit_char d) = true := by
  revert d; decide

theorem Tree.text_valid (e : Tree) : ∀ c ∈ e.text, is_valid_character c = true := by
  induction e with
  | num d ds =>
    intro c hc
    simp only [Tree.text, digits_text, List.mem_map] at hc
    obtain ⟨x, _, rfl⟩ := hc
    exact is_valid_character_digit_char x
  | pos e ih =>
    intro c hc
    simp only [Tree.text, List.mem_cons] at hc
    rcases hc with rfl | hc
    · decide
    · exact ih c hc
  | neg e ih =>
    intro c hc
    simp only [Tree.text, List.mem_cons] at hc
    rcases hc with rfl | hc
    · decide
    · exact ih c hc
  | paren e ih =>
    intro c hc
    simp only [Tree.text, List.mem_cons, List.mem_append, List.mem_singleton,
      List.not_mem_nil, or_false] at hc
    rcases hc with rfl | hc | rfl
    · decide
    · exact ih c hc
    · decide
  | mul l r ihl ihr =>
    intro c hc
    simp only [Tree.text, List.mem_cons, List.mem_append] at hc
    rcases hc with hc | rfl | hc
    · exact ihl c hc
    · decide
    · exact ihr c hc
  | div l r ihl ihr =>
    intro c hc
    simp only [Tree.text, List.mem_cons, List.mem_append] at hc
    rcases hc with hc | rfl | hc
    · exact ihl c hc
    · decide
    · exact ihr c hc
  | add l r ihl ihr =>
    intro c hc
    simp only [Tree.text, List.mem_cons, List.mem_append] at hc
    rcases hc with hc | rfl | hc
    · exact ihl c hc
    · decide
    · exact ihr c hc
  | sub l r ihl ihr =>
    intro c hc
    simp only [Tree.text, List.mem_cons, List.mem_append] at hc
    rcases hc with hc | rfl | hc
    · exact ihl c hc
    · decide
    · exact ihr c hc

/-- The validity check passes when every byte that survives sanitization is a
valid character (whitespace is valid, and both stop at the terminator). -/
theorem check_valid_chars_of_sanitize (s : List Char)
    (h : ∀ c ∈ sanitize_input s, is_valid_character c = true) :
    check_valid_chars s = .ok () := by
  induction s with
  | nil => rfl
  | cons c s ih =>
    by_cases h0 : c = '\x00'
    · simp only [check_valid_chars, if_pos h0]
    · by_cases hsp : isspace c = true
      · have hv : is_valid_character c = true := by
          simp only [is_valid_character, hsp, Bool.or_true]
        simp only [check_valid_chars, if_neg h0, hv, not_true_eq_false, if_false]
        apply ih
        intro x hx
        apply h
        simp only [sanitize_input, if_neg h0, if_pos hsp]
        exact hx
      · have hmem : sanitize_input (c :: s) = c :: sanitize_input s := by
          simp only [sanitize_input, if_neg h0, if_neg hsp]
        have hv : is_valid_character c = true := h c (by rw [hmem]; exact List.mem_cons_self _ _)
        simp only [check_valid_chars, if_neg h0, hv, not_true_eq_false, if_false]
        apply ih
        intro x hx
        apply h
        rw [hmem]
        exact List.mem_cons_of_mem _ hx

theorem Tree.peek_text_ne_nul (e : Tree) : peek e.text ≠ '\x00' := by
  obtain ⟨c, t1, h, hc⟩ := e.text_startsDense
  have hv := e.text_valid c (by rw [h]; exact List.mem_cons_self _ _)
  rw [h, peek_cons]
  rintro rfl
  revert hv
  decide

/-- A run of `main` in integer mode on an input whose sanitized form is the
sentence of a well-formed tree with a reference value prints that value. -/
theorem main_of_tree {rnd : ℚ → ℚ} (hrnd : IsDoubleRounding rnd) (e : Tree)
    (hwf : e.WellFormed) (z : ℤ) (hz : e.value = some z) (stdin : List Char)
    (hlen : stdin.length ≤ 1023) (hs : sanitize_input stdin = e.text) :
    main rnd [] stdin = .ok (.integer z) := by
  have hread : read_input stdin = .ok stdin := by
    unfold read_input MAX_BUFFER
    rw [if_neg (by omega)]
  have hcheck : check_valid_chars stdin = .ok () :=
    check_valid_chars_of_sanitize stdin (by rw [hs]; exact e.text_valid)
  have heval := evaluate_expression_tree hrnd e hwf z hz [] rfl (by decide) (by decide)
    (fuel_for e.text) (by simp [fuel_for])
  rw [List.append_nil] at heval
  simp only [main, parse_args, hread, hcheck, hs, if_neg e.peek_text_ne_nul, heval,
    trim_spaces_nil, peek_nil, ne_eq, not_true_eq_false, if_false, Bool.false_eq_true,
    is_whole_number_int hrnd, Bool.not_true, c_round_int]

/-! ## Division, associativity, precedence, parentheses (C2 to C5) -/

theorem Literal.tree_value (a : Literal) (h : a.value ≤ 2000000000) :
    a.tree.value = some (a.value : ℤ) := by
  apply within_limit_eq_some.mpr
  refine ⟨?_, rfl⟩
  rw [abs_of_nonneg (by positivity)]
  have : ((a.value : ℕ) : ℤ) ≤ 2000000000 := by exact_mod_cast h
  exact this

theorem Literal.tree_wellFormed (a : Literal) : a.tree.WellFormed := trivial

theorem floor_neg_seven_half : ⌊((-7 : ℤ) : ℚ) / ((2 : ℤ) : ℚ)⌋ = -4 := by
  rw [Int.floor_eq_iff]
  norm_num

/-- C2. In integer mode division floors toward negative infinity: on in-range
integers with a non-zero divisor `integer_divide` returns the floor of the
exact quotient; an input `l/r` whose operands evaluate to `a` and `b` (with
`b` not zero) prints the floor of `a / b`; and `-7/2` prints `-4`. -/
theorem C2_integer_division_floors {rnd : ℚ → ℚ} (hrnd : IsDoubleRounding rnd) :
    (∀ a b : ℤ, |a| ≤ INT_LIMIT → |b| ≤ INT_LIMIT → b ≠ 0 →
      integer_divide rnd (a : ℚ) (b : ℚ) = .ok ((⌊(a : ℚ) / (b : ℚ)⌋ : ℤ) : ℚ)) ∧
    (∀ (l r : Tree) (a b : ℤ) (stdin : List Char), (Tree.div l r).WellFormed →
      l.value = some a → r.value = some b → b ≠ 0 → stdin.length ≤ 1023 →
      sanitize_input stdin = l.text ++ '/' :: r.text →
      main rnd [] stdin = .ok (.integer ⌊(a : ℚ) / (b : ℚ)⌋)) ∧
    main rnd [] "-7/2".toList = .ok (.integer (-4)) := by
  have part2 : ∀ (l r : Tree) (a b : ℤ) (stdin : List Char), (Tree.div l r).WellFormed →
      l.value = some a → r.value = some b → b ≠ 0 → stdin.length ≤ 1023 →
      sanitize_input stdin = l.text ++ '/' :: r.text →
      main rnd [] stdin = .ok (.integer ⌊(a : ℚ) / (b : ℚ)⌋) := by
    intro l r a b stdin hwf ha hb hb0 hlen hs
    refine main_of_tree hrnd (Tree.div l r) hwf _ ?_ stdin hlen hs
    simp only [Tree.value, ha, hb, Option.some_bind, if_neg hb0]
  refine ⟨fun a b ha hb hb0 => integer_divide_int hrnd a b ha hb0 hb, part2, ?_⟩
  have := part2 (.neg (.num 7 [])) (.num 2 []) (-7) 2 "-7/2".toList
    (by simp [Tree.WellFormed, Tree.level]) (by decide) (by decide) (by decide) (by decide)
    (by decide)
  rw [floor_neg_seven_half] at this
  exact this

/-- C2 with binary64 rounding: `-7/2` prints `-4`. -/
theorem C2_integer_division_floors_witness :
    main binary64 [] "-7/2".toList = .ok (.integer (-4)) :=
  (C2_integer_division_floors isDoubleRounding_binary64).2.2

theorem Tree.value_add {l r : Tree} {a b : ℤ} (hl : l.value = some a) (hr : r.value = some b)
    (h : |a + b| ≤ INT_LIMIT) : (Tree.add l r).value = some (a + b) := by
  simp only [Tree.value, hl, hr, Option.some_bind, within_limit, if_pos h]

theorem Tree.value_sub {l r : Tree} {a b : ℤ} (hl : l.value = some a) (hr : r.value = some b)
    (h : |a - b| ≤ INT_LIMIT) : (Tree.sub l r).value = some (a - b) := by
  simp only [Tree.value, hl, hr, Option.some_bind, within_limit, if_pos h]

theorem Tree.value_mul {l r : Tree} {a b : ℤ} (hl : l.value = some a) (hr : r.value = some b)
    (h : |a * b| ≤ INT_LIMIT) : (Tree.mul l r).value = some (a * b) := by
  simp only [Tree.value, hl, hr, Option.some_bind, within_limit, if_pos h]

/-- Both readings of "the input evaluates to `z`": the top-level call of
`evaluate_expression` returns `z` at the end of the text (with any budget from
the one `main` provides on), and a run of `main` on an input of at most 1023
bytes with this sanitized form prints `z`. -/
theorem tree_runs {rnd : ℚ → ℚ} (hrnd : IsDoubleRounding rnd) (e : Tree)
    (hwf : e.WellFormed) (z : ℤ) (hz : e.value = some z) :
    (∀ n, fuel_for e.text ≤ n → evaluate_expression rnd false n e.text = .ok ((z : ℚ), [])) ∧
    (∀ stdin : List Char, stdin.length ≤ 1023 → sanitize_input stdin = e.text →
      main rnd [] stdin = .ok (.integer z)) := by
  constructor
  · intro n hn
    have := evaluate_expression_tree hrnd e hwf z hz [] rfl (by decide) (by decide) n
      (by simpa [fuel_for] using hn)
    simpa using this
  · exact fun stdin hlen hs => main_of_tree hrnd e hwf z hz stdin hlen hs

/-- C3. Additive operators are left-associative: for number literals `a`, `b`,
`c` within the range ceiling whose intermediate values `a - b` and
`(a - b) - c` are within it too (no range error), the integer-mode text
`a-b-c` evaluates to `(a - b) - c`, in `evaluate_expression` and as the printed
result of a run; this differs from `a - (b - c)` unless `c` is zero; and
`8-3-2` prints `3`. -/
theorem C3_subtraction_left_associative {rnd : ℚ → ℚ} (hrnd : IsDoubleRounding rnd) :
    (∀ a b c : Literal, a.value ≤ 2000000000 → b.value ≤ 2000000000 →
      c.value ≤ 2000000000 → |(a.value : ℤ) - b.value| ≤ INT_LIMIT →
      |((a.value : ℤ) - b.value) - c.value| ≤ INT_LIMIT →
      (∀ n, fuel_for (a.text ++ '-' :: (b.text ++ '-' :: c.text)) ≤ n →
        evaluate_expression rnd false n (a.text ++ '-' :: (b.text ++ '-' :: c.text)) =
          .ok (((((a.value : ℤ) - b.value) - c.value : ℤ) : ℚ), [])) ∧
      (∀ stdin : List Char, stdin.length ≤ 1023 →
        sanitize_input stdin = a.text ++ '-' :: (b.text ++ '-' :: c.text) →
        main rnd [] stdin = .ok (.integer (((a.value : ℤ) - b.value) - c.value))) ∧
      (c.value ≠ 0 →
        ((a.value : ℤ) - b.value) - c.value ≠ (a.value : ℤ) - ((b.value : ℤ) - c.value))) ∧
    main rnd [] "8-3-2".toList = .ok (.integer 3) := by
  have part1 : ∀ a b c : Literal, a.value ≤ 2000000000 → b.value ≤ 2000000000 →
      c.value ≤ 2000000000 → |(a.value : ℤ) - b.value| ≤ INT_LIMIT →
      |((a.value : ℤ) - b.value) - c.value| ≤ INT_LIMIT →
      (∀ n, fuel_for (a.text ++ '-' :: (b.text ++ '-' :: c.text)) ≤ n →
        evaluate_expression rnd false n (a.text ++ '-' :: (b.text ++ '-' :: c.text)) =
          .ok (((((a.value : ℤ) - b.value) - c.value : ℤ) : ℚ), [])) ∧
      (∀ stdin : List Char, stdin.length ≤ 1023 →
        sanitize_input stdin = a.text ++ '-' :: (b.text ++ '-' :: c.text) →
        main rnd [] stdin = .ok (.integer (((a.value : ℤ) - b.value) - c.value))) := by
    intro a b c ha hb hc hab habc
    have hv := Tree.value_sub (Tree.value_sub (a.tree_value ha) (b.tree_value hb) hab)
      (c.tree_value hc) habc
    have htext : (Tree.sub (.sub a.tree b.tree) c.tree).text =
        a.text ++ '-' :: (b.text ++ '-' :: c.text) := by
      simp only [Tree.text, Literal.tree, Literal.text, List.append_assoc, List.cons_append]
    have hwf : (Tree.sub (.sub a.tree b.tree) c.tree).WellFormed := by
      simp [Tree.WellFormed, Tree.level, Literal.tree]
    have := tree_runs hrnd _ hwf _ hv
    rw [htext] at this
    exact this
  refine ⟨fun a b c ha hb hc hab habc => ⟨(part1 a b c ha hb hc hab habc).1,
    (part1 a b c ha hb hc hab habc).2, fun h0 => ?_⟩, ?_⟩
  · have : (c.value : ℤ) ≠ 0 := by exact_mod_cast h0
    intro h
    apply this
    linarith
  · exact (part1 ⟨8, []⟩ ⟨3, []⟩ ⟨2, []⟩ (by decide) (by decide) (by decide) (by decide)
      (by decide)).2 "8-3-2".toList (by decide) (by decide)

/-- C3 with binary64 rounding: `8-3-2` prints `3`. -/
theorem C3_subtraction_left_associative_witness :
    main binary64 [] "8-3-2".toList = .ok (.integer 3) :=
  (C3_subtraction_left_associative isDoubleRounding_binary64).2

/-- C4. Multiplicative operators bind tighter than additive ones: for number
literals `a`, `b`, `c` within the range ceiling whose intermediate values
`b * c` and `a + b * c` are within it too (no range error), the integer-mode
text `a+b*c` evaluates to `a + (b * c)`, in `evaluate_expression` and as the
printed result of a run; this differs from `(a + b) * c` unless `a = a * c`;
and `2+3*4` prints `14`. -/
theorem C4_multiplication_binds_tighter {rnd : ℚ → ℚ} (hrnd : IsDoubleRounding rnd) :
    (∀ a b c : Literal, a.value ≤ 2000000000 → b.value ≤ 2000000000 →
      c.value ≤ 2000000000 → |(b.value : ℤ) * c.value| ≤ INT_LIMIT →
      |(a.value : ℤ) + (b.value : ℤ) * c.value| ≤ INT_LIMIT →
      (∀ n, fuel_for (a.text ++ '+' :: (b.text ++ '*' :: c.text)) ≤ n →
        evaluate_expression rnd false n (a.text ++ '+' :: (b.text ++ '*' :: c.text)) =
          .ok ((((a.value : ℤ) + (b.value : ℤ) * c.value : ℤ) : ℚ), [])) ∧
      (∀ stdin : List Char, stdin.length ≤ 1023 →
        sanitize_input stdin = a.text ++ '+' :: (b.text ++ '*' :: c.text) →
        main rnd [] stdin = .ok (.integer ((a.value : ℤ) + (b.value : ℤ) * c.value))) ∧
      ((a.value : ℤ) ≠ (a.value : ℤ) * c.value →
        (a.value : ℤ) + (b.value : ℤ) * c.value ≠
          ((a.value : ℤ) + (b.value : ℤ)) * c.value)) ∧
    main rnd [] "2+3*4".toList = .ok (.integer 14) := by
  have part1 : ∀ a b c : Literal, a.value ≤ 2000000000 → b.value ≤ 2000000000 →
      c.value ≤ 2000000000 → |(b.value : ℤ) * c.value| ≤ INT_LIMIT →
      |(a.value : ℤ) + (b.value : ℤ) * c.value| ≤ INT_LIMIT →
      (∀ n, fuel_for (a.text ++ '+' :: (b.text ++ '*' :: c.text)) ≤ n →
        evaluate_expression rnd false n (a.text ++ '+' :: (b.text ++ '*' :: c.text)) =
          .ok ((((a.value : ℤ) + (b.value : ℤ) * c.value : ℤ) : ℚ), [])) ∧
      (∀ stdin : List Char, stdin.length ≤ 1023 →
        sanitize_input stdin = a.text ++ '+' :: (b.text ++ '*' :: c.text) →
        main rnd [] stdin = .ok (.integer ((a.value : ℤ) + (b.value : ℤ) * c.value))) := by
    intro a b c ha hb hc hbc habc
    have hv := Tree.value_add (a.tree_value ha)
      (Tree.value_mul (b.tree_value hb) (c.tree_value hc) hbc) habc
    have htext : (Tree.add a.tree (.mul b.tree c.tree)).text =
        a.text ++ '+' :: (b.text ++ '*' :: c.text) := by
      simp only [Tree.text, Literal.tree, Literal.text]
    have hwf : (Tree.add a.tree (.mul b.tree c.tree)).WellFormed := by
      simp [Tree.WellFormed, Tree.level, Literal.tree]
    have := tree_runs hrnd _ hwf _ hv
    rw [htext] at this
    exact this
  refine ⟨fun a b c ha hb hc hbc habc => ⟨(part1 a b c ha hb hc hbc habc).1,
    (part1 a b c ha hb hc hbc habc).2, fun h0 h => ?_⟩, ?_⟩
  · apply h0
    linarith
  · exact (part1 ⟨2, []⟩ ⟨3, []⟩ ⟨4, []⟩ (by decide) (by decide) (by decide) (by decide)
      (by decide)).2 "2+3*4".toList (by decide) (by decide)

/-- C4 with binary64 rounding: `2+3*4` prints `14`. -/
theorem C4_multiplication_binds_tighter_witness :
    main binary64 [] "2+3*4".toList = .ok (.integer 14) :=
  (C4_multiplication_binds_tighter isDoubleRounding_binary64).2

theorem evaluate_factor_paren_of_exprParses {rnd : ℚ → ℚ} {t : List Char} {z : ℤ}
    (h : ExprParses rnd t z) (hv : |z| ≤ INT_LIMIT) (rest : List Char) :
    ∃ n, evaluate_factor rnd false n ('(' :: (t ++ ')' :: rest)) = .ok ((z : ℚ), rest) := by
  have htr : trim_spaces (')' :: rest) = ')' :: rest :=
    trim_spaces_of_not_isspace _ (by decide)
  have hstop : evaluate_expression_loop rnd false 1 (z : ℚ) (trim_spaces (')' :: rest)) =
      .ok ((z : ℚ), ')' :: rest) := by
    rw [htr]
    exact evaluate_expression_loop_stop rnd false 0 _ _ (by rw [peek_cons]; decide)
  obtain ⟨n1, h1⟩ := h (')' :: rest) (.ok ((z : ℚ), ')' :: rest))
    (by rw [peek_cons]; decide) (by rw [htr, peek_cons]; decide) (settled_ok _) ⟨1, hstop⟩
  refine ⟨n1 + 1, ?_⟩
  have := evaluate_factor_paren h1 (by rw [htr, peek_cons]) (inRange_int.mpr hv)
  simpa only [htr, List.tail_cons] using this

/-- C5. Parentheses override precedence: for number literals `a`, `b`, `c`
within the range ceiling whose intermediate values `a + b` and `(a + b) * c`
are within it too (no range error), the integer-mode text `(a+b)*c` evaluates
to `(a + b) * c`, in `evaluate_expression` and as the printed result of a run:
the parenthesized text is read by `evaluate_factor` (with any large enough
recursion budget) as one factor of value `a + b`, whatever follows the closing
parenthesis; and `(2+3)*4` prints `20`. -/
theorem C5_parentheses_override_precedence {rnd : ℚ → ℚ} (hrnd : IsDoubleRounding rnd) :
    (∀ a b c : Literal, a.value ≤ 2000000000 → b.value ≤ 2000000000 →
      c.value ≤ 2000000000 → |(a.value : ℤ) + b.value| ≤ INT_LIMIT →
      |((a.value : ℤ) + b.value) * c.value| ≤ INT_LIMIT →
      (∀ n, fuel_for ('(' :: (a.text ++ '+' :: b.text ++ [')']) ++ '*' :: c.text) ≤ n →
        evaluate_expression rnd false n
            ('(' :: (a.text ++ '+' :: b.text ++ [')']) ++ '*' :: c.text) =
          .ok (((((a.value : ℤ) + b.value) * c.value : ℤ) : ℚ), [])) ∧
      (∀ stdin : List Char, stdin.length ≤ 1023 →
        sanitize_input stdin = '(' :: (a.text ++ '+' :: b.text ++ [')']) ++ '*' :: c.text →
        main rnd [] stdin = .ok (.integer (((a.value : ℤ) + b.value) * c.value))) ∧
      (∀ rest : List Char, ∃ n, ∀ m, n ≤ m →
        evaluate_factor rnd false m ('(' :: (a.text ++ '+' :: b.text ++ ')' :: rest)) =
          .ok ((((a.value : ℤ) + b.value : ℤ) : ℚ), rest))) ∧
    main rnd [] "(2+3)*4".toList = .ok (.integer 20) := by
  have part1 : ∀ a b c : Literal, a.value ≤ 2000000000 → b.value ≤ 2000000000 →
      c.value ≤ 2000000000 → |(a.value : ℤ) + b.value| ≤ INT_LIMIT →
      |((a.value : ℤ) + b.value) * c.value| ≤ INT_LIMIT →
      (∀ n, fuel_for ('(' :: (a.text ++ '+' :: b.text ++ [')']) ++ '*' :: c.text) ≤ n →
        evaluate_expression rnd false n
            ('(' :: (a.text ++ '+' :: b.text ++ [')']) ++ '*' :: c.text) =
          .ok (((((a.value : ℤ) + b.value) * c.value : ℤ) : ℚ), [])) ∧
      (∀ stdin : List Char, stdin.length ≤ 1023 →
        sanitize_input stdin = '(' :: (a.text ++ '+' :: b.text ++ [')']) ++ '*' :: c.text →
        main rnd [] stdin = .ok (.integer (((a.value : ℤ) + b.value) * c.value))) := by
    intro a b c ha hb hc hab habc
    have hv := Tree.value_mul (l := .paren (.add a.tree b.tree))
      (Tree.value_add (a.tree_value ha) (b.tree_value hb) hab) (c.tree_value hc) habc
    have htext : (Tree.mul (.paren (.add a.tree b.tree)) c.tree).text =
        '(' :: (a.text ++ '+' :: b.text ++ [')']) ++ '*' :: c.text := by
      simp only [Tree.text, Literal.tree, Literal.text, List.append_assoc, List.cons_append]
    have hwf : (Tree.mul (.paren (.add a.tree b.tree)) c.tree).WellFormed := by
      simp [Tree.WellFormed, Tree.level, Literal.tree]
    have := tree_runs hrnd _ hwf _ hv
    rw [htext] at this
    exact this
  refine ⟨fun a b c ha hb hc hab habc => ⟨(part1 a b c ha hb hc hab habc).1,
    (part1 a b c ha hb hc hab habc).2, fun rest => ?_⟩, ?_⟩
  · have hv := Tree.value_add (a.tree_value ha) (b.tree_value hb) hab
    have hwf : (Tree.add a.tree b.tree).WellFormed := by
      simp [Tree.WellFormed, Tree.level, Literal.tree]
    obtain ⟨n, hn⟩ := evaluate_factor_paren_of_exprParses
      ((Tree.add a.tree b.tree).parses hrnd hwf _ hv).2.2 hab rest
    refine ⟨n, fun m hm => ?_⟩
    have := evaluate_factor_lift hn (settled_ok _) hm
    simpa only [Tree.text, Literal.tree, Literal.text, List.append_assoc, List.cons_append]
      using this
  · exact (part1 ⟨2, []⟩ ⟨3, []⟩ ⟨4, []⟩ (by decide) (by decide) (by decide) (by decide)
      (by decide)).2 "(2+3)*4".toList (by decide) (by decide)

/-- C5 with binary64 rounding: `(2+3)*4` prints `20`. -/
theorem C5_parentheses_override_precedence_witness :
    main binary64 [] "(2+3)*4".toList = .ok (.integer 20) :=
  (C5_parentheses_override_precedence isDoubleRounding_binary64).2

/-! ## Unary sign folding (C6) -/

theorem negate_result_negate_result (x : Except ParseError (ℚ × List Char)) :
    negate_result (negate_result x) = x := by
  rcases x with e | ⟨v, s⟩
  · rfl
  · simp only [negate_result, neg_neg]

/-- A run of signs in front of a factor negates its result once per `-`. -/
theorem evaluate_factor_sign_run (rnd : ℚ → ℚ) (uf : Bool) (n : ℕ) (signs : List Char)
    (hs : IsSignRun signs) (s : List Char) :
    evaluate_factor rnd uf (n + 1) (signs ++ s) =
      if signs.count '-' % 2 = 0 then evaluate_factor rnd uf (n + 1) s
      else negate_result (evaluate_factor rnd uf (n + 1) s) := by
  induction signs with
  | nil => simp
  | cons c signs ih =>
    have ih := ih (fun x hx => hs x (List.mem_cons_of_mem _ hx))
    rcases hs c (List.mem_cons_self _ _) with rfl | rfl | ⟨h0, hsp⟩
    · rw [List.cons_append, evaluate_factor_plus, ih,
        List.count_cons_of_ne (by decide)]
    · rw [List.cons_append, evaluate_factor_minus, ih, List.count_cons_self]
      by_cases hpar : signs.count '-' % 2 = 0
      · have : ¬ ((signs.count '-' + 1) % 2 = 0) := by omega
        rw [if_pos hpar, if_neg this]
      · have : (signs.count '-' + 1) % 2 = 0 := by omega
        rw [if_neg hpar, if_pos this, negate_result_negate_result]
    · have hne : c ≠ '-' := by
        rintro rfl
        revert hsp
        decide
      rw [List.cons_append, evaluate_factor_space _ _ _ _ _ h0 hsp, ih,
        List.count_cons_of_ne (Ne.symm hne)]

/-- C6. Unary sign folding: when `evaluate_factor` returns `v` on an operand
(a number literal, a parenthesized expression, or any other text), it returns
`v` on the operand preceded by a run of `+` and `-` (with or without
whitespace between them) that has an even number of `-`, and `-v` when the
number is odd, leaving the cursor at the same place; and `--5` prints `5`,
`-(-5)` prints `5`, `+-5` prints `-5`. -/
theorem C6_unary_sign_folding {rnd : ℚ → ℚ} (hrnd : IsDoubleRounding rnd) :
    (∀ (uf : Bool) (n : ℕ) (signs operand : List Char) (v : ℚ) (s' : List Char),
      IsSignRun signs → evaluate_factor rnd uf n operand = .ok (v, s') →
      evaluate_factor rnd uf n (signs ++ operand) =
        .ok (if signs.count '-' % 2 = 0 then v else -v, s')) ∧
    main rnd [] "--5".toList = .ok (.integer 5) ∧
    main rnd [] "-(-5)".toList = .ok (.integer 5) ∧
    main rnd [] "+-5".toList = .ok (.integer (-5)) := by
  refine ⟨?_, ?_, ?_, ?_⟩
  · intro uf n signs operand v s' hs h
    cases n with
    | zero => simp [evaluate_factor] at h
    | succ n =>
      rw [evaluate_factor_sign_run rnd uf n signs hs operand, h]
      by_cases hpar : signs.count '-' % 2 = 0
      · rw [if_pos hpar, if_pos hpar]
      · rw [if_neg hpar, if_neg hpar]
        rfl
  · exact main_of_tree hrnd (.neg (.neg (.num 5 []))) (by simp [Tree.WellFormed, Tree.level])
      5 (by decide) _ (by decide) (by decide)
  · exact main_of_tree hrnd (.neg (.paren (.neg (.num 5 []))))
      (by simp [Tree.WellFormed, Tree.level]) 5 (by decide) _ (by decide) (by decide)
  · exact main_of_tree hrnd (.pos (.neg (.num 5 []))) (by simp [Tree.WellFormed, Tree.level])
      (-5) (by decide) _ (by decide) (by decide)

/-- C6 with binary64 rounding: `--5` prints `5`, `-(-5)` prints `5` and `+-5`
prints `-5`. -/
theorem C6_unary_sign_folding_witness :
    main binary64 [] "--5".toList = .ok (.integer 5) ∧
    main binary64 [] "-(-5)".toList = .ok (.integer 5) ∧
    main binary64 [] "+-5".toList = .ok (.integer (-5)) :=
  (C6_unary_sign_folding isDoubleRounding_binary64).2

/-! ## The near-zero guard of division (C7) -/

theorem integer_divide_guard (rnd : ℚ → ℚ) (lhs v : ℚ) :
    integer_divide rnd lhs v = .error .DivisionByZero ↔ |v| < rnd (1 / 10000) := by
  by_cases hg : |v| < rnd (1 / 10000)
  · simp only [integer_divide, if_pos hg, hg, if_true]
  · simp only [integer_divide, if_neg hg, hg, iff_false]
    rcases hv : validate_range ((⌊rnd (lhs / v)⌋ : ℤ) : ℚ) with e | u
    · rw [(validate_range_error hv).1]
      simp
    · simp

theorem floating_divide_guard (rnd : ℚ → ℚ) (lhs v : ℚ) :
    floating_divide rnd lhs v = .error .DivisionByZero ↔ |v| < rnd (1 / 10000) := by
  by_cases hg : |v| < rnd (1 / 10000)
  · simp only [floating_divide, if_pos hg, hg, if_true]
  · simp only [floating_divide, if_neg hg, hg, iff_false]
    rcases hv : validate_range (rnd (lhs / v)) with e | u
    · rw [(validate_range_error hv).1]
      simp
    · simp

/-- For a double `v`, being below the exact `1e-4` in magnitude and being below
the double constant `1e-4` are the same. -/
theorem guard_iff {rnd : ℚ → ℚ} (hrnd : IsDoubleRounding rnd) (v : ℚ) (hv : rnd |v| = |v|) :
    |v| < rnd (1 / 10000) ↔ |v| < 1 / 10000 := by
  constructor
  · intro h
    by_contra hge
    rw [not_lt] at hge
    have := hrnd.mono _ _ hge
    rw [hv] at this
    exact absurd h (not_lt.mpr this)
  · intro h
    exact lt_of_lt_of_le h hrnd.guard_above

/-- C7. Division by a divisor `v` (a double: its magnitude is unchanged by
rounding) with `|v| < 1e-4` fails with `DivisionByZero` in both modes, whatever
the dividend: `integer_divide` and `floating_divide` both raise it, and so does
the `/` step of `evaluate_term` in either mode when the right operand is `v`; a
divisor with `|v| >= 1e-4` never raises it. -/
theorem C7_division_by_near_zero {rnd : ℚ → ℚ} (hrnd : IsDoubleRounding rnd) (lhs v : ℚ)
    (hv : rnd |v| = |v|) :
    (|v| < 1 / 10000 →
      integer_divide rnd lhs v = .error .DivisionByZero ∧
      floating_divide rnd lhs v = .error .DivisionByZero ∧
      ∀ (uf : Bool) (n : ℕ) (s s1 : List Char),
        evaluate_factor rnd uf n (trim_spaces s) = .ok (v, s1) →
        evaluate_term_loop rnd uf (n + 1) lhs ('/' :: s) = .error .DivisionByZero) ∧
    (1 / 10000 ≤ |v| →
      integer_divide rnd lhs v ≠ .error .DivisionByZero ∧
      floating_divide rnd lhs v ≠ .error .DivisionByZero) := by
  constructor
  · intro h
    have hg := (guard_iff hrnd v hv).mpr h
    refine ⟨(integer_divide_guard rnd lhs v).mpr hg, (floating_divide_guard rnd lhs v).mpr hg,
      fun uf n s s1 hF => ?_⟩
    rw [evaluate_term_loop, if_pos (Or.inr (peek_cons _ _))]
    simp only [peek_cons, List.tail_cons, hF, if_neg (show ¬ ('/' = '*') by decide)]
    cases uf
    · simp only [Bool.false_eq_true, if_false, (integer_divide_guard rnd lhs v).mpr hg]
    · simp only [if_true, (floating_divide_guard rnd lhs v).mpr hg]
  · intro h
    have hg : ¬ |v| < rnd (1 / 10000) := fun hlt =>
      absurd ((guard_iff hrnd v hv).mp hlt) (not_lt.mpr h)
    exact ⟨fun he => hg ((integer_divide_guard rnd lhs v).mp he),
      fun he => hg ((floating_divide_guard rnd lhs v).mp he)⟩

/-- C7 with binary64 rounding at the divisors `0` and `1`, dividend `1`. -/
theorem C7_division_by_near_zero_witness :
    (integer_divide binary64 1 0 = .error .DivisionByZero ∧
      floating_divide binary64 1 0 = .error .DivisionByZero) ∧
    (integer_divide binary64 1 1 ≠ .error .DivisionByZero ∧
      floating_divide binary64 1 1 ≠ .error .DivisionByZero) :=
  ⟨⟨((C7_division_by_near_zero isDoubleRounding_binary64 1 0
        (by rw [abs_zero, binary64_zero])).1 (by norm_num)).1,
    ((C7_division_by_near_zero isDoubleRounding_binary64 1 0
        (by rw [abs_zero, binary64_zero])).1 (by norm_num)).2.1⟩,
   (C7_division_by_near_zero isDoubleRounding_binary64 1 1
      (by rw [abs_one]; simpa using binary64_int 1 (by norm_num))).2 (by norm_num)⟩

/-! ## Successful runs, and the range of what is printed (C8) -/

theorem read_input_ok_iff {stdin raw : List Char} :
    read_input stdin = .ok raw ↔ stdin.length ≤ 1023 ∧ raw = stdin := by
  unfold read_input MAX_BUFFER
  by_cases h : stdin.length > 1024 - 1
  · rw [if_pos h]
    constructor
    · intro h2; cases h2
    · rintro ⟨h2, -⟩; omega
  · rw [if_neg h]
    constructor
    · intro h2
      cases h2
      exact ⟨by omega, rfl⟩
    · rintro ⟨-, rfl⟩; rfl

/-- What a successful run went through: the arguments were accepted, the input
fitted the buffer and passed the character check, the sanitized buffer was not
empty, the top-level call returned a value with nothing left at the cursor,
and the value was printed in the format of the mode. -/
theorem main_ok_inv {rnd : ℚ → ℚ} {args : List String} {stdin : List Char} {out : Output}
    (h : main rnd args stdin = .ok out) :
    ∃ (uf : Bool) (result : ℚ) (cursor : List Char),
      parse_args false args = .ok uf ∧ stdin.length ≤ 1023 ∧
      check_valid_chars stdin = .ok () ∧ peek (sanitize_input stdin) ≠ '\x00' ∧
      evaluate_expression rnd uf (fuel_for (sanitize_input stdin)) (sanitize_input stdin) =
        .ok (result, cursor) ∧
      peek (trim_spaces cursor) = '\x00' ∧
      ((uf = true ∧ out = .floating result) ∨
        (uf = false ∧ is_whole_number rnd result = true ∧ out = .integer (c_round result))) := by
  unfold main at h
  rcases hargs : parse_args false args with e | uf
  · simp only [hargs, reduceCtorEq] at h
  · rcases hread : read_input stdin with e | raw
    · simp only [hargs, hread, reduceCtorEq] at h
    · obtain ⟨hlen, rfl⟩ := read_input_ok_iff.mp hread
      rcases hcheck : check_valid_chars raw with e | u
      · simp only [hargs, hread, hcheck, reduceCtorEq] at h
      · simp only [hargs, hread, hcheck] at h
        by_cases hne : peek (sanitize_input raw) = '\x00'
        · simp only [if_pos hne, reduceCtorEq] at h
        · simp only [if_neg hne] at h
          rcases heval : evaluate_expression rnd uf (fuel_for (sanitize_input raw))
              (sanitize_input raw) with e | ⟨result, cursor⟩
          · simp only [heval, reduceCtorEq] at h
          · simp only [heval] at h
            by_cases htr : peek (trim_spaces cursor) ≠ '\x00'
            · simp only [if_pos htr, reduceCtorEq] at h
            · simp only [if_neg htr] at h
              refine ⟨uf, result, cursor, rfl, hlen, rfl, hne, heval, not_not.mp htr, ?_⟩
              cases uf
              · right
                by_cases hw : is_whole_number rnd result = true
                · simp only [Bool.false_eq_true, if_false, hw, Bool.not_true,
                    Except.ok.injEq] at h
                  exact ⟨rfl, hw, h.symm⟩
                · simp only [Bool.not_eq_true] at hw
                  simp only [Bool.false_eq_true, if_false, hw, Bool.not_false, if_true,
                    reduceCtorEq] at h
              · left
                simp only [if_true, Except.ok.injEq] at h
                exact ⟨rfl, h.symm⟩

theorem c_round_abs_le {x : ℚ} (h : InRange x) : |c_round x| ≤ INT_LIMIT := by
  unfold InRange VALUE_LIMIT at h
  unfold c_round INT_LIMIT
  rw [abs_le]
  split_ifs with h0
  · constructor
    · have : (0 : ℤ) ≤ ⌊x + 1 / 2⌋ := Int.floor_nonneg.mpr (by linarith)
      linarith
    · have : ⌊x + 1 / 2⌋ < 2000000000 + 1 := by
        rw [Int.floor_lt]
        push_cast
        linarith [h.2]
      omega
  · rw [not_le] at h0
    constructor
    · have : (-2000000000 - 1 : ℤ) < ⌈x - 1 / 2⌉ := by
        rw [Int.lt_ceil]
        push_cast
        linarith [h.1]
      omega
    · have : ⌈x - 1 / 2⌉ ≤ 0 := by
        rw [Int.ceil_le]
        push_cast
        linarith
      linarith

/-- C8. The range ceiling bounds every value the evaluators return, in both
modes and for every rounding: a value returned by `evaluate_factor`,
`evaluate_term` or `evaluate_expression` lies in `[-2e9, 2e9]`, the running
value of either loop stays there, and so does every printed result. -/
theorem C8_range_ceiling (rnd : ℚ → ℚ) (uf : Bool) :
    (∀ n s x s', evaluate_factor rnd uf n s = .ok (x, s') →
      -2000000000 ≤ x ∧ x ≤ 2000000000) ∧
    (∀ n s x s', evaluate_term rnd uf n s = .ok (x, s') →
      -2000000000 ≤ x ∧ x ≤ 2000000000) ∧
    (∀ n s x s', evaluate_expression rnd uf n s = .ok (x, s') →
      -2000000000 ≤ x ∧ x ≤ 2000000000) ∧
    (∀ n val s x s', -2000000000 ≤ val ∧ val ≤ 2000000000 →
      evaluate_term_loop rnd uf n val s = .ok (x, s') → -2000000000 ≤ x ∧ x ≤ 2000000000) ∧
    (∀ n val s x s', -2000000000 ≤ val ∧ val ≤ 2000000000 →
      evaluate_expression_loop rnd uf n val s = .ok (x, s') →
      -2000000000 ≤ x ∧ x ≤ 2000000000) ∧
    (∀ args stdin,
      (∀ z : ℤ, main rnd args stdin = .ok (.integer z) → -2000000000 ≤ z ∧ z ≤ 2000000000) ∧
      (∀ x : ℚ, main rnd args stdin = .ok (.floating x) →
        -2000000000 ≤ x ∧ x ≤ 2000000000)) := by
  refine ⟨fun n s x s' h => (evaluate_range rnd uf n).1 s x s' h,
    fun n s x s' h => (evaluate_range rnd uf n).2.2.1 s x s' h,
    fun n s x s' h => (evaluate_range rnd uf n).2.2.2.2 s x s' h,
    fun n val s x s' hval h => (evaluate_range rnd uf n).2.1 val s x s' hval h,
    fun n val s x s' hval h => (evaluate_range rnd uf n).2.2.2.1 val s x s' hval h,
    fun args stdin => ⟨fun z h => ?_, fun x h => ?_⟩⟩
  · obtain ⟨uf', result, cursor, -, -, -, -, heval, -, hout⟩ := main_ok_inv h
    have hr := (evaluate_range rnd uf' _).2.2.2.2 _ _ _ heval
    rcases hout with ⟨-, hout⟩ | ⟨-, -, hout⟩
    · cases hout
    · cases hout
      exact abs_le.mp (c_round_abs_le hr)
  · obtain ⟨uf', result, cursor, -, -, -, -, heval, -, hout⟩ := main_ok_inv h
    have hr := (evaluate_range rnd uf' _).2.2.2.2 _ _ _ heval
    rcases hout with ⟨-, hout⟩ | ⟨-, -, hout⟩
    · cases hout
      exact hr
    · cases hout

/-! ## Trailing input (C9) -/

/-- The sanitized buffer holds no terminator and no whitespace. -/
theorem sanitize_input_dense (s : List Char) :
    ∀ c ∈ sanitize_input s, c ≠ '\x00' ∧ isspace c = false := by
  induction s with
  | nil => intro c hc; cases hc
  | cons a s ih =>
    intro c hc
    by_cases h0 : a = '\x00'
    · simp only [sanitize_input, if_pos h0] at hc
      cases hc
    · by_cases hsp : isspace a = true
      · simp only [sanitize_input, if_neg h0, if_pos hsp] at hc
        exact ih c hc
      · simp only [sanitize_input, if_neg h0, if_neg hsp, List.mem_cons] at hc
        rcases hc with rfl | hc
        · exact ⟨h0, by simpa using hsp⟩
        · exact ih c hc

theorem peek_ne_nul_of_dense {s : List Char} (hs : s ≠ [])
    (hd : ∀ c ∈ s, c ≠ '\x00' ∧ isspace c = false) :
    trim_spaces s = s ∧ peek s ≠ '\x00' := by
  cases s with
  | nil => exact absurd rfl hs
  | cons c t =>
    have := hd c (List.mem_cons_self _ _)
    exact ⟨trim_spaces_of_not_isspace t this.2, this.1⟩

/-- The run of `main` once the arguments, the size and the characters of the
input have been accepted and the sanitized buffer is not empty. -/
theorem main_after_gates {rnd : ℚ → ℚ} {args : List String} {stdin : List Char} {uf : Bool}
    (hargs : parse_args false args = .ok uf) (hlen : stdin.length ≤ 1023)
    (hcheck : check_valid_chars stdin = .ok ()) (hne : peek (sanitize_input stdin) ≠ '\x00') :
    main rnd args stdin =
      match evaluate_expression rnd uf (fuel_for (sanitize_input stdin))
          (sanitize_input stdin) with
      | .error e => .error e
      | .ok (result, cursor) =>
        if peek (trim_spaces cursor) ≠ '\x00' then .error .TrailingInput
        else if uf then .ok (.floating result)
        else if !is_whole_number rnd result then .error .FinalNotInteger
        else .ok (.integer (c_round result)) := by
  have hread : read_input stdin = .ok stdin := read_input_ok_iff.mpr ⟨hlen, rfl⟩
  simp only [main, hargs, hread, hcheck, if_neg hne]

/-- The result of the top-level call does not depend on the budget, once it is
a result of the program. -/
theorem evaluate_expression_at_fuel_for {rnd : ℚ → ℚ} {uf : Bool} {n : ℕ} {s : List Char}
    {r : Except ParseError (ℚ × List Char)} (h : evaluate_expression rnd uf n s = r)
    (hr : Settled r) : evaluate_expression rnd uf (fuel_for s) s = r := by
  have hs := (evaluate_settled rnd uf (fuel_for s)).2.2.2.2 s (le_refl _)
  have h2 := evaluate_expression_lift h hr (le_max_left n (fuel_for s))
  have h3 := evaluate_expression_lift
    (rfl : evaluate_expression rnd uf (fuel_for s) s = _) hs (le_max_right n (fuel_for s))
  rw [← h3, h2]

/-- C9. Unconsumed trailing characters fail: whenever the input passes the
argument, size, character and emptiness checks and the top-level call of
`evaluate_expression` (with any recursion budget) returns a value while a
character remains at the cursor (in the sanitized buffer every character is
non-whitespace), the run fails with `TrailingInput` and prints nothing; and
`3+4)` fails with `TrailingInput`. -/
theorem C9_trailing_input {rnd : ℚ → ℚ} (hrnd : IsDoubleRounding rnd) :
    (∀ (args : List String) (stdin : List Char) (uf : Bool) (n : ℕ) (v : ℚ)
        (cursor : List Char),
      parse_args false args = .ok uf → stdin.length ≤ 1023 →
      check_valid_chars stdin = .ok () → sanitize_input stdin ≠ [] →
      evaluate_expression rnd uf n (sanitize_input stdin) = .ok (v, cursor) →
      cursor ≠ [] → main rnd args stdin = .error .TrailingInput) ∧
    main rnd [] "3+4)".toList = .error .TrailingInput := by
  have part1 : ∀ (args : List String) (stdin : List Char) (uf : Bool) (n : ℕ) (v : ℚ)
      (cursor : List Char),
      parse_args false args = .ok uf → stdin.length ≤ 1023 →
      check_valid_chars stdin = .ok () → sanitize_input stdin ≠ [] →
      evaluate_expression rnd uf n (sanitize_input stdin) = .ok (v, cursor) →
      cursor ≠ [] → main rnd args stdin = .error .TrailingInput := by
    intro args stdin uf n v cursor hargs hlen hcheck hne heval hcur
    have hbuf := peek_ne_nul_of_dense hne (sanitize_input_dense stdin)
    have hsuf := (evaluate_suffix rnd uf n).2.2.2.2 _ _ _ heval
    have hcd := peek_ne_nul_of_dense hcur
      (fun c hc => sanitize_input_dense stdin c (hsuf.subset hc))
    rw [main_after_gates hargs hlen hcheck hbuf.2,
      evaluate_expression_at_fuel_for heval (settled_ok _)]
    simp only [hcd.1, ne_eq, hcd.2, not_false_eq_true, if_true]
  refine ⟨part1, ?_⟩
  have heval := evaluate_expression_tree hrnd (.add (.num 3 []) (.num 4 []))
    (by simp [Tree.WellFormed, Tree.level]) 7 (by decide) [')'] rfl (by decide) (by decide)
    _ (le_refl _)
  exact part1 [] "3+4)".toList false _ _ _ rfl (by decide) rfl (by decide) heval
    (by decide)

/-- C9 with binary64 rounding: `3+4)` fails with `TrailingInput`. -/
theorem C9_trailing_input_witness :
    main binary64 [] "3+4)".toList = .error .TrailingInput :=
  (C9_trailing_input isDoubleRounding_binary64).2

/-! ## Exact values and what is printed (C1) -/

theorem evaluate_expression_loop_add_out_of_range {rnd : ℚ → ℚ} {uf : Bool} {n : ℕ}
    {val y : ℚ} {s t : List Char}
    (hT : evaluate_term rnd uf n (trim_spaces s) = .ok (y, t))
    (hv : ¬ InRange (rnd (val + y))) :
    evaluate_expression_loop rnd uf (n + 1) val ('+' :: s) = .error .OutOfRange := by
  rcases hvr : validate_range (rnd (val + y)) with e | u
  · rw [evaluate_expression_loop, if_pos (Or.inl (peek_cons _ _))]
    simp only [peek_cons, List.tail_cons, hT, if_true, hvr, (validate_range_error hvr).1]
  · exact absurd (validate_range_ok_iff.mp hvr) hv

/-- An intermediate value above the range ceiling is fatal even when the final
value is within it: `2000000000+1-1` fails with `OutOfRange`. -/
theorem main_intermediate_out_of_range {rnd : ℚ → ℚ} (hrnd : IsDoubleRounding rnd) :
    main rnd [] "2000000000+1-1".toList = .error .OutOfRange := by
  have hE := ((Tree.num 2 [0, 0, 0, 0, 0, 0, 0, 0, 0]).parses hrnd trivial 2000000000
    (by decide)).2.2
  have hT := ((Tree.num 1 []).parses hrnd trivial 1 (by decide)).2.1 (by decide)
  obtain ⟨n1, h1⟩ := hT "-1".toList (.ok (((1 : ℤ) : ℚ), "-1".toList)) (by decide)
    (settled_ok _) ⟨1, evaluate_term_loop_stop rnd false 0 _ _ (by decide)⟩
  have hsum : rnd (((2000000000 : ℤ) : ℚ) + ((1 : ℤ) : ℚ)) = ((2000000001 : ℤ) : ℚ) := by
    have := rnd_int hrnd 2000000001 (by norm_num [INT_LIMIT])
    rw [← this]
    norm_num
  have hloop : evaluate_expression_loop rnd false (n1 + 1) ((2000000000 : ℤ) : ℚ)
      ('+' :: "1-1".toList) = .error .OutOfRange := by
    refine evaluate_expression_loop_add_out_of_range (y := ((1 : ℤ) : ℚ)) (t := "-1".toList)
      ?_ ?_
    · exact h1
    · rw [hsum, inRange_int]
      norm_num [INT_LIMIT]
  obtain ⟨n2, h2⟩ := hE "+1-1".toList (.error .OutOfRange) (by decide) (by decide)
    (settled_error (by decide)) ⟨n1 + 1, hloop⟩
  have heval := evaluate_expression_at_fuel_for h2 (settled_error (by decide))
  have hmain := @main_after_gates rnd [] "2000000000+1-1".toList false rfl (by decide) rfl
    (by decide)
  rw [hmain]
  have hs : sanitize_input "2000000000+1-1".toList =
      (Tree.num 2 [0, 0, 0, 0, 0, 0, 0, 0, 0]).text ++ "+1-1".toList := by decide
  rw [hs, heval]

theorem Tree.self_mem_subtrees (e : Tree) : e ∈ e.subtrees := by
  cases e <;> simp [Tree.subtrees]

/-- When the exact value of every subtree is an integer within the range
ceiling, the reference semantics is defined and agrees with exact
arithmetic. -/
theorem Tree.value_of_exact (e : Tree)
    (h : ∀ t ∈ e.subtrees, ∃ z : ℤ, t.exact = some (z : ℚ) ∧ |z| ≤ INT_LIMIT) :
    ∃ z : ℤ, e.value = some z ∧ e.exact = some (z : ℚ) := by
  induction e with
  | num d ds =>
    obtain ⟨z, hz, hzl⟩ := h _ (Tree.self_mem_subtrees _)
    simp only [Tree.exact, Option.some.injEq] at hz
    have hzz : ((digits_value 0 (d :: ds) : ℕ) : ℤ) = z := by exact_mod_cast hz
    refine ⟨_, within_limit_eq_some.mpr ⟨by rw [hzz]; exact hzl, rfl⟩, ?_⟩
    simp [Tree.exact]
  | pos e ih =>
    exact ih (fun t ht => h t (by simp [Tree.subtrees, ht]))
  | neg e ih =>
    obtain ⟨a, ha, hea⟩ := ih (fun t ht => h t (by simp [Tree.subtrees, ht]))
    exact ⟨-a, by simp [Tree.value, ha], by simp [Tree.exact, hea]⟩
  | paren e ih =>
    exact ih (fun t ht => h t (by simp [Tree.subtrees, ht]))
  | mul l r ihl ihr =>
    obtain ⟨a, ha, hea⟩ := ihl (fun t ht => h t (by simp [Tree.subtrees, ht]))
    obtain ⟨b, hb, heb⟩ := ihr (fun t ht => h t (by simp [Tree.subtrees, ht]))
    obtain ⟨z, hz, hzl⟩ := h _ (Tree.self_mem_subtrees _)
    simp only [Tree.exact, hea, heb, Option.some_bind, Option.map_some',
      Option.some.injEq] at hz
    have hzz : a * b = z := by exact_mod_cast hz
    exact ⟨a * b, Tree.value_mul ha hb (by rw [hzz]; exact hzl),
      by simp [Tree.exact, hea, heb]⟩
  | div l r ihl ihr =>
    obtain ⟨a, ha, hea⟩ := ihl (fun t ht => h t (by simp [Tree.subtrees, ht]))
    obtain ⟨b, hb, heb⟩ := ihr (fun t ht => h t (by simp [Tree.subtrees, ht]))
    obtain ⟨z, hz, -⟩ := h _ (Tree.self_mem_subtrees _)
    simp only [Tree.exact, hea, heb, Option.some_bind] at hz
    by_cases hb0 : b = 0
    · simp [hb0] at hz
    · have hbq : ¬ ((b : ℚ) = 0) := by exact_mod_cast hb0
      simp only [if_neg hbq, Option.some.injEq] at hz
      refine ⟨z, ?_, ?_⟩
      · simp only [Tree.value, ha, hb, Option.some_bind, if_neg hb0, hz, Int.floor_intCast]
      · simp only [Tree.exact, hea, heb, Option.some_bind, if_neg hbq, hz]
  | add l r ihl ihr =>
    obtain ⟨a, ha, hea⟩ := ihl (fun t ht => h t (by simp [Tree.subtrees, ht]))
    obtain ⟨b, hb, heb⟩ := ihr (fun t ht => h t (by simp [Tree.subtrees, ht]))
    obtain ⟨z, hz, hzl⟩ := h _ (Tree.self_mem_subtrees _)
    simp only [Tree.exact, hea, heb, Option.some_bind, Option.map_some',
      Option.some.injEq] at hz
    have hzz : a + b = z := by exact_mod_cast hz
    exact ⟨a + b, Tree.value_add ha hb (by rw [hzz]; exact hzl),
      by simp [Tree.exact, hea, heb]⟩
  | sub l r ihl ihr =>
    obtain ⟨a, ha, hea⟩ := ihl (fun t ht => h t (by simp [Tree.subtrees, ht]))
    obtain ⟨b, hb, heb⟩ := ihr (fun t ht => h t (by simp [Tree.subtrees, ht]))
    obtain ⟨z, hz, hzl⟩ := h _ (Tree.self_mem_subtrees _)
    simp only [Tree.exact, hea, heb, Option.some_bind, Option.map_some',
      Option.some.injEq] at hz
    have hzz : a - b = z := by exact_mod_cast hz
    exact ⟨a - b, Tree.value_sub ha hb (by rw [hzz]; exact hzl),
      by simp [Tree.exact, hea, heb]⟩

theorem Tree.value_div {l r : Tree} {a b : ℤ} (hl : l.value = some a) (hr : r.value = some b)
    (h : b ≠ 0) : (Tree.div l r).value = some ⌊(a : ℚ) / (b : ℚ)⌋ := by
  simp only [Tree.value, hl, hr, Option.some_bind, if_neg h]

theorem Tree.exact_num (d : Fin 10) (ds : List (Fin 10)) (n : ℕ)
    (h : digits_value 0 (d :: ds) = n) : (Tree.num d ds).exact = some ((n : ℤ) : ℚ) := by
  simp [Tree.exact, h]

theorem Tree.exact_add {l r : Tree} {a b : ℤ} (hl : l.exact = some (a : ℚ))
    (hr : r.exact = some (b : ℚ)) : (Tree.add l r).exact = some ((a + b : ℤ) : ℚ) := by
  simp [Tree.exact, hl, hr]

theorem Tree.exact_sub {l r : Tree} {a b : ℤ} (hl : l.exact = some (a : ℚ))
    (hr : r.exact = some (b : ℚ)) : (Tree.sub l r).exact = some ((a - b : ℤ) : ℚ) := by
  simp [Tree.exact, hl, hr]

theorem Tree.exact_div {l r : Tree} {a b c : ℤ} (hl : l.exact = some (a : ℚ))
    (hr : r.exact = some (b : ℚ)) (hb : b ≠ 0) (hc : a = c * b) :
    (Tree.div l r).exact = some (c : ℚ) := by
  have hbq : ¬ ((b : ℚ) = 0) := by exact_mod_cast hb
  simp only [Tree.exact, hl, hr, Option.some_bind, if_neg hbq, Option.some.injEq]
  rw [hc]
  push_cast
  field_simp

theorem Tree.exact_mul_rat {l r : Tree} {x y : ℚ} (hl : l.exact = some x)
    (hr : r.exact = some y) : (Tree.mul l r).exact = some (x * y) := by
  simp [Tree.exact, hl, hr]

theorem Tree.exact_div_rat {l r : Tree} {x y : ℚ} (hl : l.exact = some x)
    (hr : r.exact = some y) (hy : y ≠ 0) : (Tree.div l r).exact = some (x / y) := by
  simp [Tree.exact, hl, hr, hy]

/-- C1, as amended. For every input of at most 1023 bytes whose sanitized form
is a sentence of the grammar in which every literal and every intermediate
value (the exact value of every subexpression) is an integer of absolute value
at most `2 * 10^9` (so no divisor is zero and every division is exact), the
integer-mode run succeeds and prints exactly the true mathematical value. -/
theorem C1_exact_value_printed {rnd : ℚ → ℚ} (hrnd : IsDoubleRounding rnd) (e : Tree)
    (hwf : e.WellFormed)
    (hsub : ∀ t ∈ e.subtrees, ∃ z : ℤ, t.exact = some (z : ℚ) ∧ |z| ≤ INT_LIMIT)
    (stdin : List Char) (hlen : stdin.length ≤ 1023) (hs : sanitize_input stdin = e.text) :
    ∃ z : ℤ, e.exact = some (z : ℚ) ∧ main rnd [] stdin = .ok (.integer z) := by
  obtain ⟨z, hz, hez⟩ := e.value_of_exact hsub
  exact ⟨z, hez, main_of_tree hrnd e hwf z hz stdin hlen hs⟩

/-- C1 as amended, with binary64 rounding on the input ` 12 / 4 - 1` followed by a
newline: the run prints `2`, the exact value. -/
theorem C1_exact_value_printed_witness :
    ∃ z : ℤ, (Tree.sub (.div (.num 1 [2]) (.num 4 [])) (.num 1 [])).exact = some (z : ℚ) ∧
      main binary64 [] " 12 / 4 - 1\n".toList = .ok (.integer z) :=
  C1_exact_value_printed isDoubleRounding_binary64
    (.sub (.div (.num 1 [2]) (.num 4 [])) (.num 1 []))
    (by simp [Tree.WellFormed, Tree.level])
    (by
      have h12 := Tree.exact_num 1 [2] 12 (by decide)
      have h4 := Tree.exact_num 4 [] 4 (by decide)
      have h1 := Tree.exact_num 1 [] 1 (by decide)
      have hd := Tree.exact_div (c := 3) h12 h4 (by decide) (by decide)
      have hs := Tree.exact_sub hd h1
      intro t ht
      simp only [Tree.subtrees, List.mem_cons, List.cons_append, List.nil_append,
        List.mem_singleton, List.not_mem_nil, or_false] at ht
      rcases ht with rfl | rfl | rfl | rfl | rfl
      · exact ⟨_, hs, by decide⟩
      · exact ⟨_, hd, by decide⟩
      · exact ⟨_, h12, by decide⟩
      · exact ⟨_, h4, by decide⟩
      · exact ⟨_, h1, by decide⟩)
    " 12 / 4 - 1\n".toList (by decide) (by decide)

/-- C1 as stated fails. The sentence `7/2*2` has the exact value 7, an integer
within the range ceiling, and the run prints 6 (integer division floors); the
sentence `2000000000+1-1` has the exact value 2000000000 and the run fails with
`OutOfRange` (the intermediate value 2000000001 is above the ceiling). -/
theorem C1_counterexample :
    ((Tree.mul (.div (.num 7 []) (.num 2 [])) (.num 2 [])).WellFormed ∧
      sanitize_input "7/2*2".toList =
        (Tree.mul (.div (.num 7 []) (.num 2 [])) (.num 2 [])).text ∧
      (Tree.mul (.div (.num 7 []) (.num 2 [])) (.num 2 [])).exact = some (((7 : ℤ) : ℚ)) ∧
      main binary64 [] "7/2*2".toList = .ok (.integer 6)) ∧
    ((Tree.sub (.add (.num 2 [0, 0, 0, 0, 0, 0, 0, 0, 0]) (.num 1 [])) (.num 1 [])).WellFormed ∧
      sanitize_input "2000000000+1-1".toList =
        (Tree.sub (.add (.num 2 [0, 0, 0, 0, 0, 0, 0, 0, 0]) (.num 1 [])) (.num 1 [])).text ∧
      (Tree.sub (.add (.num 2 [0, 0, 0, 0, 0, 0, 0, 0, 0]) (.num 1 [])) (.num 1 [])).exact =
        some (((2000000000 : ℤ) : ℚ)) ∧
      main binary64 [] "2000000000+1-1".toList = .error .OutOfRange) := by
  have h7 := Tree.exact_num 7 [] 7 (by decide)
  have h2 := Tree.exact_num 2 [] 2 (by decide)
  have hx : (Tree.mul (.div (.num 7 []) (.num 2 [])) (.num 2 [])).exact =
      some (((7 : ℤ) : ℚ)) := by
    rw [Tree.exact_mul_rat (Tree.exact_div_rat h7 h2 (by norm_num)) h2]
    norm_num
  have hbig := Tree.exact_num 2 [0, 0, 0, 0, 0, 0, 0, 0, 0] 2000000000 (by decide)
  have h1 := Tree.exact_num 1 [] 1 (by decide)
  have h3 : ⌊((7 : ℤ) : ℚ) / ((2 : ℤ) : ℚ)⌋ = 3 := by
    rw [Int.floor_eq_iff]
    norm_num
  have hd : (Tree.div (.num 7 []) (.num 2 [])).value = some 3 := by
    rw [← h3]
    exact Tree.value_div (by decide) (by decide) (by decide)
  refine ⟨⟨by simp [Tree.WellFormed, Tree.level], by decide, hx, ?_⟩,
    ⟨by simp [Tree.WellFormed, Tree.level], by decide,
      Tree.exact_sub (Tree.exact_add hbig h1) h1,
      main_intermediate_out_of_range isDoubleRounding_binary64⟩⟩
  exact main_of_tree isDoubleRounding_binary64
    (.mul (.div (.num 7 []) (.num 2 [])) (.num 2 [])) (by simp [Tree.WellFormed, Tree.level])
    6 (Tree.value_mul hd (by decide : (Tree.num 2 []).value = some 2) (by decide)) _
    (by decide) (by decide)

/-! ## Invalid characters (C10) -/

theorem parse_args_float (use_floats : Bool) (args : List String)
    (h : ∀ a ∈ args, a = "--float") : ∃ uf, parse_args use_floats args = .ok uf := by
  induction args generalizing use_floats with
  | nil => exact ⟨use_floats, rfl⟩
  | cons a rest ih =>
    have ha : a = "--float" := h a (List.mem_cons_self _ _)
    simp only [parse_args, if_pos ha]
    exact ih true (fun x hx => h x (List.mem_cons_of_mem _ hx))

/-- The character check fails on a string with an invalid byte ahead of any
terminator. -/
theorem check_valid_chars_invalid (pre post : List Char) (c : Char)
    (hpre : ∀ x ∈ pre, x ≠ '\x00') (hc0 : c ≠ '\x00') (hc : is_valid_character c = false) :
    check_valid_chars (pre ++ c :: post) = .error .InvalidCharacter := by
  induction pre with
  | nil =>
    simp only [List.nil_append, check_valid_chars, if_neg hc0, hc, Bool.false_eq_true,
      not_false_eq_true, if_true]
  | cons a pre ih =>
    have ha : a ≠ '\x00' := hpre a (List.mem_cons_self _ _)
    by_cases hv : is_valid_character a = true
    · simp only [List.cons_append, check_valid_chars, if_neg ha, hv, not_true_eq_false,
        if_false]
      exact ih (fun x hx => hpre x (List.mem_cons_of_mem _ hx))
    · rw [Bool.not_eq_true] at hv
      simp only [List.cons_append, check_valid_chars, if_neg ha, hv, Bool.false_eq_true,
        not_false_eq_true, if_true]

/-- Ahead of any NUL byte the character check does what the specification
says: an input of at most 1023 bytes, run with no argument other than
`--float`, that contains ahead of any NUL byte a character that is not a digit,
whitespace or one of `( ) + - * /` fails with `InvalidCharacter`, raised by the
character check before the buffer is sanitized or parsed, in either mode and
for every rounding. -/
theorem invalid_character_rejected (rnd : ℚ → ℚ) (args : List String) (pre post : List Char)
    (c : Char) (hargs : ∀ a ∈ args, a = "--float") (hlen : (pre ++ c :: post).length ≤ 1023)
    (hpre : ∀ x ∈ pre, x ≠ '\x00') (hc0 : c ≠ '\x00') (hc : is_valid_character c = false) :
    check_valid_chars (pre ++ c :: post) = .error .InvalidCharacter ∧
    main rnd args (pre ++ c :: post) = .error .InvalidCharacter := by
  have hcheck := check_valid_chars_invalid pre post c hpre hc0 hc
  obtain ⟨uf, huf⟩ := parse_args_float false args hargs
  have hread : read_input (pre ++ c :: post) = .ok (pre ++ c :: post) :=
    read_input_ok_iff.mpr ⟨hlen, rfl⟩
  refine ⟨hcheck, ?_⟩
  simp only [main, huf, hread, hcheck]

/-- The input `2$3` in float mode. -/
theorem invalid_character_rejected_example :
    check_valid_chars "2$3".toList = .error .InvalidCharacter ∧
    main binary64 ["--float"] "2$3".toList = .error .InvalidCharacter :=
  invalid_character_rejected binary64 ["--float"] ['2'] ['3'] '$' (by simp) (by decide)
    (by decide) (by decide) (by decide)

/-- The size check and the argument check come before the character check: an
input of 1024 bytes that starts with `$` fails with `InputTooLarge`, and the
input `$` run with an unknown argument fails with `UnknownArgument`. -/
theorem gates_precede_character_check :
    is_valid_character '$' = false ∧
    main binary64 [] ('$' :: List.replicate 1023 '1') = .error .InputTooLarge ∧
    main binary64 ["--verbose"] ['$'] = .error .UnknownArgument := by
  refine ⟨by decide, ?_, ?_⟩
  · have hread : read_input ('$' :: List.replicate 1023 '1') = .error .InputTooLarge := by
      have hl : ('$' :: List.replicate 1023 '1').length = 1024 := by
        rw [List.length_cons, List.length_replicate]
      unfold read_input MAX_BUFFER
      rw [hl, if_pos (by decide)]
    simp only [main, parse_args, hread]
  · have hargs : parse_args false ["--verbose"] = .error .UnknownArgument := by
      simp [parse_args]
    simp only [main, hargs]

/-- A NUL byte ends the input for every later stage: the bytes `1`, NUL, `$` pass
the character check and the run prints `1`. -/
theorem main_stops_at_nul {rnd : ℚ → ℚ} (hrnd : IsDoubleRounding rnd) :
    main rnd [] ['1', '\x00', '$'] = .ok (.integer 1) :=
  main_of_tree hrnd (.num 1 []) trivial 1 (by decide) _ (by decide) (by decide)

/-- C10. The code does not do what the claim says on an input with a NUL byte:
on the bytes `1`, NUL, `$` the character check, which walks a NUL-terminated
string, passes although `$` and NUL are not valid characters, and the run
prints 1 instead of failing with `InvalidCharacter`. -/
theorem C10_nul_ends_character_check :
    is_valid_character '$' = false ∧ is_valid_character '\x00' = false ∧
    check_valid_chars ['1', '\x00', '$'] = .ok () ∧
    sanitize_input ['1', '\x00', '$'] = ['1'] ∧
    main binary64 [] ['1', '\x00', '$'] = .ok (.integer 1) :=
  ⟨by decide, by decide, rfl, by decide, main_stops_at_nul isDoubleRounding_binary64⟩

/-! ## Empty and whitespace-only input (C11) -/

theorem sanitize_input_whitespace (s : List Char) (h : ∀ c ∈ s, isspace c = true) :
    sanitize_input s = [] := by
  induction s with
  | nil => rfl
  | cons a s ih =>
    have ha : isspace a = true := h a (List.mem_cons_self _ _)
    by_cases h0 : a = '\x00'
    · simp only [sanitize_input, if_pos h0]
    · simp only [sanitize_input, if_neg h0, ha, if_true]
      exact ih (fun x hx => h x (List.mem_cons_of_mem _ hx))

theorem is_valid_character_of_isspace {c : Char} (h : isspace c = true) :
    is_valid_character c = true := by
  simp only [is_valid_character, h, Bool.or_true]

theorem check_valid_chars_valid (s : List Char) (h : ∀ c ∈ s, is_valid_character c = true) :
    check_valid_chars s = .ok () := by
  induction s with
  | nil => rfl
  | cons a s ih =>
    have ha : is_valid_character a = true := h a (List.mem_cons_self _ _)
    by_cases h0 : a = '\x00'
    · simp only [check_valid_chars, if_pos h0]
    · simp only [check_valid_chars, if_neg h0, ha, not_true_eq_false, if_false]
      exact ih (fun x hx => h x (List.mem_cons_of_mem _ hx))

/-- C11, as amended. An input of at most 1023 bytes that is empty or consists
only of whitespace, run with no argument other than `--float`, passes the
character check, sanitizes to the empty buffer and fails with `EmptyInput`,
in either mode and for every rounding: `main` reports it at the emptiness test
that stands before the call of `evaluate_expression`. -/
theorem C11_empty_input (rnd : ℚ → ℚ) (args : List String) (stdin : List Char)
    (hargs : ∀ a ∈ args, a = "--float") (hlen : stdin.length ≤ 1023)
    (hws : ∀ c ∈ stdin, isspace c = true) :
    check_valid_chars stdin = .ok () ∧ sanitize_input stdin = [] ∧
    main rnd args stdin = .error .EmptyInput := by
  have hcheck : check_valid_chars stdin = .ok () :=
    check_valid_chars_valid stdin (fun c hc => is_valid_character_of_isspace (hws c hc))
  have hsan := sanitize_input_whitespace stdin hws
  obtain ⟨uf, huf⟩ := parse_args_float false args hargs
  have hread : read_input stdin = .ok stdin := read_input_ok_iff.mpr ⟨hlen, rfl⟩
  refine ⟨hcheck, hsan, ?_⟩
  simp only [main, huf, hread, hcheck, hsan, peek_nil, if_true]

/-- C11 as amended, on the input of a space, a tab and a newline, and on the
empty input in float mode. -/
theorem C11_empty_input_witness :
    (check_valid_chars [' ', '\t', '\n'] = .ok () ∧ sanitize_input [' ', '\t', '\n'] = [] ∧
      main binary64 [] [' ', '\t', '\n'] = .error .EmptyInput) ∧
    (check_valid_chars [] = .ok () ∧ sanitize_input [] = [] ∧
      main binary64 ["--float"] [] = .error .EmptyInput) :=
  ⟨C11_empty_input binary64 [] [' ', '\t', '\n'] (by simp) (by decide) (by decide),
    C11_empty_input binary64 ["--float"] [] (by simp) (by decide) (by simp)⟩

/-- C11 as stated fails. An input of 1024 spaces fails with `InputTooLarge`, and
a single space run with an unknown argument fails with `UnknownArgument`: the
size check and the argument check come first. -/
theorem C11_counterexample :
    (∀ c ∈ List.replicate 1024 ' ', isspace c = true) ∧
    main binary64 [] (List.replicate 1024 ' ') = .error .InputTooLarge ∧
    main binary64 ["--verbose"] [' '] = .error .UnknownArgument := by
  refine ⟨?_, ?_, ?_⟩
  · intro c hc
    rw [List.eq_of_mem_replicate hc]
    decide
  · have hread : read_input (List.replicate 1024 ' ') = .error .InputTooLarge := by
      unfold read_input MAX_BUFFER
      rw [List.length_replicate, if_pos (by decide)]
    simp only [main, parse_args, hread]
  · have hargs : parse_args false ["--verbose"] = .error .UnknownArgument := by
      simp [parse_args]
    simp only [main, hargs]

/-! ## The number reader (C12) -/

theorem rnd_nat_wide {rnd : ℚ → ℚ} (hr : IsDoubleRounding rnd) (n : ℕ)
    (hn : n ≤ 20000000009) : rnd (n : ℚ) = (n : ℚ) := by
  have := hr.exact_int (n : ℤ) (by
    rw [abs_of_nonneg (by positivity)]
    have : (n : ℤ) ≤ 20000000009 := by exact_mod_cast hn
    exact this.trans (by norm_num))
  simpa using this

/-- The digit loop fails as soon as the running value exceeds the range
ceiling, whatever follows the digits read so far. -/
theorem extract_number_loop_overflow {rnd : ℚ → ℚ} (hr : IsDoubleRounding rnd) (acc : ℕ)
    (hacc : acc ≤ 2000000000) (ds : List (Fin 10)) (rest : List Char)
    (hv : 2000000000 < digits_value acc ds) :
    extract_number_loop rnd (acc : ℚ) (digits_text ds ++ rest) = .error .NumberOutOfRange := by
  induction ds generalizing acc with
  | nil =>
    exfalso
    have : digits_value acc [] = acc := rfl
    omega
  | cons d ds ih =>
    rw [digits_value_cons] at hv
    have hd : d.val < 10 := d.isLt
    have h10 : rnd ((acc : ℚ) * 10) = (acc : ℚ) * 10 := by
      have := rnd_nat_wide hr (acc * 10) (by omega)
      push_cast at this
      exact this
    have h11 : rnd ((acc : ℚ) * 10 + (d.val : ℚ)) = ((acc * 10 + d.val : ℕ) : ℚ) := by
      have := rnd_nat_wide hr (acc * 10 + d.val) (by omega)
      push_cast at this ⊢
      exact this
    by_cases hbig : 2000000000 < acc * 10 + d.val
    · have hgt : ((acc * 10 + d.val : ℕ) : ℚ) > VALUE_LIMIT := by
        unfold VALUE_LIMIT
        exact_mod_cast hbig
      simp only [digits_text, List.map_cons, List.cons_append, extract_number_loop,
        isdigit_digit_char, if_true, digit_char_toNat, h10, h11, if_pos hgt]
    · have hle : ¬ (((acc * 10 + d.val : ℕ) : ℚ) > VALUE_LIMIT) := by
        rw [not_lt]
        unfold VALUE_LIMIT
        have : acc * 10 + d.val ≤ 2000000000 := by omega
        exact_mod_cast this
      simp only [digits_text, List.map_cons, List.cons_append, extract_number_loop,
        isdigit_digit_char, if_true, digit_char_toNat, h10, h11, if_neg hle]
      exact ih _ (by omega) hv

theorem extract_number_overflow {rnd : ℚ → ℚ} (hr : IsDoubleRounding rnd)
    (d : Fin 10) (ds : List (Fin 10)) (rest : List Char)
    (hv : 2000000000 < digits_value 0 (d :: ds)) :
    extract_number rnd (digits_text (d :: ds) ++ rest) = .error .NumberOutOfRange := by
  have h1 : trim_spaces (digits_text (d :: ds) ++ rest) = digits_text (d :: ds) ++ rest :=
    trim_spaces_of_not_isspace _ (isspace_digit_char d)
  have h2 : isdigit (peek (digits_text (d :: ds) ++ rest)) = true := isdigit_digit_char d
  have := extract_number_loop_overflow hr 0 (by norm_num) (d :: ds) rest hv
  simp only [Nat.cast_zero] at this
  simp only [extract_number, h1, h2, not_true_eq_false, if_false, this]

theorem extract_number_expected (rnd : ℚ → ℚ) (s : List Char)
    (h : isdigit (peek (trim_spaces s)) = false) :
    extract_number rnd s = .error .ExpectedNumber := by
  simp only [extract_number, h, Bool.false_eq_true, not_false_eq_true, if_true]

theorem digits_text_length (ds : List (Fin 10)) : (digits_text ds).length = ds.length := by
  simp [digits_text]

/-- C12. With the cursor at a maximal run of decimal digits (the literal `a`,
followed by `rest` that does not start with a digit) that denotes `n`:
`extract_number` returns `n` and the cursor just after the run when
`n <= 2000000000`, and fails with `NumberOutOfRange` when `n > 2000000000`; it
fails already on a prefix of the run whose value exceeds the ceiling, whatever
follows that prefix; and when the byte at the cursor (after the whitespace
skip) is not a digit it fails with `ExpectedNumber`. -/
theorem C12_number_reader {rnd : ℚ → ℚ} (hrnd : IsDoubleRounding rnd) :
    (∀ (a : Literal) (rest : List Char), isdigit (peek rest) = false →
      (a.value ≤ 2000000000 →
        extract_number rnd (a.text ++ rest) = .ok ((a.value : ℚ), rest) ∧
        (a.text ++ rest).length = (1 + a.more.length) + rest.length) ∧
      (2000000000 < a.value →
        extract_number rnd (a.text ++ rest) = .error .NumberOutOfRange)) ∧
    (∀ (a : Literal) (follow : List Char), 2000000000 < a.value →
      extract_number rnd (a.text ++ follow) = .error .NumberOutOfRange) ∧
    (∀ s : List Char, isdigit (peek (trim_spaces s)) = false →
      extract_number rnd s = .error .ExpectedNumber) ∧
    (∀ (c : Char) (s : List Char), isdigit c = false → isspace c = false →
      extract_number rnd (c :: s) = .error .ExpectedNumber) := by
  refine ⟨fun a rest hrest => ⟨fun hv => ⟨extract_number_digits hrnd a.first a.more rest hrest hv,
      ?_⟩, fun hv => extract_number_overflow hrnd a.first a.more rest hv⟩,
    fun a follow hv => extract_number_overflow hrnd a.first a.more follow hv,
    fun s h => extract_number_expected rnd s h, fun c s hc hs => ?_⟩
  · rw [List.length_append, Literal.text, digits_text_length, List.length_cons]
    omega
  · apply extract_number_expected
    rw [trim_spaces_of_not_isspace s hs, peek_cons]
    exact hc

/-- C12 with binary64 rounding: `2000000000` is read, `2000000001` is rejected,
`20000000010` is rejected on its prefix `2000000001`, and `x` is not a
number. -/
theorem C12_number_reader_witness :
    extract_number binary64 "2000000000".toList = .ok (2000000000, []) ∧
    extract_number binary64 "2000000001".toList = .error .NumberOutOfRange ∧
    extract_number binary64 "20000000010".toList = .error .NumberOutOfRange ∧
    extract_number binary64 "x".toList = .error .ExpectedNumber := by
  have h := C12_number_reader isDoubleRounding_binary64
  refine ⟨?_, ?_, ?_, ?_⟩
  · have := (h.1 ⟨2, [0, 0, 0, 0, 0, 0, 0, 0, 0]⟩ [] rfl).1 (by decide)
    have hv : ((Literal.value ⟨2, [0, 0, 0, 0, 0, 0, 0, 0, 0]⟩ : ℕ) : ℚ) = 2000000000 := by
      norm_num [Literal.value, digits_value]
    rw [hv] at this
    exact this.1
  · exact (h.1 ⟨2, [0, 0, 0, 0, 0, 0, 0, 0, 1]⟩ [] rfl).2 (by decide)
  · exact h.2.1 ⟨2, [0, 0, 0, 0, 0, 0, 0, 0, 1]⟩ ['0'] (by decide)
  · exact h.2.2.1 ['x'] (by decide)

/-! ## The closing parenthesis (C13) -/

theorem evaluate_term_of_factor_error {rnd : ℚ → ℚ} {uf : Bool} {n : ℕ} {e : ParseError}
    {s : List Char} (hF : evaluate_factor rnd uf n s = .error e) :
    evaluate_term rnd uf (n + 1) s = .error e := by
  rw [evaluate_term]
  simp only [hF]

theorem evaluate_expression_of_term_error {rnd : ℚ → ℚ} {uf : Bool} {n : ℕ} {e : ParseError}
    {s : List Char} (hT : evaluate_term rnd uf n s = .error e) :
    evaluate_expression rnd uf (n + 1) s = .error e := by
  rw [evaluate_expression]
  simp only [hT]

/-- `evaluate_factor` at an opening parenthesis, after the inner expression has
been read. -/
theorem evaluate_factor_open {rnd : ℚ → ℚ} {uf : Bool} {n : ℕ} {val : ℚ}
    {inner s2 : List Char} (hE : evaluate_expression rnd uf n inner = .ok (val, s2)) :
    evaluate_factor rnd uf (n + 1) ('(' :: inner) =
      if peek (trim_spaces s2) = ')' then .ok (val, (trim_spaces s2).tail)
      else .error .MissingCloseParen := by
  have h1 : trim_spaces ('(' :: inner) = '(' :: inner :=
    trim_spaces_of_not_isspace inner (by decide)
  have h2 : sign_loop ('(' :: inner).length false ('(' :: inner) = (false, '(' :: inner) :=
    sign_loop_of_not_sign _ _ _ (by rw [peek_cons]; decide)
  have hv : InRange val := (evaluate_range rnd uf n).2.2.2.2 _ _ _ hE
  rw [evaluate_factor_of_signs, h1]
  simp only [h2, peek_cons, List.tail_cons, if_true, hE]
  by_cases hc : peek (trim_spaces s2) = ')'
  · simp only [if_pos hc, finish_factor, Bool.false_eq_true, if_false,
      validate_range_of_inRange hv]
  · simp only [if_neg hc]

/-- C13. When `evaluate_factor` has skipped a run of signs and whitespace and
consumed `(`, and the inner `evaluate_expression` returns the value `val` and
the cursor `s2`: if the next byte after whitespace is not `)` the factor fails
with `MissingCloseParen`; if it is `)`, the factor returns the value (negated
for an odd number of `-`) with the cursor just after that `)`, one byte
further.  The input `(2+3` fails with `MissingCloseParen`. -/
theorem C13_missing_close_paren {rnd : ℚ → ℚ} (hrnd : IsDoubleRounding rnd) (uf : Bool)
    (n : ℕ) (signs : List Char) (hs : IsSignRun signs) (inner : List Char) (val : ℚ)
    (s2 : List Char) (hE : evaluate_expression rnd uf n inner = .ok (val, s2)) :
    (peek (trim_spaces s2) ≠ ')' →
      evaluate_factor rnd uf (n + 1) (signs ++ '(' :: inner) = .error .MissingCloseParen) ∧
    (peek (trim_spaces s2) = ')' →
      evaluate_factor rnd uf (n + 1) (signs ++ '(' :: inner) =
        .ok (if signs.count '-' % 2 = 0 then val else -val, (trim_spaces s2).tail) ∧
      (trim_spaces s2).tail.length + 1 = (trim_spaces s2).length) ∧
    main rnd [] "(2+3".toList = .error .MissingCloseParen := by
  have hopen := evaluate_factor_open hE
  refine ⟨fun hc => ?_, fun hc => ⟨?_, length_tail_of_peek hc (by decide)⟩, ?_⟩
  · rw [evaluate_factor_sign_run rnd uf n signs hs, hopen, if_neg hc]
    by_cases hm : signs.count '-' % 2 = 0
    · rw [if_pos hm]
    · rw [if_neg hm]
      rfl
  · rw [evaluate_factor_sign_run rnd uf n signs hs, hopen, if_pos hc]
    by_cases hm : signs.count '-' % 2 = 0
    · rw [if_pos hm, if_pos hm]
    · rw [if_neg hm, if_neg hm]
      rfl
  · have hin : evaluate_expression rnd false 12 "2+3".toList = .ok (((5 : ℤ) : ℚ), []) :=
      evaluate_expression_tree hrnd (.add (.num 2 []) (.num 3 []))
        (by simp [Tree.WellFormed, Tree.level]) 5 (by decide)
        [] (by decide) (by decide) (by decide) 12 (by decide)
    have hF : evaluate_factor rnd false 13 "(2+3".toList = .error .MissingCloseParen := by
      have := evaluate_factor_open hin
      rw [if_neg (by decide)] at this
      exact this
    have hX := evaluate_expression_of_term_error (evaluate_term_of_factor_error hF)
    have hfuel := evaluate_expression_at_fuel_for hX (settled_error (by decide))
    have hsan : sanitize_input "(2+3".toList = "(2+3".toList := by decide
    rw [@main_after_gates rnd [] "(2+3".toList false rfl (by decide) rfl
      (by rw [hsan]; decide)]
    rw [hsan, hfuel]

/-- C13 with binary64 rounding in integer mode: in `(2+3)` the factor consumes
the `)`, in `-(2+3` it fails with `MissingCloseParen`, and so does the run on
`(2+3`. -/
theorem C13_missing_close_paren_witness :
    evaluate_factor binary64 false 16 "(2+3)".toList = .ok (5, []) ∧
    evaluate_factor binary64 false 16 "-(2+3".toList = .error .MissingCloseParen ∧
    main binary64 [] "(2+3".toList = .error .MissingCloseParen := by
  have hin : ∀ rest : List Char, isdigit (peek rest) = false →
      ¬ (peek (trim_spaces rest) = '*' ∨ peek (trim_spaces rest) = '/') →
      ¬ (peek (trim_spaces rest) = '+' ∨ peek (trim_spaces rest) = '-') →
      rest.length ≤ 1 →
      evaluate_expression binary64 false 15 ("2+3".toList ++ rest) =
        .ok (5, trim_spaces rest) := by
    intro rest h1 h2 h3 h4
    have := evaluate_expression_tree isDoubleRounding_binary64 (.add (.num 2 []) (.num 3 []))
      (by simp [Tree.WellFormed, Tree.level]) 5 (by decide) rest h1 h2 h3 15 (by
        rw [List.length_append]
        have : (Tree.text (.add (.num 2 []) (.num 3 []))).length = 3 := by decide
        omega)
    simpa using this
  refine ⟨?_, ?_, ?_⟩
  · have h := (C13_missing_close_paren isDoubleRounding_binary64 false 15 [] (by
      intro c hc; cases hc) "2+3)".toList 5 [')'] (hin [')'] (by decide) (by decide)
      (by decide) (by decide))).2.1 (by decide)
    simpa using h.1
  · have h := (C13_missing_close_paren isDoubleRounding_binary64 false 15 ['-'] (by
      intro c hc
      rw [List.mem_singleton] at hc
      exact Or.inr (Or.inl hc)) "2+3".toList 5 [] (hin [] (by decide) (by decide)
      (by decide) (by decide))).1 (by decide)
    simpa using h
  · exact (C13_missing_close_paren isDoubleRounding_binary64 false 15 [] (by
      intro c hc; cases hc) "2+3".toList 5 [] (hin [] (by decide) (by decide)
      (by decide) (by decide))).2.2

/-! ## Termination and progress of the cursor (C17) -/

/-- A number that is read takes at least one byte. -/
theorem extract_number_progress (rnd : ℚ → ℚ) (s : List Char) {v : ℚ} {s' : List Char}
    (h : extract_number rnd s = .ok (v, s')) : s'.length < s.length := by
  simp only [extract_number] at h
  by_cases hd : isdigit (peek (trim_spaces s)) = true
  · simp only [hd, not_true_eq_false, if_false] at h
    have hle := trim_spaces_length_le s
    rcases hs1 : trim_spaces s with _ | ⟨c, t⟩
    · rw [hs1] at hd
      exact absurd hd (by decide)
    · rw [hs1] at h hd hle
      rw [peek_cons] at hd
      simp only [extract_number_loop, hd, if_true] at h
      by_cases hbig : rnd (rnd (0 * 10) + ((c.toNat - 48 : ℕ) : ℚ)) > VALUE_LIMIT
      · simp only [if_pos hbig, reduceCtorEq] at h
      · simp only [if_neg hbig] at h
        have := (extract_number_loop_suffix rnd _ t h).length_le
        rw [List.length_cons] at hle
        omega
  · simp only [hd, not_false_eq_true, if_true, reduceCtorEq] at h

/-- A factor that is read takes at least one byte. -/
theorem evaluate_factor_progress (rnd : ℚ → ℚ) (uf : Bool) (n : ℕ) (s : List Char) {v : ℚ}
    {s' : List Char} (h : evaluate_factor rnd uf n s = .ok (v, s')) :
    s'.length < s.length := by
  cases n with
  | zero => simp only [evaluate_factor, reduceCtorEq] at h
  | succ n =>
    rw [evaluate_factor_of_signs] at h
    simp only at h
    have hsg := ((sign_loop_suffix (trim_spaces s).length false (trim_spaces s)).trans
      (trim_spaces_suffix s)).length_le
    generalize sign_loop (trim_spaces s).length false (trim_spaces s) = sg at h hsg
    by_cases hp : peek sg.2 = '('
    · simp only [if_pos hp] at h
      rcases hE : evaluate_expression rnd uf n sg.2.tail with e | ⟨val, s2⟩
      · simp only [hE, reduceCtorEq] at h
      · simp only [hE] at h
        by_cases hc : peek (trim_spaces s2) = ')'
        · simp only [if_pos hc] at h
          rw [(finish_factor_ok_iff.mp h).2.2]
          have h1 := length_tail_of_peek hc (by decide)
          have h2 := trim_spaces_length_le s2
          have h3 := ((evaluate_suffix rnd uf n).2.2.2.2 _ _ _ hE).length_le
          have h4 := length_tail_of_peek hp (by decide)
          omega
        · simp only [if_neg hc, reduceCtorEq] at h
    · simp only [if_neg hp] at h
      rcases hN : extract_number rnd sg.2 with e | ⟨val, s2⟩
      · simp only [hN, reduceCtorEq] at h
      · simp only [hN] at h
        rw [(finish_factor_ok_iff.mp h).2.2]
        have := extract_number_progress rnd _ hN
        omega

/-- A term that is read takes at least one byte. -/
theorem evaluate_term_progress (rnd : ℚ → ℚ) (uf : Bool) (n : ℕ) (s : List Char) {v : ℚ}
    {s' : List Char} (h : evaluate_term rnd uf n s = .ok (v, s')) :
    s'.length < s.length := by
  cases n with
  | zero => simp only [evaluate_term, reduceCtorEq] at h
  | succ n =>
    simp only [evaluate_term] at h
    rcases hF : evaluate_factor rnd uf n s with e | ⟨val, s1⟩
    · simp only [hF, reduceCtorEq] at h
    · simp only [hF] at h
      have h1 := evaluate_factor_progress rnd uf n s hF
      have h2 := trim_spaces_length_le s1
      have h3 := ((evaluate_suffix rnd uf n).2.1 _ _ _ _ h).length_le
      omega

/-- C17. For every input string and in either mode, `evaluate_expression`
terminates with a value or an error: a recursion depth of three per byte of
the input (plus three) is never exhausted, and a larger budget gives the same
result.  The cursor never rewinds and never passes the end: the cursor each
evaluator returns is a suffix of the one it was given.  Progress is strict: a
factor and a term that are read take at least one byte, so the next iteration
of either loop starts at a strictly later position, and the recursive call
through `(` starts after the `(`, at a strictly later position than the
factor. -/
theorem C17_total_and_bounded (rnd : ℚ → ℚ) (uf : Bool) (s : List Char) :
    (Settled (evaluate_expression rnd uf (fuel_for s) s) ∧
      ((∃ v s', evaluate_expression rnd uf (fuel_for s) s = .ok (v, s')) ∨
        (∃ e, e ≠ .OutOfFuel ∧ evaluate_expression rnd uf (fuel_for s) s = .error e)) ∧
      ∀ n, 3 * s.length + 3 ≤ n →
        evaluate_expression rnd uf n s = evaluate_expression rnd uf (fuel_for s) s) ∧
    (∀ n v s', evaluate_expression rnd uf n s = .ok (v, s') → s' <:+ s ∧ s'.length < s.length) ∧
    (∀ n v s', evaluate_term rnd uf n s = .ok (v, s') → s' <:+ s ∧ s'.length < s.length) ∧
    (∀ n v s', evaluate_factor rnd uf n s = .ok (v, s') → s' <:+ s ∧ s'.length < s.length) ∧
    (∀ n val v s', evaluate_term_loop rnd uf n val s = .ok (v, s') → s' <:+ s) ∧
    (∀ n val v s', evaluate_expression_loop rnd uf n val s = .ok (v, s') → s' <:+ s) ∧
    (∀ n y s1, (peek s = '*' ∨ peek s = '/') →
      evaluate_factor rnd uf n (trim_spaces s.tail) = .ok (y, s1) →
      (trim_spaces s1).length < s.length) ∧
    (∀ n y s1, (peek s = '+' ∨ peek s = '-') →
      evaluate_term rnd uf n (trim_spaces s.tail) = .ok (y, s1) →
      (trim_spaces s1).length < s.length) ∧
    (peek (sign_loop (trim_spaces s).length false (trim_spaces s)).2 = '(' →
      (sign_loop (trim_spaces s).length false (trim_spaces s)).2.tail.length < s.length) := by
  have hset : Settled (evaluate_expression rnd uf (fuel_for s) s) :=
    (evaluate_settled rnd uf (fuel_for s)).2.2.2.2 s (le_refl _)
  refine ⟨⟨hset, ?_, fun n hn => evaluate_expression_lift rfl hset hn⟩, ?_, ?_, ?_, ?_, ?_, ?_,
    ?_, ?_⟩
  · rcases hr : evaluate_expression rnd uf (fuel_for s) s with e | ⟨v, s'⟩
    · exact Or.inr ⟨e, error_ne_of_settled hset hr, rfl⟩
    · exact Or.inl ⟨v, s', rfl⟩
  · intro n v s' h
    refine ⟨(evaluate_suffix rnd uf n).2.2.2.2 _ _ _ h, ?_⟩
    cases n with
    | zero => simp only [evaluate_expression, reduceCtorEq] at h
    | succ n =>
      simp only [evaluate_expression] at h
      rcases hT : evaluate_term rnd uf n s with e | ⟨val, s1⟩
      · simp only [hT, reduceCtorEq] at h
      · simp only [hT] at h
        have h1 := evaluate_term_progress rnd uf n s hT
        have h2 := trim_spaces_length_le s1
        have h3 := ((evaluate_suffix rnd uf n).2.2.2.1 _ _ _ _ h).length_le
        omega
  · exact fun n v s' h => ⟨(evaluate_suffix rnd uf n).2.2.1 _ _ _ h,
      evaluate_term_progress rnd uf n s h⟩
  · exact fun n v s' h => ⟨(evaluate_suffix rnd uf n).1 _ _ _ h,
      evaluate_factor_progress rnd uf n s h⟩
  · exact fun n val v s' h => (evaluate_suffix rnd uf n).2.1 _ _ _ _ h
  · exact fun n val v s' h => (evaluate_suffix rnd uf n).2.2.2.1 _ _ _ _ h
  · intro n y s1 hop hF
    have h1 := evaluate_factor_progress rnd uf n _ hF
    have h2 := trim_spaces_length_le s1
    have h3 := trim_spaces_length_le s.tail
    have h4 : s.tail.length ≤ s.length := (List.tail_suffix s).length_le
    omega
  · intro n y s1 hop hT
    have h1 := evaluate_term_progress rnd uf n _ hT
    have h2 := trim_spaces_length_le s1
    have h3 := trim_spaces_length_le s.tail
    have h4 : s.tail.length ≤ s.length := (List.tail_suffix s).length_le
    omega
  · intro hp
    have h1 := length_tail_of_peek hp (by decide)
    have h2 := ((sign_loop_suffix (trim_spaces s).length false (trim_spaces s)).trans
      (trim_spaces_suffix s)).length_le
    omega

/-! ## Whitespace (C19) -/

/-- On an input without a NUL byte `sanitize_input` keeps exactly the bytes that
are not whitespace. -/
theorem sanitize_input_eq_filter (s : List Char) (h : ∀ c ∈ s, c ≠ '\x00') :
    sanitize_input s = s.filter (fun c => !isspace c) := by
  induction s with
  | nil => rfl
  | cons a s ih =>
    have h0 : a ≠ '\x00' := h a (List.mem_cons_self _ _)
    have ih1 := ih (fun x hx => h x (List.mem_cons_of_mem _ hx))
    by_cases hsp : isspace a = true
    · simp only [sanitize_input, if_neg h0, hsp, if_true, List.filter_cons, Bool.not_true,
        Bool.false_eq_true, if_false]
      exact ih1
    · rw [Bool.not_eq_true] at hsp
      simp only [sanitize_input, if_neg h0, hsp, Bool.false_eq_true, if_false,
        List.filter_cons, Bool.not_false, if_true, ih1]

theorem ne_nul_of_valid {c : Char} (h : is_valid_character c = true) : c ≠ '\x00' := by
  intro h0
  rw [h0] at h
  exact absurd h (by decide)

/-- C19. Two inputs made only of valid characters, each within the size cap,
whose sequences of non-whitespace characters are equal, sanitize to the same
buffer and give the same outcome, for every argument list (so in each mode)
and every rounding.  With the rounding of the machine, `1 2` prints 12 as `12`
does. -/
theorem C19_whitespace_insignificant (rnd : ℚ → ℚ) (args : List String) (s1 s2 : List Char)
    (hv1 : ∀ c ∈ s1, is_valid_character c = true)
    (hv2 : ∀ c ∈ s2, is_valid_character c = true)
    (hl1 : s1.length ≤ 1023) (hl2 : s2.length ≤ 1023)
    (heq : s1.filter (fun c => !isspace c) = s2.filter (fun c => !isspace c)) :
    sanitize_input s1 = sanitize_input s2 ∧
    main rnd args s1 = main rnd args s2 ∧
    (IsDoubleRounding rnd →
      main rnd [] "1 2".toList = .ok (.integer 12) ∧
      main rnd [] "12".toList = .ok (.integer 12)) := by
  have hsan : sanitize_input s1 = sanitize_input s2 := by
    rw [sanitize_input_eq_filter s1 (fun c hc => ne_nul_of_valid (hv1 c hc)),
      sanitize_input_eq_filter s2 (fun c hc => ne_nul_of_valid (hv2 c hc)), heq]
  have hr1 : read_input s1 = .ok s1 := read_input_ok_iff.mpr ⟨hl1, rfl⟩
  have hr2 : read_input s2 = .ok s2 := read_input_ok_iff.mpr ⟨hl2, rfl⟩
  have hc1 := check_valid_chars_valid s1 hv1
  have hc2 := check_valid_chars_valid s2 hv2
  refine ⟨hsan, ?_, fun hrnd => ⟨?_, ?_⟩⟩
  · simp only [main, hr1, hr2, hc1, hc2, hsan]
  · exact main_of_tree hrnd (.num 1 [2]) trivial 12 (by decide) _ (by decide) (by decide)
  · exact main_of_tree hrnd (.num 1 [2]) trivial 12 (by decide) _ (by decide) (by decide)

/-- C19 with binary64 rounding on the inputs `1 2` and `12`, in integer mode. -/
theorem C19_whitespace_insignificant_witness :
    sanitize_input "1 2".toList = sanitize_input "12".toList ∧
    main binary64 [] "1 2".toList = main binary64 [] "12".toList ∧
    main binary64 [] "1 2".toList = .ok (.integer 12) ∧
    main binary64 [] "12".toList = .ok (.integer 12) :=
  have h := C19_whitespace_insignificant binary64 [] "1 2".toList "12".toList (by decide)
    (by decide) (by decide) (by decide) (by decide)
  ⟨h.1, h.2.1, h.2.2 isDoubleRounding_binary64⟩

/-! ## The whole-number discipline of integer mode (C15, C18) -/

theorem wholeOutcome_error {e : ParseError}
    (h : e ≠ .NonIntegerResult ∧ e ≠ .FinalNotInteger) : WholeOutcome (.error e) :=
  ⟨fun e1 he => (by cases he; exact h), fun v s hv => (by cases hv)⟩

theorem wholeOutcome_ok {v : ℚ} (s : List Char) (h : IsWhole v) : WholeOutcome (.ok (v, s)) :=
  ⟨fun e he => (by cases he), fun v1 s1 hv => (by cases hv; exact h)⟩

theorem isWhole_neg {x : ℚ} (h : IsWhole x) : IsWhole (-x) := by
  obtain ⟨z, rfl⟩ := h
  exact ⟨-z, by push_cast; rfl⟩

theorem wholeOutcome_finish_factor (negative : Bool) {val : ℚ} (s : List Char)
    (h : IsWhole val) : WholeOutcome (finish_factor negative val s) := by
  unfold finish_factor
  have hw : IsWhole (if negative = true then -val else val) := by
    cases negative
    · simpa using h
    · simpa using isWhole_neg h
  generalize (if negative = true then -val else val) = val1 at hw
  simp only
  rcases hv : validate_range val1 with e | u
  · rw [(validate_range_error hv).1]
    exact wholeOutcome_error (by decide)
  · exact wholeOutcome_ok s hw

theorem isdigit_toNat {c : Char} (h : isdigit c = true) : c.toNat - 48 ≤ 9 := by
  simp only [isdigit, Bool.and_eq_true, decide_eq_true_eq] at h
  omega

/-- The digit loop returns a natural number, and fails only with
`NumberOutOfRange`. -/
theorem extract_number_loop_whole {rnd : ℚ → ℚ} (hr : IsDoubleRounding rnd) (s : List Char) :
    ∀ acc : ℕ, acc ≤ 2000000000 →
      (∃ (m : ℕ) (s' : List Char), extract_number_loop rnd (acc : ℚ) s = .ok ((m : ℚ), s')) ∨
      extract_number_loop rnd (acc : ℚ) s = .error .NumberOutOfRange := by
  induction s with
  | nil => exact fun acc _ => Or.inl ⟨acc, [], rfl⟩
  | cons c s ih =>
    intro acc hacc
    by_cases hd : isdigit c = true
    · have hc := isdigit_toNat hd
      have h10 : rnd ((acc : ℚ) * 10) = (acc : ℚ) * 10 := by
        have := rnd_nat_wide hr (acc * 10) (by omega)
        push_cast at this
        exact this
      have h11 : rnd ((acc : ℚ) * 10 + ((c.toNat - 48 : ℕ) : ℚ)) =
          ((acc * 10 + (c.toNat - 48) : ℕ) : ℚ) := by
        have := rnd_nat_wide hr (acc * 10 + (c.toNat - 48)) (by omega)
        push_cast at this ⊢
        exact this
      by_cases hbig : ((acc * 10 + (c.toNat - 48) : ℕ) : ℚ) > VALUE_LIMIT
      · right
        simp only [extract_number_loop, hd, if_true, h10, h11, if_pos hbig]
      · have hle : acc * 10 + (c.toNat - 48) ≤ 2000000000 := by
          rw [not_lt] at hbig
          unfold VALUE_LIMIT at hbig
          exact_mod_cast hbig
        have := ih (acc * 10 + (c.toNat - 48)) hle
        simp only [extract_number_loop, hd, if_true, h10, h11, if_neg hbig]
        exact this
    · left
      refine ⟨acc, c :: s, ?_⟩
      simp only [extract_number_loop, hd, Bool.false_eq_true, if_false]

theorem wholeOutcome_extract_number {rnd : ℚ → ℚ} (hr : IsDoubleRounding rnd) (s : List Char) :
    WholeOutcome (extract_number rnd s) := by
  unfold extract_number
  simp only
  by_cases hd : isdigit (peek (trim_spaces s)) = true
  · simp only [hd, not_true_eq_false, if_false]
    have := extract_number_loop_whole hr (trim_spaces s) 0 (by norm_num)
    simp only [Nat.cast_zero] at this
    rcases this with ⟨m, s', h⟩ | h
    · rw [h]
      exact wholeOutcome_ok _ ⟨(m : ℤ), by push_cast; rfl⟩
    · rw [h]
      exact wholeOutcome_error (by decide)
  · simp only [hd, not_false_eq_true, if_true]
    exact wholeOutcome_error (by decide)

/-- A product or sum of whole numbers whose rounding is within the range
ceiling is exact: the rounding is the whole number itself. -/
theorem rnd_whole_of_inRange {rnd : ℚ → ℚ} (hr : IsDoubleRounding rnd) (p : ℤ)
    (h : InRange (rnd (p : ℚ))) : rnd (p : ℚ) = (p : ℚ) := by
  by_cases hp : |p| ≤ 2 ^ 53
  · exact hr.exact_int p hp
  · exfalso
    rw [not_le] at hp
    have h53 : rnd (((2 ^ 53 : ℤ) : ℤ) : ℚ) = ((2 ^ 53 : ℤ) : ℚ) :=
      hr.exact_int (2 ^ 53) (by norm_num)
    have hm53 : rnd (((-(2 ^ 53) : ℤ) : ℤ) : ℚ) = ((-(2 ^ 53) : ℤ) : ℚ) :=
      hr.exact_int (-(2 ^ 53)) (by norm_num)
    unfold InRange VALUE_LIMIT at h
    rcases le_or_lt 0 p with h0 | h0
    · rw [abs_of_nonneg h0] at hp
      have hle : (((2 ^ 53 : ℤ) : ℤ) : ℚ) ≤ (p : ℚ) := by exact_mod_cast hp.le
      have := hr.mono _ _ hle
      rw [h53] at this
      have h2 : ((2 ^ 53 : ℤ) : ℚ) = 9007199254740992 := by norm_num
      rw [h2] at this
      linarith [h.2]
    · rw [abs_of_neg h0] at hp
      have hle : (p : ℚ) ≤ (((-(2 ^ 53) : ℤ) : ℤ) : ℚ) := by
        have : p ≤ -(2 ^ 53) := by omega
        exact_mod_cast this
      have := hr.mono _ _ hle
      rw [hm53] at this
      have h2 : ((-(2 ^ 53) : ℤ) : ℚ) = -9007199254740992 := by norm_num
      rw [h2] at this
      linarith [h.1]

theorem rnd_mul_whole {rnd : ℚ → ℚ} (hr : IsDoubleRounding rnd) {a b : ℚ} (ha : IsWhole a)
    (hb : IsWhole b) (h : InRange (rnd (a * b))) :
    IsWhole (rnd (a * b)) ∧ rnd (a * b) = a * b := by
  obtain ⟨x, rfl⟩ := ha
  obtain ⟨y, rfl⟩ := hb
  have hc : (x : ℚ) * (y : ℚ) = ((x * y : ℤ) : ℚ) := by push_cast; rfl
  rw [hc] at h ⊢
  have := rnd_whole_of_inRange hr (x * y) h
  exact ⟨⟨x * y, this⟩, this⟩

theorem rnd_add_whole {rnd : ℚ → ℚ} (hr : IsDoubleRounding rnd) {a b : ℚ} (ha : IsWhole a)
    (hb : IsWhole b) (h : InRange (rnd (a + b))) :
    IsWhole (rnd (a + b)) ∧ rnd (a + b) = a + b := by
  obtain ⟨x, rfl⟩ := ha
  obtain ⟨y, rfl⟩ := hb
  have hc : (x : ℚ) + (y : ℚ) = ((x + y : ℤ) : ℚ) := by push_cast; rfl
  rw [hc] at h ⊢
  have := rnd_whole_of_inRange hr (x + y) h
  exact ⟨⟨x + y, this⟩, this⟩

theorem rnd_sub_whole {rnd : ℚ → ℚ} (hr : IsDoubleRounding rnd) {a b : ℚ} (ha : IsWhole a)
    (hb : IsWhole b) (h : InRange (rnd (a - b))) :
    IsWhole (rnd (a - b)) ∧ rnd (a - b) = a - b := by
  obtain ⟨x, rfl⟩ := ha
  obtain ⟨y, rfl⟩ := hb
  have hc : (x : ℚ) - (y : ℚ) = ((x - y : ℤ) : ℚ) := by push_cast; rfl
  rw [hc] at h ⊢
  have := rnd_whole_of_inRange hr (x - y) h
  exact ⟨⟨x - y, this⟩, this⟩

theorem is_whole_number_of_isWhole {rnd : ℚ → ℚ} (hr : IsDoubleRounding rnd) {x : ℚ}
    (h : IsWhole x) : is_whole_number rnd x = true := by
  obtain ⟨z, rfl⟩ := h
  exact is_whole_number_int hr z

/-- The distance of a whole number to its nearest integer is zero. -/
theorem isWhole_near {x : ℚ} (h : IsWhole x) :
    x = (c_round x : ℚ) ∧ |x - (c_round x : ℚ)| < 1 / 1000000000 := by
  obtain ⟨z, rfl⟩ := h
  rw [c_round_int, sub_self, abs_zero]
  exact ⟨rfl, by norm_num⟩

theorem integer_divide_whole (rnd : ℚ → ℚ) (a b : ℚ) :
    (∀ e, integer_divide rnd a b = .error e → e ≠ .NonIntegerResult ∧ e ≠ .FinalNotInteger) ∧
    ∀ v, integer_divide rnd a b = .ok v → IsWhole v := by
  unfold integer_divide
  by_cases hg : |b| < rnd (1 / 10000)
  · rw [if_pos hg]
    exact ⟨fun e he => (by cases he; decide), fun v hv => (by cases hv)⟩
  · rw [if_neg hg]
    simp only
    rcases hv : validate_range ((⌊rnd (a / b)⌋ : ℤ) : ℚ) with e | u
    · rw [(validate_range_error hv).1]
      exact ⟨fun e he => (by cases he; decide), fun v hv => (by cases hv)⟩
    · refine ⟨fun e he => (by cases he), fun v hv => ?_⟩
      cases hv
      exact ⟨⌊rnd (a / b)⌋, rfl⟩

/-- In integer mode, with the rounding of the machine, every evaluator returns
a whole number or an error other than `NonIntegerResult` and `FinalNotInteger`;
the loops do so from a whole running value. -/
theorem evaluate_whole {rnd : ℚ → ℚ} (hrnd : IsDoubleRounding rnd) : ∀ n : ℕ,
    (∀ s, WholeOutcome (evaluate_factor rnd false n s)) ∧
    (∀ val s, IsWhole val → WholeOutcome (evaluate_term_loop rnd false n val s)) ∧
    (∀ s, WholeOutcome (evaluate_term rnd false n s)) ∧
    (∀ val s, IsWhole val → WholeOutcome (evaluate_expression_loop rnd false n val s)) ∧
    (∀ s, WholeOutcome (evaluate_expression rnd false n s)) := by
  intro n
  induction n with
  | zero =>
    refine ⟨?_, ?_, ?_, ?_, ?_⟩ <;> intros <;>
      simp only [evaluate_factor, evaluate_term_loop, evaluate_term, evaluate_expression_loop,
        evaluate_expression] <;> exact wholeOutcome_error (by decide)
  | succ n ih =>
    obtain ⟨ihF, ihTL, ihT, ihEL, ihE⟩ := ih
    refine ⟨?_, ?_, ?_, ?_, ?_⟩
    · intro s
      rw [evaluate_factor_of_signs]
      simp only
      generalize sign_loop (trim_spaces s).length false (trim_spaces s) = sg
      by_cases hp : peek sg.2 = '('
      · simp only [if_pos hp]
        have hI := ihE sg.2.tail
        rcases hE : evaluate_expression rnd false n sg.2.tail with e | ⟨val, s2⟩
        · rw [hE] at hI
          exact hI
        · rw [hE] at hI
          simp only
          by_cases hc : peek (trim_spaces s2) = ')'
          · simp only [if_pos hc]
            exact wholeOutcome_finish_factor _ _ (hI.2 _ _ rfl)
          · simp only [if_neg hc]
            exact wholeOutcome_error (by decide)
      · simp only [if_neg hp]
        have hI := wholeOutcome_extract_number hrnd sg.2
        rcases hN : extract_number rnd sg.2 with e | ⟨val, s2⟩
        · rw [hN] at hI
          exact hI
        · rw [hN] at hI
          exact wholeOutcome_finish_factor _ _ (hI.2 _ _ rfl)
    · intro val s hval
      simp only [evaluate_term_loop]
      by_cases hop : peek s = '*' ∨ peek s = '/'
      · simp only [if_pos hop]
        have hI := ihF (trim_spaces s.tail)
        rcases hF : evaluate_factor rnd false n (trim_spaces s.tail) with e | ⟨right, s1⟩
        · rw [hF] at hI
          exact hI
        · rw [hF] at hI
          have hright : IsWhole right := hI.2 _ _ rfl
          simp only
          by_cases hmul : peek s = '*'
          · simp only [if_pos hmul]
            rcases hv : validate_range (rnd (val * right)) with e | u
            · rw [(validate_range_error hv).1]
              exact wholeOutcome_error (by decide)
            · have hw := (rnd_mul_whole hrnd hval hright (validate_range_ok_iff.mp hv)).1
              simp only [is_whole_number_of_isWhole hrnd hw, Bool.not_false, Bool.not_true,
                Bool.and_false, Bool.false_eq_true, if_false]
              exact ihTL _ _ hw
          · simp only [if_neg hmul, Bool.false_eq_true, if_false]
            have hD := integer_divide_whole rnd val right
            rcases hd : integer_divide rnd val right with e | val1
            · rw [hd] at hD
              exact wholeOutcome_error (hD.1 e rfl)
            · rw [hd] at hD
              exact ihTL _ _ (hD.2 _ rfl)
      · simp only [if_neg hop]
        exact wholeOutcome_ok _ hval
    · intro s
      simp only [evaluate_term]
      have hI := ihF s
      rcases hF : evaluate_factor rnd false n s with e | ⟨val, s1⟩
      · rw [hF] at hI
        exact hI
      · rw [hF] at hI
        exact ihTL _ _ (hI.2 _ _ rfl)
    · intro val s hval
      simp only [evaluate_expression_loop]
      by_cases hop : peek s = '+' ∨ peek s = '-'
      · simp only [if_pos hop]
        have hI := ihT (trim_spaces s.tail)
        rcases hT : evaluate_term rnd false n (trim_spaces s.tail) with e | ⟨right, s1⟩
        · rw [hT] at hI
          exact hI
        · rw [hT] at hI
          have hright : IsWhole right := hI.2 _ _ rfl
          simp only
          have hstep : ∀ val1 : ℚ, (InRange val1 → IsWhole val1) →
              WholeOutcome (match validate_range val1 with
                | .error e => .error e
                | .ok _ =>
                  if (!false && !is_whole_number rnd val1) = true then
                    .error .NonIntegerResult
                  else evaluate_expression_loop rnd false n val1 (trim_spaces s1)) := by
            intro val1 h1
            rcases hv : validate_range val1 with e | u
            · rw [(validate_range_error hv).1]
              exact wholeOutcome_error (by decide)
            · have hw := h1 (validate_range_ok_iff.mp hv)
              simp only [is_whole_number_of_isWhole hrnd hw, Bool.not_false, Bool.not_true,
                Bool.and_false, Bool.false_eq_true, if_false]
              exact ihEL _ _ hw
          by_cases hplus : peek s = '+'
          · simp only [if_pos hplus]
            exact hstep _ (fun h => (rnd_add_whole hrnd hval hright h).1)
          · simp only [if_neg hplus]
            exact hstep _ (fun h => (rnd_sub_whole hrnd hval hright h).1)
      · simp only [if_neg hop]
        exact wholeOutcome_ok _ hval
    · intro s
      simp only [evaluate_expression]
      have hI := ihT s
      rcases hT : evaluate_term rnd false n s with e | ⟨val, s1⟩
      · rw [hT] at hI
        exact hI
      · rw [hT] at hI
        exact ihEL _ _ (hI.2 _ _ rfl)

theorem isWhole_nearInteger {x : ℚ} (h : IsWhole x) : IsWhole x ∧ NearInteger x :=
  ⟨h, (isWhole_near h).2⟩

/-- C15. In integer mode, with the rounding of the machine, every value at a
finalization point is a whole number, so within `1e-9` of its nearest integer
(at distance zero): the value returned by `evaluate_factor`; the running value
after a `*` step and after a `+` or `-` step that passes the range check, and
after a `/` step, when the running value before the step is whole; and so the
values the loops, `evaluate_term` and `evaluate_expression` return. -/
theorem C15_whole_number_invariant {rnd : ℚ → ℚ} (hrnd : IsDoubleRounding rnd) :
    (∀ n s v s', evaluate_factor rnd false n s = .ok (v, s') → IsWhole v ∧ NearInteger v) ∧
    (∀ n val s y s1, IsWhole val → evaluate_factor rnd false n s = .ok (y, s1) →
      (InRange (rnd (val * y)) →
        (IsWhole (rnd (val * y)) ∧ NearInteger (rnd (val * y))) ∧
        is_whole_number rnd (rnd (val * y)) = true) ∧
      (∀ q, integer_divide rnd val y = .ok q → IsWhole q ∧ NearInteger q)) ∧
    (∀ n val s y s1, IsWhole val → evaluate_term rnd false n s = .ok (y, s1) →
      (InRange (rnd (val + y)) →
        (IsWhole (rnd (val + y)) ∧ NearInteger (rnd (val + y))) ∧
        is_whole_number rnd (rnd (val + y)) = true) ∧
      (InRange (rnd (val - y)) →
        (IsWhole (rnd (val - y)) ∧ NearInteger (rnd (val - y))) ∧
        is_whole_number rnd (rnd (val - y)) = true)) ∧
    (∀ n val s v s', IsWhole val → evaluate_term_loop rnd false n val s = .ok (v, s') →
      IsWhole v ∧ NearInteger v) ∧
    (∀ n val s v s', IsWhole val → evaluate_expression_loop rnd false n val s = .ok (v, s') →
      IsWhole v ∧ NearInteger v) ∧
    (∀ n s v s', evaluate_term rnd false n s = .ok (v, s') → IsWhole v ∧ NearInteger v) ∧
    (∀ n s v s', evaluate_expression rnd false n s = .ok (v, s') →
      IsWhole v ∧ NearInteger v) := by
  refine ⟨fun n s v s' h => isWhole_nearInteger (((evaluate_whole hrnd n).1 s).2 v s' h),
    fun n val s y s1 hval hF => ⟨fun hr => ?_, fun q hq => ?_⟩,
    fun n val s y s1 hval hT => ⟨fun hr => ?_, fun hr => ?_⟩,
    fun n val s v s' hval h =>
      isWhole_nearInteger (((evaluate_whole hrnd n).2.1 val s hval).2 v s' h),
    fun n val s v s' hval h =>
      isWhole_nearInteger (((evaluate_whole hrnd n).2.2.2.1 val s hval).2 v s' h),
    fun n s v s' h => isWhole_nearInteger (((evaluate_whole hrnd n).2.2.1 s).2 v s' h),
    fun n s v s' h => isWhole_nearInteger (((evaluate_whole hrnd n).2.2.2.2 s).2 v s' h)⟩
  · have hy := ((evaluate_whole hrnd n).1 s).2 y s1 hF
    have hw := (rnd_mul_whole hrnd hval hy hr).1
    exact ⟨isWhole_nearInteger hw, is_whole_number_of_isWhole hrnd hw⟩
  · exact isWhole_nearInteger ((integer_divide_whole rnd val y).2 q hq)
  · have hy := ((evaluate_whole hrnd n).2.2.1 s).2 y s1 hT
    have hw := (rnd_add_whole hrnd hval hy hr).1
    exact ⟨isWhole_nearInteger hw, is_whole_number_of_isWhole hrnd hw⟩
  · have hy := ((evaluate_whole hrnd n).2.2.1 s).2 y s1 hT
    have hw := (rnd_sub_whole hrnd hval hy hr).1
    exact ⟨isWhole_nearInteger hw, is_whole_number_of_isWhole hrnd hw⟩

/-- C15 with binary64 rounding: the value `5` that `evaluate_expression` returns
on `2+3`, and the running value `3 * 2` after a `*` step from `3` with the
factor `2`. -/
theorem C15_whole_number_invariant_witness :
    evaluate_expression binary64 false 12 "2+3".toList = .ok (5, []) ∧
    (IsWhole (5 : ℚ) ∧ NearInteger 5) ∧
    evaluate_factor binary64 false 12 "2".toList = .ok (2, []) ∧
    (IsWhole (binary64 (3 * 2)) ∧ NearInteger (binary64 (3 * 2))) ∧
    is_whole_number binary64 (binary64 (3 * 2)) = true := by
  have h := C15_whole_number_invariant isDoubleRounding_binary64
  have h3 : evaluate_expression binary64 false 12 "2+3".toList = .ok (5, []) := by
    have := evaluate_expression_tree isDoubleRounding_binary64 (.add (.num 2 []) (.num 3 []))
      (by simp [Tree.WellFormed, Tree.level]) 5 (by decide) [] (by decide) (by decide)
      (by decide) 12 (by decide)
    simpa using this
  have h2 : evaluate_factor binary64 false 12 "2".toList = .ok (2, []) := by
    have := evaluate_factor_num isDoubleRounding_binary64 false 11 2 [] [] (by decide)
      (by decide)
    simpa [digits_text, digits_value, digit_char] using this
  have h6 : binary64 (3 * 2) = 6 := by
    have := binary64_int 6 (by norm_num)
    norm_num at this ⊢
    exact this
  have hstep := (h.2.1 12 3 "2".toList 2 [] ⟨3, by norm_num⟩ h2).1 (by
    rw [h6]
    unfold InRange VALUE_LIMIT
    norm_num)
  exact ⟨h3, (h.2.2.2.2.2.2 12 _ _ _ h3), h2, hstep.1, hstep.2⟩

/-! ## The not-an-integer errors are unreachable (C18) -/

theorem parse_args_inv (args : List String) : ∀ uf0 : Bool,
    (∀ e, parse_args uf0 args = .error e → e = .UnknownArgument) ∧
    (∀ uf, parse_args uf0 args = .ok uf → "--float" ∉ args → uf = uf0) := by
  induction args with
  | nil =>
    intro uf0
    refine ⟨fun e he => ?_, fun uf hu _ => ?_⟩
    · simp only [parse_args, reduceCtorEq] at he
    · simp only [parse_args, Except.ok.injEq] at hu
      exact hu.symm
  | cons a rest ih =>
    intro uf0
    by_cases ha : a = "--float"
    · refine ⟨fun e he => ?_, fun uf _ hn => ?_⟩
      · simp only [parse_args, if_pos ha] at he
        exact (ih true).1 e he
      · exact absurd (ha ▸ List.mem_cons_self a rest) hn
    · refine ⟨fun e he => ?_, fun uf hu _ => ?_⟩
      · simp only [parse_args, if_neg ha, Except.error.injEq] at he
        exact he.symm
      · simp only [parse_args, if_neg ha, reduceCtorEq] at hu

theorem check_valid_chars_error {s : List Char} {e : ParseError}
    (h : check_valid_chars s = .error e) : e = .InvalidCharacter := by
  induction s with
  | nil => simp only [check_valid_chars, reduceCtorEq] at h
  | cons a s ih =>
    by_cases h0 : a = '\x00'
    · simp only [check_valid_chars, if_pos h0, reduceCtorEq] at h
    · by_cases hv : is_valid_character a = true
      · simp only [check_valid_chars, if_neg h0, hv, not_true_eq_false, if_false] at h
        exact ih h
      · rw [Bool.not_eq_true] at hv
        simp only [check_valid_chars, if_neg h0, hv, Bool.false_eq_true, not_false_eq_true,
          if_true, Except.error.injEq] at h
        exact h.symm

theorem read_input_error {stdin : List Char} {e : ParseError}
    (h : read_input stdin = .error e) : e = .InputTooLarge := by
  unfold read_input at h
  by_cases hl : stdin.length > MAX_BUFFER - 1
  · simp only [if_pos hl, Except.error.injEq] at h
    exact h.symm
  · simp only [if_neg hl, reduceCtorEq] at h

/-- An integer-mode run never ends in one of the two not-an-integer errors. -/
theorem main_integer_mode_error {rnd : ℚ → ℚ} (hrnd : IsDoubleRounding rnd)
    (args : List String) (hargs : "--float" ∉ args) (stdin : List Char) (e : ParseError)
    (h : main rnd args stdin = .error e) : e ≠ .NonIntegerResult ∧ e ≠ .FinalNotInteger := by
  simp only [main] at h
  rcases hP : parse_args false args with e1 | uf
  · simp only [hP, Except.error.injEq] at h
    rw [← h, (parse_args_inv args false).1 e1 hP]
    decide
  · have huf : uf = false := (parse_args_inv args false).2 uf hP hargs
    subst huf
    simp only [hP] at h
    rcases hR : read_input stdin with e1 | raw
    · simp only [hR, Except.error.injEq] at h
      rw [← h, read_input_error hR]
      decide
    · simp only [hR] at h
      rcases hC : check_valid_chars raw with e1 | u
      · simp only [hC, Except.error.injEq] at h
        rw [← h, check_valid_chars_error hC]
        decide
      · simp only [hC] at h
        by_cases hE : peek (sanitize_input raw) = '\x00'
        · simp only [if_pos hE, Except.error.injEq] at h
          rw [← h]
          decide
        · simp only [if_neg hE] at h
          have hW := (evaluate_whole hrnd (fuel_for (sanitize_input raw))).2.2.2.2
            (sanitize_input raw)
          rcases hX : evaluate_expression rnd false (fuel_for (sanitize_input raw))
            (sanitize_input raw) with e1 | ⟨result, cursor⟩
          · simp only [hX, Except.error.injEq] at h
            rw [← h]
            exact hW.1 e1 hX
          · simp only [hX] at h
            have hw := is_whole_number_of_isWhole hrnd (hW.2 result cursor hX)
            by_cases hT : peek (trim_spaces cursor) ≠ '\x00'
            · simp only [if_pos hT, Except.error.injEq] at h
              rw [← h]
              decide
            · simp only [if_neg hT, Bool.false_eq_true, if_false, hw, Bool.not_true,
                reduceCtorEq] at h

/-- C18. With the rounding of the machine, a run without `--float` never fails
with `NonIntegerResult` or `FinalNotInteger`, whatever the input: the
evaluators of integer mode never raise the first, and the value `main` tests
for the second is always a whole number. -/
theorem C18_not_integer_unreachable {rnd : ℚ → ℚ} (hrnd : IsDoubleRounding rnd)
    (args : List String) (hargs : "--float" ∉ args) (stdin : List Char) :
    main rnd args stdin ≠ .error .NonIntegerResult ∧
    main rnd args stdin ≠ .error .FinalNotInteger ∧
    (∀ n s, evaluate_factor rnd false n s ≠ .error .NonIntegerResult ∧
      evaluate_term rnd false n s ≠ .error .NonIntegerResult ∧
      evaluate_expression rnd false n s ≠ .error .NonIntegerResult) ∧
    (∀ n s v s', evaluate_expression rnd false n s = .ok (v, s') →
      is_whole_number rnd v = true) := by
  refine ⟨fun h => (main_integer_mode_error hrnd args hargs stdin _ h).1 rfl,
    fun h => (main_integer_mode_error hrnd args hargs stdin _ h).2 rfl,
    fun n s => ⟨fun h => (((evaluate_whole hrnd n).1 s).1 _ h).1 rfl,
      fun h => (((evaluate_whole hrnd n).2.2.1 s).1 _ h).1 rfl,
      fun h => (((evaluate_whole hrnd n).2.2.2.2 s).1 _ h).1 rfl⟩,
    fun n s v s' h =>
      is_whole_number_of_isWhole hrnd (((evaluate_whole hrnd n).2.2.2.2 s).2 v s' h)⟩

/-- C18 with binary64 rounding on the input `7/2*2` in integer mode. -/
theorem C18_not_integer_unreachable_witness :
    main binary64 [] "7/2*2".toList ≠ .error .NonIntegerResult ∧
    main binary64 [] "7/2*2".toList ≠ .error .FinalNotInteger :=
  have h := C18_not_integer_unreachable isDoubleRounding_binary64 [] (by simp)
    "7/2*2".toList
  ⟨h.1, h.2.1⟩

/-! ## What the parser accepts is a sentence (C20) -/

theorem dense_of_append {t s : List Char} (h : Dense (t ++ s)) : Dense s :=
  fun c hc => h c (List.mem_append_right t hc)

theorem dense_tail {s : List Char} (h : Dense s) : Dense s.tail :=
  fun c hc => h c (List.mem_of_mem_tail hc)

theorem trim_spaces_of_dense {s : List Char} (h : Dense s) : trim_spaces s = s := by
  cases s with
  | nil => rfl
  | cons c t => exact trim_spaces_of_not_isspace t (h c (List.mem_cons_self _ _)).2

theorem eq_cons_of_peek {s : List Char} {c : Char} (h : peek s = c) (hc : c ≠ '\x00') :
    s = c :: s.tail := by
  cases s with
  | nil => exact absurd h.symm hc
  | cons a t =>
    rw [peek_cons] at h
    rw [h, List.tail_cons]

theorem eq_nil_of_peek_nul {s : List Char} (hd : Dense s) (h : peek s = '\x00') : s = [] := by
  cases s with
  | nil => rfl
  | cons a t =>
    rw [peek_cons] at h
    exact absurd h (hd a (List.mem_cons_self _ _)).1

/-- On a text without whitespace the sign loop takes off a run of `+` and `-`. -/
theorem sign_loop_dense (k : ℕ) : ∀ (negative : Bool) (s : List Char), Dense s →
    ∃ signs : List Char, (∀ c ∈ signs, c = '+' ∨ c = '-') ∧
      s = signs ++ (sign_loop k negative s).2 := by
  induction k with
  | zero => exact fun negative s _ => ⟨[], fun c hc => (by cases hc), rfl⟩
  | succ k ih =>
    intro negative s hd
    by_cases hs : peek s = '+' ∨ peek s = '-'
    · have hne : peek s ≠ '\x00' := by
        rcases hs with h | h <;> rw [h] <;> decide
      have hcons := eq_cons_of_peek (rfl : peek s = peek s) hne
      have htail := dense_tail hd
      obtain ⟨signs, hsg, heq⟩ := ih (if peek s = '-' then !negative else negative) s.tail htail
      refine ⟨peek s :: signs, ?_, ?_⟩
      · intro c hc
        rcases List.mem_cons.mp hc with h | h
        · rw [h]
          exact hs
        · exact hsg c h
      · rw [sign_loop, if_pos hs, trim_spaces_of_dense htail, List.cons_append, ← heq]
        exact hcons
    · refine ⟨[], fun c hc => (by cases hc), ?_⟩
      rw [sign_loop, if_neg hs]
      rfl

theorem derives_signs {signs t : List Char} (hs : ∀ c ∈ signs, c = '+' ∨ c = '-')
    (ht : Derives .factor t) : Derives .factor (signs ++ t) := by
  induction signs with
  | nil => exact ht
  | cons a signs ih =>
    have hrest := ih (fun c hc => hs c (List.mem_cons_of_mem _ hc))
    rcases hs a (List.mem_cons_self _ _) with h | h
    · rw [h]
      exact Derives.plus _ hrest
    · rw [h]
      exact Derives.minus _ hrest

/-- The digit loop takes off a run of digits. -/
theorem extract_number_loop_run (rnd : ℚ → ℚ) (s : List Char) : ∀ (num v : ℚ) (s' : List Char),
    extract_number_loop rnd num s = .ok (v, s') →
    ∃ ds : List Char, (∀ c ∈ ds, isdigit c = true) ∧ s = ds ++ s' := by
  induction s with
  | nil =>
    intro num v s' h
    simp only [extract_number_loop, Except.ok.injEq, Prod.mk.injEq] at h
    exact ⟨[], fun c hc => (by cases hc), by rw [← h.2]; rfl⟩
  | cons a s ih =>
    intro num v s' h
    by_cases hd : isdigit a = true
    · simp only [extract_number_loop, hd, if_true] at h
      by_cases hbig : rnd (rnd (num * 10) + ((a.toNat - 48 : ℕ) : ℚ)) > VALUE_LIMIT
      · simp only [if_pos hbig, reduceCtorEq] at h
      · simp only [if_neg hbig] at h
        obtain ⟨ds, hds, heq⟩ := ih _ v s' h
        refine ⟨a :: ds, ?_, by rw [List.cons_append, ← heq]⟩
        intro c hc
        rcases List.mem_cons.mp hc with h1 | h1
        · rw [h1]
          exact hd
        · exact hds c h1
    · simp only [extract_number_loop, hd, Bool.false_eq_true, if_false, Except.ok.injEq,
        Prod.mk.injEq] at h
      exact ⟨[], fun c hc => (by cases hc), by rw [← h.2]; rfl⟩

/-- A number that is read is a non-empty run of digits. -/
theorem extract_number_run (rnd : ℚ → ℚ) (s : List Char) (hd : Dense s) {v : ℚ}
    {s' : List Char} (h : extract_number rnd s = .ok (v, s')) :
    ∃ ds : List Char, s = ds ++ s' ∧ Derives .factor ds := by
  simp only [extract_number, trim_spaces_of_dense hd] at h
  by_cases hdig : isdigit (peek s) = true
  · simp only [hdig, not_true_eq_false, if_false] at h
    obtain ⟨ds, hds, heq⟩ := extract_number_loop_run rnd s 0 v s' h
    refine ⟨ds, heq, Derives.digits ds ?_ hds⟩
    intro hnil
    rw [hnil, List.nil_append] at heq
    have hlt := @extract_number_progress rnd s v s' (by
      simp only [extract_number, trim_spaces_of_dense hd, hdig, not_true_eq_false, if_false]
      exact h)
    rw [← heq] at hlt
    exact absurd hlt (lt_irrefl _)
  · simp only [hdig, not_false_eq_true, if_true, reduceCtorEq] at h

/-- On a text without whitespace, what an evaluator consumes is derivable from
its nonterminal; what a loop consumes extends a derivable chain. -/
theorem evaluate_derives (rnd : ℚ → ℚ) (uf : Bool) : ∀ n : ℕ,
    (∀ s v s', Dense s → evaluate_factor rnd uf n s = .ok (v, s') →
      ∃ t, s = t ++ s' ∧ Derives .factor t) ∧
    (∀ val s v s', Dense s → evaluate_term_loop rnd uf n val s = .ok (v, s') →
      ∀ p, Derives .term p → ∃ t, s = t ++ s' ∧ Derives .term (p ++ t)) ∧
    (∀ s v s', Dense s → evaluate_term rnd uf n s = .ok (v, s') →
      ∃ t, s = t ++ s' ∧ Derives .term t) ∧
    (∀ val s v s', Dense s → evaluate_expression_loop rnd uf n val s = .ok (v, s') →
      ∀ p, Derives .expr p → ∃ t, s = t ++ s' ∧ Derives .expr (p ++ t)) ∧
    (∀ s v s', Dense s → evaluate_expression rnd uf n s = .ok (v, s') →
      ∃ t, s = t ++ s' ∧ Derives .expr t) := by
  intro n
  induction n with
  | zero =>
    refine ⟨?_, ?_, ?_, ?_, ?_⟩ <;> intros <;> simp_all [evaluate_factor, evaluate_term_loop,
      evaluate_term, evaluate_expression_loop, evaluate_expression]
  | succ n ih =>
    obtain ⟨ihF, ihTL, ihT, ihEL, ihE⟩ := ih
    refine ⟨?_, ?_, ?_, ?_, ?_⟩
    · intro s v s' hd h
      rw [evaluate_factor_of_signs, trim_spaces_of_dense hd] at h
      simp only at h
      obtain ⟨signs, hsigns, hs⟩ := sign_loop_dense s.length false s hd
      generalize sign_loop s.length false s = sg at h hs
      have hd1 : Dense sg.2 := dense_of_append (hs ▸ hd)
      by_cases hp : peek sg.2 = '('
      · simp only [if_pos hp] at h
        have hcons := eq_cons_of_peek hp (by decide)
        rcases hE : evaluate_expression rnd uf n sg.2.tail with e | ⟨val, s2⟩
        · simp only [hE, reduceCtorEq] at h
        · simp only [hE] at h
          obtain ⟨t, ht, hder⟩ := ihE _ _ _ (dense_tail hd1) hE
          have hd2 : Dense s2 := dense_of_append (ht ▸ dense_tail hd1)
          rw [trim_spaces_of_dense hd2] at h
          by_cases hc : peek s2 = ')'
          · simp only [if_pos hc] at h
            have hs' := (finish_factor_ok_iff.mp h).2.2
            have hcons2 := eq_cons_of_peek hc (by decide)
            refine ⟨signs ++ '(' :: (t ++ [')']), ?_,
              derives_signs hsigns (Derives.paren t hder)⟩
            rw [hs, hcons, ht, hcons2, hs']
            simp only [List.append_assoc, List.cons_append, List.nil_append, List.tail_cons]
          · simp only [if_neg hc, reduceCtorEq] at h
      · simp only [if_neg hp] at h
        rcases hN : extract_number rnd sg.2 with e | ⟨val, s2⟩
        · simp only [hN, reduceCtorEq] at h
        · simp only [hN] at h
          have hs' := (finish_factor_ok_iff.mp h).2.2
          obtain ⟨ds, hds, hder⟩ := extract_number_run rnd sg.2 hd1 hN
          refine ⟨signs ++ ds, ?_, derives_signs hsigns hder⟩
          rw [hs, hds, hs', List.append_assoc]
    · intro val s v s' hd h p hp
      simp only [evaluate_term_loop] at h
      by_cases hop : peek s = '*' ∨ peek s = '/'
      · simp only [if_pos hop, trim_spaces_of_dense (dense_tail hd)] at h
        have hne : peek s ≠ '\x00' := by
          rcases hop with h1 | h1 <;> rw [h1] <;> decide
        have hcons := eq_cons_of_peek (rfl : peek s = peek s) hne
        rcases hF : evaluate_factor rnd uf n s.tail with e | ⟨right, s1⟩
        · simp only [hF, reduceCtorEq] at h
        · simp only [hF] at h
          obtain ⟨u, hu, hder⟩ := ihF _ _ _ (dense_tail hd) hF
          have hd1 : Dense s1 := dense_of_append (hu ▸ dense_tail hd)
          rw [trim_spaces_of_dense hd1] at h
          have hnext : ∀ val1, evaluate_term_loop rnd uf n val1 s1 = .ok (v, s') →
              ∃ t, s = t ++ s' ∧ Derives .term (p ++ t) := by
            intro val1 hL
            have hchain : Derives .term (p ++ peek s :: u) := by
              rcases hop with h1 | h1
              · rw [h1]
                exact Derives.mul p u hp hder
              · rw [h1]
                exact Derives.div p u hp hder
            obtain ⟨t, ht, hder2⟩ := ihTL _ _ _ _ hd1 hL _ hchain
            refine ⟨peek s :: (u ++ t), ?_, ?_⟩
            · rw [hcons, hu, ht]
              simp only [List.append_assoc, List.cons_append, List.tail_cons, peek_cons]
            · simpa only [List.append_assoc, List.cons_append] using hder2
          by_cases hmul : peek s = '*'
          · simp only [if_pos hmul] at h
            rcases hv : validate_range (rnd (val * right)) with e | u1
            · simp only [hv, reduceCtorEq] at h
            · simp only [hv] at h
              by_cases hw : (!uf && !is_whole_number rnd (rnd (val * right))) = true
              · simp only [if_pos hw, reduceCtorEq] at h
              · simp only [if_neg hw] at h
                exact hnext _ h
          · simp only [if_neg hmul] at h
            rcases hdv : (if uf = true then floating_divide rnd val right
                else integer_divide rnd val right) with e | val1
            · simp only [hdv, reduceCtorEq] at h
            · simp only [hdv] at h
              exact hnext _ h
      · simp only [if_neg hop, Except.ok.injEq, Prod.mk.injEq] at h
        exact ⟨[], by rw [← h.2]; rfl, by rw [List.append_nil]; exact hp⟩
    · intro s v s' hd h
      simp only [evaluate_term] at h
      rcases hF : evaluate_factor rnd uf n s with e | ⟨val, s1⟩
      · simp only [hF, reduceCtorEq] at h
      · simp only [hF] at h
        obtain ⟨u, hu, hder⟩ := ihF _ _ _ hd hF
        have hd1 : Dense s1 := dense_of_append (hu ▸ hd)
        rw [trim_spaces_of_dense hd1] at h
        obtain ⟨t, ht, hder2⟩ := ihTL _ _ _ _ hd1 h u (Derives.of_factor u hder)
        exact ⟨u ++ t, by rw [hu, ht, List.append_assoc], hder2⟩
    · intro val s v s' hd h p hp
      simp only [evaluate_expression_loop] at h
      by_cases hop : peek s = '+' ∨ peek s = '-'
      · simp only [if_pos hop, trim_spaces_of_dense (dense_tail hd)] at h
        have hne : peek s ≠ '\x00' := by
          rcases hop with h1 | h1 <;> rw [h1] <;> decide
        have hcons := eq_cons_of_peek (rfl : peek s = peek s) hne
        rcases hT : evaluate_term rnd uf n s.tail with e | ⟨right, s1⟩
        · simp only [hT, reduceCtorEq] at h
        · simp only [hT] at h
          obtain ⟨u, hu, hder⟩ := ihT _ _ _ (dense_tail hd) hT
          have hd1 : Dense s1 := dense_of_append (hu ▸ dense_tail hd)
          rw [trim_spaces_of_dense hd1] at h
          generalize (if peek s = '+' then rnd (val + right) else rnd (val - right)) = val1 at h
          rcases hv : validate_range val1 with e | u1
          · simp only [hv, reduceCtorEq] at h
          · simp only [hv] at h
            by_cases hw : (!uf && !is_whole_number rnd val1) = true
            · simp only [if_pos hw, reduceCtorEq] at h
            · simp only [if_neg hw] at h
              have hchain : Derives .expr (p ++ peek s :: u) := by
                rcases hop with h1 | h1
                · rw [h1]
                  exact Derives.add p u hp hder
                · rw [h1]
                  exact Derives.sub p u hp hder
              obtain ⟨t, ht, hder2⟩ := ihEL _ _ _ _ hd1 h _ hchain
              refine ⟨peek s :: (u ++ t), ?_, ?_⟩
              · rw [hcons, hu, ht]
                simp only [List.append_assoc, List.cons_append, List.tail_cons, peek_cons]
              · simpa only [List.append_assoc, List.cons_append] using hder2
      · simp only [if_neg hop, Except.ok.injEq, Prod.mk.injEq] at h
        exact ⟨[], by rw [← h.2]; rfl, by rw [List.append_nil]; exact hp⟩
    · intro s v s' hd h
      simp only [evaluate_expression] at h
      rcases hT : evaluate_term rnd uf n s with e | ⟨val, s1⟩
      · simp only [hT, reduceCtorEq] at h
      · simp only [hT] at h
        obtain ⟨u, hu, hder⟩ := ihT _ _ _ hd hT
        have hd1 : Dense s1 := dense_of_append (hu ▸ hd)
        rw [trim_spaces_of_dense hd1] at h
        obtain ⟨t, ht, hder2⟩ := ihEL _ _ _ _ hd1 h u (Derives.of_term u hder)
        exact ⟨u ++ t, by rw [hu, ht, List.append_assoc], hder2⟩

theorem dense_sanitize_input (s : List Char) : Dense (sanitize_input s) :=
  sanitize_input_dense s

/-- A run of `main` never ends with the recursion budget exhausted. -/
theorem main_settled (rnd : ℚ → ℚ) (args : List String) (stdin : List Char) :
    main rnd args stdin ≠ .error .OutOfFuel := by
  intro h
  simp only [main] at h
  rcases hP : parse_args false args with e1 | uf
  · simp only [hP, Except.error.injEq] at h
    rw [(parse_args_inv args false).1 e1 hP] at h
    cases h
  · simp only [hP] at h
    rcases hR : read_input stdin with e1 | raw
    · simp only [hR, Except.error.injEq] at h
      rw [read_input_error hR] at h
      cases h
    · simp only [hR] at h
      rcases hC : check_valid_chars raw with e1 | u
      · simp only [hC, Except.error.injEq] at h
        rw [check_valid_chars_error hC] at h
        cases h
      · simp only [hC] at h
        by_cases hE : peek (sanitize_input raw) = '\x00'
        · simp only [if_pos hE, Except.error.injEq, reduceCtorEq] at h
        · simp only [if_neg hE] at h
          have hS : Settled (evaluate_expression rnd uf (fuel_for (sanitize_input raw))
              (sanitize_input raw)) :=
            (evaluate_settled rnd uf _).2.2.2.2 _ (le_refl _)
          rcases hX : evaluate_expression rnd uf (fuel_for (sanitize_input raw))
            (sanitize_input raw) with e1 | ⟨result, cursor⟩
          · simp only [hX, Except.error.injEq] at h
            exact error_ne_of_settled hS hX h
          · simp only [hX] at h
            by_cases hT : peek (trim_spaces cursor) ≠ '\x00'
            · simp only [if_pos hT, Except.error.injEq, reduceCtorEq] at h
            · simp only [if_neg hT] at h
              cases uf
              · simp only [Bool.false_eq_true, if_false] at h
                by_cases hw : (!is_whole_number rnd result) = true
                · simp only [if_pos hw, Except.error.injEq, reduceCtorEq] at h
                · simp only [if_neg hw, reduceCtorEq] at h
              · simp only [if_true, reduceCtorEq] at h

/-- C20. If a run succeeds and prints a result, in either mode and for every
rounding, then the sanitized input is derivable from `expr`; equivalently, on
an input whose sanitized form is not derivable from `expr` the run fails with
an error of the program. -/
theorem C20_accepts_only_sentences (rnd : ℚ → ℚ) (args : List String) (stdin : List Char)
    (out : Output) (h : main rnd args stdin = .ok out) :
    Derives .expr (sanitize_input stdin) ∧
    ∀ stdin1 : List Char, ¬ Derives .expr (sanitize_input stdin1) →
      ∃ e, e ≠ .OutOfFuel ∧ main rnd args stdin1 = .error e := by
  have key : ∀ (input : List Char) (o : Output), main rnd args input = .ok o →
      Derives .expr (sanitize_input input) := by
    intro input o ho
    obtain ⟨uf, result, cursor, -, -, -, -, heval, hend, -⟩ := main_ok_inv ho
    have hd := dense_sanitize_input input
    obtain ⟨t, ht, hder⟩ := (evaluate_derives rnd uf _).2.2.2.2 _ _ _ hd heval
    have hdc : Dense cursor := dense_of_append (ht ▸ hd)
    rw [trim_spaces_of_dense hdc] at hend
    rw [eq_nil_of_peek_nul hdc hend, List.append_nil] at ht
    rw [ht]
    exact hder
  refine ⟨key stdin out h, fun stdin1 hn => ?_⟩
  rcases hr : main rnd args stdin1 with e | o
  · exact ⟨e, fun he => main_settled rnd args stdin1 (by rw [hr, he]), rfl⟩
  · exact absurd (key stdin1 o hr) hn

/-- C20 with binary64 rounding on the input `1 + 2`, which prints 3. -/
theorem C20_accepts_only_sentences_witness :
    main binary64 [] "1 + 2".toList = .ok (.integer 3) ∧
    Derives .expr (sanitize_input "1 + 2".toList) :=
  have h : main binary64 [] "1 + 2".toList = .ok (.integer 3) :=
    main_of_tree isDoubleRounding_binary64 (.add (.num 1 []) (.num 2 []))
      (by simp [Tree.WellFormed, Tree.level]) 3 (by decide) _ (by decide) (by decide)
  ⟨h, (C20_accepts_only_sentences binary64 [] "1 + 2".toList (.integer 3) h).1⟩

/-! ## Sentences and trees; the reference semantics (C16) -/

theorem digit_char_of_isdigit {c : Char} (h : isdigit c = true) :
    ∃ d : Fin 10, digit_char d = c := by
  simp only [isdigit, Bool.and_eq_true, decide_eq_true_eq] at h
  refine ⟨⟨c.toNat - 48, by omega⟩, ?_⟩
  unfold digit_char
  have : 48 + (c.toNat - 48) = c.toNat := by omega
  simp only [this]
  exact Char.ofNat_toNat c

theorem digits_text_of_isdigit (ds : List Char) (h : ∀ c ∈ ds, isdigit c = true) :
    ∃ fs : List (Fin 10), digits_text fs = ds := by
  induction ds with
  | nil => exact ⟨[], rfl⟩
  | cons a ds ih =>
    obtain ⟨d, hd⟩ := digit_char_of_isdigit (h a (List.mem_cons_self _ _))
    obtain ⟨fs, hfs⟩ := ih (fun c hc => h c (List.mem_cons_of_mem _ hc))
    exact ⟨d :: fs, by rw [digits_text, List.map_cons, hd, ← hfs]; rfl⟩

/-- Every sentence derivable from a nonterminal is the text of a well-formed
tree of that level. -/
theorem tree_of_derives {nt : Nonterminal} {s : List Char} (h : Derives nt s) :
    ∃ e : Tree, e.WellFormed ∧ e.text = s ∧ e.level ≤ nt.level := by
  induction h with
  | digits ds hne hd =>
    obtain ⟨fs, hfs⟩ := digits_text_of_isdigit ds hd
    cases fs with
    | nil => exact absurd hfs.symm hne
    | cons d fs => exact ⟨.num d fs, trivial, hfs, le_refl _⟩
  | paren t _ ih =>
    obtain ⟨e, hwf, ht, -⟩ := ih
    exact ⟨.paren e, hwf, by rw [Tree.text, ht], le_refl _⟩
  | plus t _ ih =>
    obtain ⟨e, hwf, ht, hl⟩ := ih
    exact ⟨.pos e, ⟨hwf, Nat.le_zero.mp hl⟩, by rw [Tree.text, ht], le_refl _⟩
  | minus t _ ih =>
    obtain ⟨e, hwf, ht, hl⟩ := ih
    exact ⟨.neg e, ⟨hwf, Nat.le_zero.mp hl⟩, by rw [Tree.text, ht], le_refl _⟩
  | of_factor t _ ih =>
    obtain ⟨e, hwf, ht, hl⟩ := ih
    exact ⟨e, hwf, ht, hl.trans (by decide)⟩
  | mul t u _ _ iht ihu =>
    obtain ⟨l, hwl, htl, hll⟩ := iht
    obtain ⟨r, hwr, htr, hlr⟩ := ihu
    exact ⟨.mul l r, ⟨hwl, hwr, hll, Nat.le_zero.mp hlr⟩, by rw [Tree.text, htl, htr],
      le_refl _⟩
  | div t u _ _ iht ihu =>
    obtain ⟨l, hwl, htl, hll⟩ := iht
    obtain ⟨r, hwr, htr, hlr⟩ := ihu
    exact ⟨.div l r, ⟨hwl, hwr, hll, Nat.le_zero.mp hlr⟩, by rw [Tree.text, htl, htr],
      le_refl _⟩
  | of_term t _ ih =>
    obtain ⟨e, hwf, ht, hl⟩ := ih
    exact ⟨e, hwf, ht, hl.trans (by decide)⟩
  | add t u _ _ iht ihu =>
    obtain ⟨l, hwl, htl, -⟩ := iht
    obtain ⟨r, hwr, htr, hlr⟩ := ihu
    exact ⟨.add l r, ⟨hwl, hwr, hlr⟩, by rw [Tree.text, htl, htr], le_refl _⟩
  | sub t u _ _ iht ihu =>
    obtain ⟨l, hwl, htl, -⟩ := iht
    obtain ⟨r, hwr, htr, hlr⟩ := ihu
    exact ⟨.sub l r, ⟨hwl, hwr, hlr⟩, by rw [Tree.text, htl, htr], le_refl _⟩

theorem isdigit_digits_text (fs : List (Fin 10)) : ∀ c ∈ digits_text fs, isdigit c = true := by
  intro c hc
  simp only [digits_text, List.mem_map] at hc
  obtain ⟨d, -, rfl⟩ := hc
  exact isdigit_digit_char d

/-- The text of a well-formed tree is derivable from the nonterminal of its
level, and from those above. -/
theorem derives_of_tree (e : Tree) : e.WellFormed →
    (e.level = 0 → Derives .factor e.text) ∧ (e.level ≤ 1 → Derives .term e.text) ∧
    Derives .expr e.text := by
  have lift : ∀ t : List Char, Derives .factor t →
      (Derives .factor t) ∧ (Derives .term t) ∧ Derives .expr t :=
    fun t h => ⟨h, Derives.of_factor t h, Derives.of_term t (Derives.of_factor t h)⟩
  induction e with
  | num d ds =>
    intro _
    have h := lift _ (Derives.digits (digits_text (d :: ds)) (by simp [digits_text])
      (isdigit_digits_text (d :: ds)))
    exact ⟨fun _ => h.1, fun _ => h.2.1, h.2.2⟩
  | pos e ih =>
    intro hwf
    have h := lift _ (Derives.plus e.text ((ih hwf.1).1 hwf.2))
    exact ⟨fun _ => h.1, fun _ => h.2.1, h.2.2⟩
  | neg e ih =>
    intro hwf
    have h := lift _ (Derives.minus e.text ((ih hwf.1).1 hwf.2))
    exact ⟨fun _ => h.1, fun _ => h.2.1, h.2.2⟩
  | paren e ih =>
    intro hwf
    have h := lift _ (Derives.paren e.text (ih hwf).2.2)
    exact ⟨fun _ => h.1, fun _ => h.2.1, h.2.2⟩
  | mul l r ihl ihr =>
    intro hwf
    have h := Derives.mul l.text r.text ((ihl hwf.1).2.1 hwf.2.2.1) ((ihr hwf.2.1).1 hwf.2.2.2)
    exact ⟨fun h0 => absurd h0 (by simp [Tree.level]), fun _ => h, Derives.of_term _ h⟩
  | div l r ihl ihr =>
    intro hwf
    have h := Derives.div l.text r.text ((ihl hwf.1).2.1 hwf.2.2.1) ((ihr hwf.2.1).1 hwf.2.2.2)
    exact ⟨fun h0 => absurd h0 (by simp [Tree.level]), fun _ => h, Derives.of_term _ h⟩
  | add l r ihl ihr =>
    intro hwf
    have h := Derives.add l.text r.text (ihl hwf.1).2.2 ((ihr hwf.2.1).2.1 hwf.2.2)
    exact ⟨fun h0 => absurd h0 (by simp [Tree.level]), fun h1 => absurd h1 (by simp [Tree.level]), h⟩
  | sub l r ihl ihr =>
    intro hwf
    have h := Derives.sub l.text r.text (ihl hwf.1).2.2 ((ihr hwf.2.1).2.1 hwf.2.2)
    exact ⟨fun h0 => absurd h0 (by simp [Tree.level]), fun h1 => absurd h1 (by simp [Tree.level]), h⟩

/-- The sentences of the grammar are the texts of the well-formed trees. -/
theorem derives_iff_tree (s : List Char) :
    Derives .expr s ↔ ∃ e : Tree, e.WellFormed ∧ e.text = s := by
  constructor
  · intro h
    obtain ⟨e, hwf, ht, -⟩ := tree_of_derives h
    exact ⟨e, hwf, ht⟩
  · rintro ⟨e, hwf, rfl⟩
    exact (derives_of_tree e hwf).2.2

/-- C16. With the rounding of the machine, for every sanitized input `s` that is
a sentence of the grammar (derivable from `expr`): `s` is the text of a
well-formed tree, and for every such tree whose reference value `Tree.value`
is defined (exact integers, every chain applied left to right to a running
value, `/` as floor division, every literal and intermediate value within the
range ceiling and no divisor zero), integer-mode `evaluate_expression` returns
that value with the cursor at the end of the input, with any recursion budget
from the one `main` provides on, and a run on an input of at most 1023 bytes
that sanitizes to `s` prints it. -/
theorem C16_reference_semantics {rnd : ℚ → ℚ} (hrnd : IsDoubleRounding rnd) (s : List Char)
    (hs : Derives .expr s) :
    (∃ e : Tree, e.WellFormed ∧ e.text = s) ∧
    ∀ e : Tree, e.WellFormed → e.text = s → ∀ z : ℤ, e.value = some z →
      (∀ n, fuel_for s ≤ n → evaluate_expression rnd false n s = .ok ((z : ℚ), [])) ∧
      (∀ stdin : List Char, stdin.length ≤ 1023 → sanitize_input stdin = s →
        main rnd [] stdin = .ok (.integer z)) := by
  refine ⟨(derives_iff_tree s).mp hs, fun e hwf ht z hz => ?_⟩
  subst ht
  exact tree_runs hrnd e hwf z hz

/-- C16 with binary64 rounding on the sentence `2*3/4`: the chain is folded from
the left, `(2*3)/4 = 1`. -/
theorem C16_reference_semantics_witness :
    Derives .expr "2*3/4".toList ∧
    (Tree.div (.mul (.num 2 []) (.num 3 [])) (.num 4 [])).value = some 1 ∧
    evaluate_expression binary64 false (fuel_for "2*3/4".toList) "2*3/4".toList =
      .ok (1, []) ∧
    main binary64 [] "2 * 3 / 4".toList = .ok (.integer 1) := by
  have hwf : (Tree.div (.mul (.num 2 []) (.num 3 [])) (.num 4 [])).WellFormed := by
    simp [Tree.WellFormed, Tree.level]
  have ht : (Tree.div (.mul (.num 2 []) (.num 3 [])) (.num 4 [])).text = "2*3/4".toList := by
    decide
  have hs : Derives .expr "2*3/4".toList := by
    rw [← ht]
    exact (derives_of_tree _ hwf).2.2
  have hz : (Tree.div (.mul (.num 2 []) (.num 3 [])) (.num 4 [])).value = some 1 := by
    have hm : (Tree.mul (.num 2 []) (.num 3 [])).value = some 6 := by decide
    have h4 : (Tree.num 4 []).value = some 4 := by decide
    rw [Tree.value_div hm h4 (by norm_num)]
    congr 1
    rw [Int.floor_eq_iff]
    constructor <;> norm_num
  have h := (C16_reference_semantics isDoubleRounding_binary64 "2*3/4".toList hs).2 _ hwf ht 1 hz
  refine ⟨hs, hz, ?_, ?_⟩
  · simpa using h.1 _ (le_refl _)
  · exact h.2 "2 * 3 / 4".toList (by decide) (by decide)

/-! ## Float mode (C14) -/

theorem termReads_of_factorReads {rnd : ℚ → ℚ} {uf : Bool} {t : List Char} {v : ℚ}
    (h : FactorReads rnd uf t v) : TermReads rnd uf t v := by
  intro rest r hnd hr ⟨n, hn⟩
  obtain ⟨n1, h1⟩ := h rest hnd
  refine ⟨max n n1 + 1, ?_⟩
  rw [evaluate_term_of_factor (evaluate_factor_lift h1 (settled_ok _) (le_max_right n n1))]
  exact evaluate_term_loop_lift hn hr (le_max_left n n1)

theorem exprReads_of_termReads {rnd : ℚ → ℚ} {uf : Bool} {t : List Char} {v : ℚ}
    (h : TermReads rnd uf t v) : ExprReads rnd uf t v := by
  intro rest r hnd hmd hr ⟨n, hn⟩
  obtain ⟨n1, h1⟩ := h rest (.ok (v, trim_spaces rest)) hnd (settled_ok _)
    ⟨1, evaluate_term_loop_stop rnd uf 0 _ _ hmd⟩
  refine ⟨max n n1 + 1, ?_⟩
  rw [evaluate_expression_of_term (evaluate_term_lift h1 (settled_ok _) (le_max_right n n1)),
    trim_spaces_idem]
  exact evaluate_expression_loop_lift hn hr (le_max_left n n1)

theorem termReads_mul {rnd : ℚ → ℚ} {uf : Bool} {tl tr : List Char}
    {a b : ℚ} (hl : TermReads rnd uf tl a) (hR : FactorReads rnd uf tr b)
    (hd : StartsDense tr) (hv : InRange (rnd (a * b)))
    (hw : uf = true ∨ is_whole_number rnd (rnd (a * b)) = true) :
    TermReads rnd uf (tl ++ '*' :: tr) (rnd (a * b)) := by
  intro rest r hnd hr ⟨n, hn⟩
  obtain ⟨n1, h1⟩ := hR rest hnd
  have hF : evaluate_factor rnd uf (max n n1) (trim_spaces (tr ++ rest)) = .ok (b, rest) := by
    rw [trim_spaces_dense hd]
    exact evaluate_factor_lift h1 (settled_ok _) (le_max_right n n1)
  have key : evaluate_term_loop rnd uf (max n n1 + 1) a ('*' :: (tr ++ rest)) = r := by
    rw [evaluate_term_loop_mul hF hv hw]
    exact evaluate_term_loop_lift hn hr (le_max_left n n1)
  have := hl ('*' :: (tr ++ rest)) r (by rw [peek_cons]; decide) hr
    ⟨_, by rw [trim_spaces_of_not_isspace _ (by decide)]; exact key⟩
  simpa only [List.append_assoc, List.cons_append] using this

theorem termReads_div {rnd : ℚ → ℚ} {uf : Bool} {tl tr : List Char}
    {a b q : ℚ} (hl : TermReads rnd uf tl a) (hR : FactorReads rnd uf tr b)
    (hd : StartsDense tr)
    (hq : (if uf = true then floating_divide rnd a b else integer_divide rnd a b) = .ok q) :
    TermReads rnd uf (tl ++ '/' :: tr) q := by
  intro rest r hnd hr ⟨n, hn⟩
  obtain ⟨n1, h1⟩ := hR rest hnd
  have hF : evaluate_factor rnd uf (max n n1) (trim_spaces (tr ++ rest)) = .ok (b, rest) := by
    rw [trim_spaces_dense hd]
    exact evaluate_factor_lift h1 (settled_ok _) (le_max_right n n1)
  have key : evaluate_term_loop rnd uf (max n n1 + 1) a ('/' :: (tr ++ rest)) = r := by
    rw [evaluate_term_loop_div hF hq]
    exact evaluate_term_loop_lift hn hr (le_max_left n n1)
  have := hl ('/' :: (tr ++ rest)) r (by rw [peek_cons]; decide) hr
    ⟨_, by rw [trim_spaces_of_not_isspace _ (by decide)]; exact key⟩
  simpa only [List.append_assoc, List.cons_append] using this

theorem exprReads_add {rnd : ℚ → ℚ} {uf : Bool} {tl tr : List Char}
    {a b : ℚ} (hl : ExprReads rnd uf tl a) (hR : TermReads rnd uf tr b)
    (hd : StartsDense tr) (hv : InRange (rnd (a + b)))
    (hw : uf = true ∨ is_whole_number rnd (rnd (a + b)) = true) :
    ExprReads rnd uf (tl ++ '+' :: tr) (rnd (a + b)) := by
  intro rest r hnd hmd hr ⟨n, hn⟩
  obtain ⟨n1, h1⟩ := hR rest (.ok (b, trim_spaces rest)) hnd (settled_ok _)
    ⟨1, evaluate_term_loop_stop rnd uf 0 _ _ hmd⟩
  have hT : evaluate_term rnd uf (max n n1) (trim_spaces (tr ++ rest)) =
      .ok (b, trim_spaces rest) := by
    rw [trim_spaces_dense hd]
    exact evaluate_term_lift h1 (settled_ok _) (le_max_right n n1)
  have key : evaluate_expression_loop rnd uf (max n n1 + 1) a ('+' :: (tr ++ rest)) = r := by
    rw [evaluate_expression_loop_add hT hv hw, trim_spaces_idem]
    exact evaluate_expression_loop_lift hn hr (le_max_left n n1)
  have := hl ('+' :: (tr ++ rest)) r (by rw [peek_cons]; decide)
    (by rw [trim_spaces_of_not_isspace _ (by decide), peek_cons]; decide) hr
    ⟨_, by rw [trim_spaces_of_not_isspace _ (by decide)]; exact key⟩
  simpa only [List.append_assoc, List.cons_append] using this

theorem exprReads_sub {rnd : ℚ → ℚ} {uf : Bool} {tl tr : List Char}
    {a b : ℚ} (hl : ExprReads rnd uf tl a) (hR : TermReads rnd uf tr b)
    (hd : StartsDense tr) (hv : InRange (rnd (a - b)))
    (hw : uf = true ∨ is_whole_number rnd (rnd (a - b)) = true) :
    ExprReads rnd uf (tl ++ '-' :: tr) (rnd (a - b)) := by
  intro rest r hnd hmd hr ⟨n, hn⟩
  obtain ⟨n1, h1⟩ := hR rest (.ok (b, trim_spaces rest)) hnd (settled_ok _)
    ⟨1, evaluate_term_loop_stop rnd uf 0 _ _ hmd⟩
  have hT : evaluate_term rnd uf (max n n1) (trim_spaces (tr ++ rest)) =
      .ok (b, trim_spaces rest) := by
    rw [trim_spaces_dense hd]
    exact evaluate_term_lift h1 (settled_ok _) (le_max_right n n1)
  have key : evaluate_expression_loop rnd uf (max n n1 + 1) a ('-' :: (tr ++ rest)) = r := by
    rw [evaluate_expression_loop_sub hT hv hw, trim_spaces_idem]
    exact evaluate_expression_loop_lift hn hr (le_max_left n n1)
  have := hl ('-' :: (tr ++ rest)) r (by rw [peek_cons]; decide)
    (by rw [trim_spaces_of_not_isspace _ (by decide), peek_cons]; decide) hr
    ⟨_, by rw [trim_spaces_of_not_isspace _ (by decide)]; exact key⟩
  simpa only [List.append_assoc, List.cons_append] using this

theorem factorReads_paren {rnd : ℚ → ℚ} {uf : Bool} {t : List Char} {v : ℚ}
    (h : ExprReads rnd uf t v) (hv : InRange v) :
    FactorReads rnd uf ('(' :: (t ++ [')'])) v := by
  intro rest _
  have htr : trim_spaces (')' :: rest) = ')' :: rest :=
    trim_spaces_of_not_isspace _ (by decide)
  have hstop : evaluate_expression_loop rnd uf 1 v (trim_spaces (')' :: rest)) =
      .ok (v, ')' :: rest) := by
    rw [htr]
    exact evaluate_expression_loop_stop rnd uf 0 _ _ (by rw [peek_cons]; decide)
  obtain ⟨n1, h1⟩ := h (')' :: rest) (.ok (v, ')' :: rest))
    (by rw [peek_cons]; decide) (by rw [htr, peek_cons]; decide) (settled_ok _) ⟨1, hstop⟩
  refine ⟨n1 + 1, ?_⟩
  have := evaluate_factor_paren h1 (by rw [htr, peek_cons]) hv
  simpa only [htr, List.tail_cons, List.cons_append, List.append_assoc, List.nil_append,
    List.singleton_append] using this

theorem factorReads_pos {rnd : ℚ → ℚ} {uf : Bool} {t : List Char} {v : ℚ}
    (h : FactorReads rnd uf t v) : FactorReads rnd uf ('+' :: t) v := by
  intro rest hnd
  obtain ⟨n, hn⟩ := h rest hnd
  cases n with
  | zero => simp [evaluate_factor] at hn
  | succ n =>
    refine ⟨n + 1, ?_⟩
    rw [List.cons_append, evaluate_factor_plus, hn]

theorem factorReads_neg {rnd : ℚ → ℚ} {uf : Bool} {t : List Char} {v : ℚ}
    (h : FactorReads rnd uf t v) : FactorReads rnd uf ('-' :: t) (-v) := by
  intro rest hnd
  obtain ⟨n, hn⟩ := h rest hnd
  cases n with
  | zero => simp [evaluate_factor] at hn
  | succ n =>
    refine ⟨n + 1, ?_⟩
    rw [List.cons_append, evaluate_factor_minus, hn]
    rfl

theorem factorReads_num {rnd : ℚ → ℚ} (hrnd : IsDoubleRounding rnd) (uf : Bool) (d : Fin 10)
    (ds : List (Fin 10)) (hv : digits_value 0 (d :: ds) ≤ 2000000000) :
    FactorReads rnd uf (digits_text (d :: ds)) (digits_value 0 (d :: ds) : ℚ) := by
  intro rest hnd
  exact ⟨1, evaluate_factor_num hrnd uf 0 d ds rest hnd hv⟩

/-- A run of `main` on an input whose sanitized form is read as an expression
of value `v`: float mode prints `v`. -/
theorem main_of_exprReads_float {rnd : ℚ → ℚ} {t : List Char} {v : ℚ}
    (h : ExprReads rnd true t v) (hd : StartsDense t) (args : List String)
    (hargs : parse_args false args = .ok true) (stdin : List Char)
    (hvalid : check_valid_chars stdin = .ok ())
    (hlen : stdin.length ≤ 1023) (hs : sanitize_input stdin = t) :
    main rnd args stdin = .ok (.floating v) := by
  obtain ⟨n, hn⟩ := h [] (.ok (v, [])) (by decide) (by decide) (settled_ok _)
    ⟨1, evaluate_expression_loop_stop rnd true 0 _ _ (by decide)⟩
  rw [List.append_nil] at hn
  have hfuel := evaluate_expression_at_fuel_for hn (settled_ok _)
  have hne : peek (sanitize_input stdin) ≠ '\x00' := by
    rw [hs]
    obtain ⟨c, t1, rfl, hc⟩ := hd
    rw [peek_cons]
    intro h0
    have := (sanitize_input_dense stdin) c (by rw [hs]; exact List.mem_cons_self _ _)
    exact this.1 h0
  rw [main_after_gates hargs hlen hvalid hne, hs, hfuel]
  simp [trim_spaces, peek]

/-! ## Float mode computes the double value of the sentence (C14) -/

theorem within_ceiling_eq_some {x v : ℚ} : within_ceiling x = some v ↔ InRange x ∧ x = v := by
  unfold within_ceiling InRange
  by_cases h : -VALUE_LIMIT ≤ x ∧ x ≤ VALUE_LIMIT
  · simp [h]
  · simp [h]

/-- The double value of a tree is within the range ceiling. -/
theorem Tree.float_value_inRange (rnd : ℚ → ℚ) (e : Tree) :
    ∀ v : ℚ, e.float_value rnd = some v → InRange v := by
  induction e with
  | num d ds =>
    intro v hv
    by_cases h : digits_value 0 (d :: ds) ≤ 2000000000
    · simp only [Tree.float_value, if_pos h, Option.some.injEq] at hv
      rw [← hv]
      unfold InRange VALUE_LIMIT
      constructor
      · have : (0 : ℚ) ≤ (digits_value 0 (d :: ds) : ℚ) := by positivity
        linarith
      · exact_mod_cast h
    · simp only [Tree.float_value, if_neg h, reduceCtorEq] at hv
  | pos e ih => exact fun v hv => ih v hv
  | neg e ih =>
    intro v hv
    simp only [Tree.float_value, Option.map_eq_some'] at hv
    obtain ⟨a, ha, rfl⟩ := hv
    have := ih a ha
    unfold InRange at this ⊢
    constructor <;> linarith [this.1, this.2]
  | paren e ih => exact fun v hv => ih v hv
  | mul l r _ _ =>
    intro v hv
    simp only [Tree.float_value, Option.bind_eq_some] at hv
    obtain ⟨a, _, b, _, hab⟩ := hv
    obtain ⟨h1, h2⟩ := within_ceiling_eq_some.mp hab
    rw [← h2]
    exact h1
  | div l r _ _ =>
    intro v hv
    simp only [Tree.float_value, Option.bind_eq_some] at hv
    obtain ⟨a, _, b, _, hab⟩ := hv
    by_cases hg : |b| < rnd (1 / 10000)
    · rw [if_pos hg] at hab
      cases hab
    · rw [if_neg hg] at hab
      obtain ⟨h1, h2⟩ := within_ceiling_eq_some.mp hab
      rw [← h2]
      exact h1
  | add l r _ _ =>
    intro v hv
    simp only [Tree.float_value, Option.bind_eq_some] at hv
    obtain ⟨a, _, b, _, hab⟩ := hv
    obtain ⟨h1, h2⟩ := within_ceiling_eq_some.mp hab
    rw [← h2]
    exact h1
  | sub l r _ _ =>
    intro v hv
    simp only [Tree.float_value, Option.bind_eq_some] at hv
    obtain ⟨a, _, b, _, hab⟩ := hv
    obtain ⟨h1, h2⟩ := within_ceiling_eq_some.mp hab
    rw [← h2]
    exact h1

/-- Float mode reads the sentence of a well-formed tree as the double value of
the tree, at each grammar level. -/
theorem Tree.reads_float {rnd : ℚ → ℚ} (hrnd : IsDoubleRounding rnd) (e : Tree) :
    e.WellFormed → ∀ v : ℚ, e.float_value rnd = some v →
      (e.level = 0 → FactorReads rnd true e.text v) ∧
      (e.level ≤ 1 → TermReads rnd true e.text v) ∧
      ExprReads rnd true e.text v := by
  have fromF : ∀ {t : List Char} {v : ℚ} {k : ℕ}, FactorReads rnd true t v →
      (k = 0 → FactorReads rnd true t v) ∧ (k ≤ 1 → TermReads rnd true t v) ∧
        ExprReads rnd true t v :=
    fun h => ⟨fun _ => h, fun _ => termReads_of_factorReads h,
      exprReads_of_termReads (termReads_of_factorReads h)⟩
  induction e with
  | num d ds =>
    intro _ v hv
    by_cases h : digits_value 0 (d :: ds) ≤ 2000000000
    · simp only [Tree.float_value, if_pos h, Option.some.injEq] at hv
      rw [← hv]
      exact fromF (factorReads_num hrnd true d ds h)
    · simp only [Tree.float_value, if_neg h, reduceCtorEq] at hv
  | pos e ih =>
    intro hwf v hv
    exact fromF (factorReads_pos ((ih hwf.1 v hv).1 hwf.2))
  | neg e ih =>
    intro hwf v hv
    simp only [Tree.float_value, Option.map_eq_some'] at hv
    obtain ⟨a, ha, rfl⟩ := hv
    exact fromF (factorReads_neg ((ih hwf.1 a ha).1 hwf.2))
  | paren e ih =>
    intro hwf v hv
    exact fromF (factorReads_paren (ih hwf v hv).2.2 (e.float_value_inRange rnd v hv))
  | mul l r ihl ihr =>
    intro hwf v hv
    simp only [Tree.float_value, Option.bind_eq_some] at hv
    obtain ⟨a, ha, b, hb, hab⟩ := hv
    obtain ⟨h1, rfl⟩ := within_ceiling_eq_some.mp hab
    obtain ⟨wl, wr, ll, lr⟩ := hwf
    have hT := termReads_mul ((ihl wl a ha).2.1 ll) ((ihr wr b hb).1 lr)
      r.text_startsDense h1 (Or.inl rfl)
    exact ⟨fun h => by simp [Tree.level] at h, fun _ => hT, exprReads_of_termReads hT⟩
  | div l r ihl ihr =>
    intro hwf v hv
    simp only [Tree.float_value, Option.bind_eq_some] at hv
    obtain ⟨a, ha, b, hb, hab⟩ := hv
    obtain ⟨wl, wr, ll, lr⟩ := hwf
    by_cases hg : |b| < rnd (1 / 10000)
    · rw [if_pos hg] at hab
      cases hab
    · rw [if_neg hg] at hab
      obtain ⟨h1, rfl⟩ := within_ceiling_eq_some.mp hab
      have hq : floating_divide rnd a b = .ok (rnd (a / b)) := by
        unfold floating_divide
        rw [if_neg hg]
        simp only [validate_range_of_inRange h1]
      have hT := termReads_div ((ihl wl a ha).2.1 ll) ((ihr wr b hb).1 lr)
        r.text_startsDense (by rw [if_pos rfl]; exact hq)
      exact ⟨fun h => by simp [Tree.level] at h, fun _ => hT, exprReads_of_termReads hT⟩
  | add l r ihl ihr =>
    intro hwf v hv
    simp only [Tree.float_value, Option.bind_eq_some] at hv
    obtain ⟨a, ha, b, hb, hab⟩ := hv
    obtain ⟨h1, rfl⟩ := within_ceiling_eq_some.mp hab
    obtain ⟨wl, wr, lr⟩ := hwf
    have hE := exprReads_add (ihl wl a ha).2.2 ((ihr wr b hb).2.1 lr)
      r.text_startsDense h1 (Or.inl rfl)
    exact ⟨fun h => by simp [Tree.level] at h, fun h => by simp [Tree.level] at h, hE⟩
  | sub l r ihl ihr =>
    intro hwf v hv
    simp only [Tree.float_value, Option.bind_eq_some] at hv
    obtain ⟨a, ha, b, hb, hab⟩ := hv
    obtain ⟨h1, rfl⟩ := within_ceiling_eq_some.mp hab
    obtain ⟨wl, wr, lr⟩ := hwf
    have hE := exprReads_sub (ihl wl a ha).2.2 ((ihr wr b hb).2.1 lr)
      r.text_startsDense h1 (Or.inl rfl)
    exact ⟨fun h => by simp [Tree.level] at h, fun h => by simp [Tree.level] at h, hE⟩

/-- When the true value of every subexpression is a double, the double value of
a tree, where it is defined, is its true value. -/
theorem Tree.float_value_eq_exact {rnd : ℚ → ℚ} (hrnd : IsDoubleRounding rnd) (e : Tree) :
    (∀ t ∈ e.subtrees, ∀ x, t.exact = some x → rnd x = x) →
    ∀ v : ℚ, e.float_value rnd = some v → e.exact = some v := by
  induction e with
  | num d ds =>
    intro _ v hv
    by_cases h : digits_value 0 (d :: ds) ≤ 2000000000
    · simp only [Tree.float_value, if_pos h, Option.some.injEq] at hv
      rw [← hv]
      rfl
    · simp only [Tree.float_value, if_neg h, reduceCtorEq] at hv
  | pos e ih =>
    intro hex v hv
    exact ih (fun t ht => hex t (by simp [Tree.subtrees, ht])) v hv
  | neg e ih =>
    intro hex v hv
    simp only [Tree.float_value, Option.map_eq_some'] at hv
    obtain ⟨a, ha, rfl⟩ := hv
    have := ih (fun t ht => hex t (by simp [Tree.subtrees, ht])) a ha
    simp only [Tree.exact, this, Option.map_some']
  | paren e ih =>
    intro hex v hv
    exact ih (fun t ht => hex t (by simp [Tree.subtrees, ht])) v hv
  | mul l r ihl ihr =>
    intro hex v hv
    simp only [Tree.float_value, Option.bind_eq_some] at hv
    obtain ⟨a, ha, b, hb, hab⟩ := hv
    obtain ⟨-, rfl⟩ := within_ceiling_eq_some.mp hab
    have hl := ihl (fun t ht => hex t (by simp [Tree.subtrees, ht])) a ha
    have hr := ihr (fun t ht => hex t (by simp [Tree.subtrees, ht])) b hb
    have hx := Tree.exact_mul_rat hl hr
    rw [hex _ (Tree.self_mem_subtrees _) _ hx]
    exact hx
  | div l r ihl ihr =>
    intro hex v hv
    simp only [Tree.float_value, Option.bind_eq_some] at hv
    obtain ⟨a, ha, b, hb, hab⟩ := hv
    by_cases hg : |b| < rnd (1 / 10000)
    · rw [if_pos hg] at hab
      cases hab
    · rw [if_neg hg] at hab
      obtain ⟨-, rfl⟩ := within_ceiling_eq_some.mp hab
      have hb0 : b ≠ 0 := by
        intro h0
        rw [h0, abs_zero] at hg
        exact hg (guard_pos hrnd).1
      have hl := ihl (fun t ht => hex t (by simp [Tree.subtrees, ht])) a ha
      have hr := ihr (fun t ht => hex t (by simp [Tree.subtrees, ht])) b hb
      have hx := Tree.exact_div_rat hl hr hb0
      rw [hex _ (Tree.self_mem_subtrees _) _ hx]
      exact hx
  | add l r ihl ihr =>
    intro hex v hv
    simp only [Tree.float_value, Option.bind_eq_some] at hv
    obtain ⟨a, ha, b, hb, hab⟩ := hv
    obtain ⟨-, rfl⟩ := within_ceiling_eq_some.mp hab
    have hl := ihl (fun t ht => hex t (by simp [Tree.subtrees, ht])) a ha
    have hr := ihr (fun t ht => hex t (by simp [Tree.subtrees, ht])) b hb
    have hx : (Tree.add l r).exact = some (a + b) := by simp [Tree.exact, hl, hr]
    rw [hex _ (Tree.self_mem_subtrees _) _ hx]
    exact hx
  | sub l r ihl ihr =>
    intro hex v hv
    simp only [Tree.float_value, Option.bind_eq_some] at hv
    obtain ⟨a, ha, b, hb, hab⟩ := hv
    obtain ⟨-, rfl⟩ := within_ceiling_eq_some.mp hab
    have hl := ihl (fun t ht => hex t (by simp [Tree.subtrees, ht])) a ha
    have hr := ihr (fun t ht => hex t (by simp [Tree.subtrees, ht])) b hb
    have hx : (Tree.sub l r).exact = some (a - b) := by simp [Tree.exact, hl, hr]
    rw [hex _ (Tree.self_mem_subtrees _) _ hx]
    exact hx

/-! ### Failing steps -/

theorem evaluate_term_loop_factor_error {rnd : ℚ → ℚ} {uf : Bool} {n : ℕ} {val : ℚ}
    {c : Char} {s : List Char} {e : ParseError} (hc : c = '*' ∨ c = '/')
    (hF : evaluate_factor rnd uf n (trim_spaces s) = .error e) :
    evaluate_term_loop rnd uf (n + 1) val (c :: s) = .error e := by
  rw [evaluate_term_loop, if_pos (by rw [peek_cons]; exact hc)]
  simp only [List.tail_cons, hF]

theorem evaluate_term_loop_mul_out_of_range {rnd : ℚ → ℚ} {uf : Bool} {n : ℕ}
    {val y : ℚ} {s t : List Char}
    (hF : evaluate_factor rnd uf n (trim_spaces s) = .ok (y, t))
    (hv : ¬ InRange (rnd (val * y))) :
    evaluate_term_loop rnd uf (n + 1) val ('*' :: s) = .error .OutOfRange := by
  rcases hvr : validate_range (rnd (val * y)) with e | u
  · rw [evaluate_term_loop, if_pos (Or.inl (peek_cons _ _))]
    simp only [peek_cons, List.tail_cons, hF, if_true, hvr, (validate_range_error hvr).1]
  · exact absurd (validate_range_ok_iff.mp hvr) hv

theorem evaluate_term_loop_div_error {rnd : ℚ → ℚ} {uf : Bool} {n : ℕ} {val y : ℚ}
    {s t : List Char} {e : ParseError}
    (hF : evaluate_factor rnd uf n (trim_spaces s) = .ok (y, t))
    (hd : (if uf = true then floating_divide rnd val y
      else integer_divide rnd val y) = .error e) :
    evaluate_term_loop rnd uf (n + 1) val ('/' :: s) = .error e := by
  rw [evaluate_term_loop, if_pos (Or.inr (peek_cons _ _))]
  simp only [peek_cons, List.tail_cons, hF, if_neg (show ¬ ('/' = '*') by decide), hd]

theorem evaluate_expression_loop_term_error {rnd : ℚ → ℚ} {uf : Bool} {n : ℕ} {val : ℚ}
    {c : Char} {s : List Char} {e : ParseError} (hc : c = '+' ∨ c = '-')
    (hT : evaluate_term rnd uf n (trim_spaces s) = .error e) :
    evaluate_expression_loop rnd uf (n + 1) val (c :: s) = .error e := by
  rw [evaluate_expression_loop, if_pos (by rw [peek_cons]; exact hc)]
  simp only [List.tail_cons, hT]

theorem evaluate_expression_loop_sub_out_of_range {rnd : ℚ → ℚ} {uf : Bool} {n : ℕ}
    {val y : ℚ} {s t : List Char}
    (hT : evaluate_term rnd uf n (trim_spaces s) = .ok (y, t))
    (hv : ¬ InRange (rnd (val - y))) :
    evaluate_expression_loop rnd uf (n + 1) val ('-' :: s) = .error .OutOfRange := by
  rcases hvr : validate_range (rnd (val - y)) with e | u
  · rw [evaluate_expression_loop, if_pos (Or.inr (peek_cons _ _))]
    simp only [peek_cons, List.tail_cons, hT, if_neg (show ¬ ('-' = '+') by decide), hvr,
      (validate_range_error hvr).1]
  · exact absurd (validate_range_ok_iff.mp hvr) hv

theorem evaluate_factor_open_error {rnd : ℚ → ℚ} {uf : Bool} {n : ℕ} {e : ParseError}
    {inner : List Char} (hE : evaluate_expression rnd uf n inner = .error e) :
    evaluate_factor rnd uf (n + 1) ('(' :: inner) = .error e := by
  have h1 : trim_spaces ('(' :: inner) = '(' :: inner :=
    trim_spaces_of_not_isspace inner (by decide)
  have h2 : sign_loop ('(' :: inner).length false ('(' :: inner) = (false, '(' :: inner) :=
    sign_loop_of_not_sign _ _ _ (by rw [peek_cons]; decide)
  rw [evaluate_factor_of_signs, h1]
  simp only [h2, peek_cons, List.tail_cons, if_true, hE]

theorem evaluate_factor_num_overflow {rnd : ℚ → ℚ} (hr : IsDoubleRounding rnd) (uf : Bool)
    (n : ℕ) (d : Fin 10) (ds : List (Fin 10)) (rest : List Char)
    (hv : 2000000000 < digits_value 0 (d :: ds)) :
    evaluate_factor rnd uf (n + 1) (digits_text (d :: ds) ++ rest) =
      .error .NumberOutOfRange := by
  have h1 : trim_spaces (digits_text (d :: ds) ++ rest) = digits_text (d :: ds) ++ rest :=
    trim_spaces_of_not_isspace _ (isspace_digit_char d)
  have h2 : peek (digits_text (d :: ds) ++ rest) = digit_char d := rfl
  have h3 := sign_loop_of_not_sign (digits_text (d :: ds) ++ rest).length false
    (digits_text (d :: ds) ++ rest) (by rw [h2]; exact digit_char_not_sign d)
  rw [evaluate_factor_of_signs, h1, h3]
  simp only [h2, if_neg (digit_char_ne_paren d), extract_number_overflow hr d ds rest hv]

/-! ### Failing texts -/

theorem termFails_of_factorFails {rnd : ℚ → ℚ} {uf : Bool} {t : List Char}
    (h : FactorFails rnd uf t) : TermFails rnd uf t := by
  intro rest hnd
  obtain ⟨n, e, he, hn⟩ := h rest hnd
  exact ⟨n + 1, e, he, evaluate_term_of_factor_error hn⟩

theorem exprFails_of_termFails {rnd : ℚ → ℚ} {uf : Bool} {t : List Char}
    (h : TermFails rnd uf t) : ExprFails rnd uf t := by
  intro rest hnd _
  obtain ⟨n, e, he, hn⟩ := h rest hnd
  exact ⟨n + 1, e, he, evaluate_expression_of_term_error hn⟩

theorem factorFails_num {rnd : ℚ → ℚ} (hrnd : IsDoubleRounding rnd) (uf : Bool) (d : Fin 10)
    (ds : List (Fin 10)) (hv : 2000000000 < digits_value 0 (d :: ds)) :
    FactorFails rnd uf (digits_text (d :: ds)) :=
  fun rest _ => ⟨1, .NumberOutOfRange, by decide,
    evaluate_factor_num_overflow hrnd uf 0 d ds rest hv⟩

theorem factorFails_pos {rnd : ℚ → ℚ} {uf : Bool} {t : List Char}
    (h : FactorFails rnd uf t) : FactorFails rnd uf ('+' :: t) := by
  intro rest hnd
  obtain ⟨n, e, he, hn⟩ := h rest hnd
  cases n with
  | zero =>
    simp only [evaluate_factor, Except.error.injEq] at hn
    exact absurd hn.symm he
  | succ n =>
    refine ⟨n + 1, e, he, ?_⟩
    rw [List.cons_append, evaluate_factor_plus, hn]

theorem factorFails_neg {rnd : ℚ → ℚ} {uf : Bool} {t : List Char}
    (h : FactorFails rnd uf t) : FactorFails rnd uf ('-' :: t) := by
  intro rest hnd
  obtain ⟨n, e, he, hn⟩ := h rest hnd
  cases n with
  | zero =>
    simp only [evaluate_factor, Except.error.injEq] at hn
    exact absurd hn.symm he
  | succ n =>
    refine ⟨n + 1, e, he, ?_⟩
    rw [List.cons_append, evaluate_factor_minus, hn]
    rfl

theorem factorFails_paren {rnd : ℚ → ℚ} {uf : Bool} {t : List Char}
    (h : ExprFails rnd uf t) : FactorFails rnd uf ('(' :: (t ++ [')'])) := by
  intro rest _
  have htr : trim_spaces (')' :: rest) = ')' :: rest :=
    trim_spaces_of_not_isspace _ (by decide)
  obtain ⟨n, e, he, hn⟩ := h (')' :: rest) (by rw [peek_cons]; decide)
    (by rw [htr, peek_cons]; decide)
  refine ⟨n + 1, e, he, ?_⟩
  have := evaluate_factor_open_error hn
  simpa only [List.cons_append, List.append_assoc, List.nil_append,
    List.singleton_append] using this

/-- A chain whose left part fails, fails. -/
theorem termFails_left {rnd : ℚ → ℚ} {uf : Bool} {tl tr : List Char} {c : Char}
    (hc : isdigit c = false) (h : TermFails rnd uf tl) : TermFails rnd uf (tl ++ c :: tr) := by
  intro rest _
  obtain ⟨n, e, he, hn⟩ := h (c :: (tr ++ rest)) (by rw [peek_cons]; exact hc)
  exact ⟨n, e, he, by simpa only [List.append_assoc, List.cons_append] using hn⟩

theorem exprFails_left {rnd : ℚ → ℚ} {uf : Bool} {tl tr : List Char} {c : Char}
    (hc : c = '+' ∨ c = '-') (h : ExprFails rnd uf tl) :
    ExprFails rnd uf (tl ++ c :: tr) := by
  intro rest _ _
  have htr : trim_spaces (c :: (tr ++ rest)) = c :: (tr ++ rest) :=
    trim_spaces_of_not_isspace _ (by rcases hc with h | h <;> rw [h] <;> decide)
  obtain ⟨n, e, he, hn⟩ := h (c :: (tr ++ rest))
    (by rw [peek_cons]; rcases hc with h | h <;> rw [h] <;> decide)
    (by rw [htr, peek_cons]; rcases hc with h | h <;> rw [h] <;> decide)
  exact ⟨n, e, he, by simpa only [List.append_assoc, List.cons_append] using hn⟩

/-- A chain of `*` and `/` whose next factor fails, fails. -/
theorem termFails_right {rnd : ℚ → ℚ} {uf : Bool} {tl tr : List Char} {a : ℚ} {c : Char}
    (hc : c = '*' ∨ c = '/') (hl : TermReads rnd uf tl a) (hR : FactorFails rnd uf tr)
    (hd : StartsDense tr) : TermFails rnd uf (tl ++ c :: tr) := by
  intro rest hnd
  obtain ⟨n1, e, he, h1⟩ := hR rest hnd
  have hF : evaluate_factor rnd uf n1 (trim_spaces (tr ++ rest)) = .error e := by
    rw [trim_spaces_dense hd]
    exact h1
  have hcs : isspace c = false := by rcases hc with h | h <;> rw [h] <;> decide
  have hcd : isdigit c = false := by rcases hc with h | h <;> rw [h] <;> decide
  obtain ⟨n, hn⟩ := hl (c :: (tr ++ rest)) (.error e) (by rw [peek_cons]; exact hcd)
    (settled_error he)
    ⟨n1 + 1, by
      rw [trim_spaces_of_not_isspace _ hcs]
      exact evaluate_term_loop_factor_error hc hF⟩
  exact ⟨n, e, he, by simpa only [List.append_assoc, List.cons_append] using hn⟩

/-- A product above the range ceiling fails. -/
theorem termFails_mul {rnd : ℚ → ℚ} {uf : Bool} {tl tr : List Char} {a b : ℚ}
    (hl : TermReads rnd uf tl a) (hR : FactorReads rnd uf tr b) (hd : StartsDense tr)
    (hv : ¬ InRange (rnd (a * b))) : TermFails rnd uf (tl ++ '*' :: tr) := by
  intro rest hnd
  obtain ⟨n1, h1⟩ := hR rest hnd
  have hF : evaluate_factor rnd uf n1 (trim_spaces (tr ++ rest)) = .ok (b, rest) := by
    rw [trim_spaces_dense hd]
    exact h1
  obtain ⟨n, hn⟩ := hl ('*' :: (tr ++ rest)) (.error .OutOfRange) (by rw [peek_cons]; decide)
    (settled_error (by decide))
    ⟨n1 + 1, by
      rw [trim_spaces_of_not_isspace _ (by decide)]
      exact evaluate_term_loop_mul_out_of_range hF hv⟩
  exact ⟨n, .OutOfRange, by decide,
    by simpa only [List.append_assoc, List.cons_append] using hn⟩

/-- A division that fails (near-zero divisor, or quotient above the range
ceiling) fails the chain. -/
theorem termFails_div {rnd : ℚ → ℚ} {uf : Bool} {tl tr : List Char} {a b : ℚ}
    {e : ParseError}
    (hl : TermReads rnd uf tl a) (hR : FactorReads rnd uf tr b) (hd : StartsDense tr)
    (hq : (if uf = true then floating_divide rnd a b else integer_divide rnd a b) =
      .error e) : TermFails rnd uf (tl ++ '/' :: tr) := by
  intro rest hnd
  obtain ⟨n1, h1⟩ := hR rest hnd
  have hF : evaluate_factor rnd uf n1 (trim_spaces (tr ++ rest)) = .ok (b, rest) := by
    rw [trim_spaces_dense hd]
    exact h1
  have he : e ≠ .OutOfFuel := by
    cases uf
    · exact error_ne_of_settled (integer_divide_settled rnd a b) (by simpa using hq)
    · exact error_ne_of_settled (floating_divide_settled rnd a b) (by simpa using hq)
  obtain ⟨n, hn⟩ := hl ('/' :: (tr ++ rest)) (.error e) (by rw [peek_cons]; decide)
    (settled_error he)
    ⟨n1 + 1, by
      rw [trim_spaces_of_not_isspace _ (by decide)]
      exact evaluate_term_loop_div_error hF hq⟩
  exact ⟨n, e, he, by simpa only [List.append_assoc, List.cons_append] using hn⟩

/-- A chain of `+` and `-` whose next term fails, fails. -/
theorem exprFails_right {rnd : ℚ → ℚ} {uf : Bool} {tl tr : List Char} {a : ℚ} {c : Char}
    (hc : c = '+' ∨ c = '-') (hl : ExprReads rnd uf tl a) (hR : TermFails rnd uf tr)
    (hd : StartsDense tr) : ExprFails rnd uf (tl ++ c :: tr) := by
  intro rest hnd _
  obtain ⟨n1, e, he, h1⟩ := hR rest hnd
  have hT : evaluate_term rnd uf n1 (trim_spaces (tr ++ rest)) = .error e := by
    rw [trim_spaces_dense hd]
    exact h1
  have hcs : isspace c = false := by rcases hc with h | h <;> rw [h] <;> decide
  have hcd : isdigit c = false := by rcases hc with h | h <;> rw [h] <;> decide
  have hcm : ¬ (c = '*' ∨ c = '/') := by rcases hc with h | h <;> rw [h] <;> decide
  obtain ⟨n, hn⟩ := hl (c :: (tr ++ rest)) (.error e) (by rw [peek_cons]; exact hcd)
    (by rw [trim_spaces_of_not_isspace _ hcs, peek_cons]; exact hcm)
    (settled_error he)
    ⟨n1 + 1, by
      rw [trim_spaces_of_not_isspace _ hcs]
      exact evaluate_expression_loop_term_error hc hT⟩
  exact ⟨n, e, he, by simpa only [List.append_assoc, List.cons_append] using hn⟩

/-- A sum above the range ceiling fails. -/
theorem exprFails_add {rnd : ℚ → ℚ} {uf : Bool} {tl tr : List Char} {a b : ℚ}
    (hl : ExprReads rnd uf tl a) (hR : TermReads rnd uf tr b) (hd : StartsDense tr)
    (hv : ¬ InRange (rnd (a + b))) : ExprFails rnd uf (tl ++ '+' :: tr) := by
  intro rest hnd hmd
  obtain ⟨n1, h1⟩ := hR rest (.ok (b, trim_spaces rest)) hnd (settled_ok _)
    ⟨1, evaluate_term_loop_stop rnd uf 0 _ _ hmd⟩
  have hT : evaluate_term rnd uf n1 (trim_spaces (tr ++ rest)) = .ok (b, trim_spaces rest) := by
    rw [trim_spaces_dense hd]
    exact h1
  obtain ⟨n, hn⟩ := hl ('+' :: (tr ++ rest)) (.error .OutOfRange) (by rw [peek_cons]; decide)
    (by rw [trim_spaces_of_not_isspace _ (by decide), peek_cons]; decide)
    (settled_error (by decide))
    ⟨n1 + 1, by
      rw [trim_spaces_of_not_isspace _ (by decide)]
      exact evaluate_expression_loop_add_out_of_range hT hv⟩
  exact ⟨n, .OutOfRange, by decide,
    by simpa only [List.append_assoc, List.cons_append] using hn⟩

/-- A difference outside the range ceiling fails. -/
theorem exprFails_sub {rnd : ℚ → ℚ} {uf : Bool} {tl tr : List Char} {a b : ℚ}
    (hl : ExprReads rnd uf tl a) (hR : TermReads rnd uf tr b) (hd : StartsDense tr)
    (hv : ¬ InRange (rnd (a - b))) : ExprFails rnd uf (tl ++ '-' :: tr) := by
  intro rest hnd hmd
  obtain ⟨n1, h1⟩ := hR rest (.ok (b, trim_spaces rest)) hnd (settled_ok _)
    ⟨1, evaluate_term_loop_stop rnd uf 0 _ _ hmd⟩
  have hT : evaluate_term rnd uf n1 (trim_spaces (tr ++ rest)) = .ok (b, trim_spaces rest) := by
    rw [trim_spaces_dense hd]
    exact h1
  obtain ⟨n, hn⟩ := hl ('-' :: (tr ++ rest)) (.error .OutOfRange) (by rw [peek_cons]; decide)
    (by rw [trim_spaces_of_not_isspace _ (by decide), peek_cons]; decide)
    (settled_error (by decide))
    ⟨n1 + 1, by
      rw [trim_spaces_of_not_isspace _ (by decide)]
      exact evaluate_expression_loop_sub_out_of_range hT hv⟩
  exact ⟨n, .OutOfRange, by decide,
    by simpa only [List.append_assoc, List.cons_append] using hn⟩

theorem within_ceiling_eq_none {x : ℚ} : within_ceiling x = none ↔ ¬ InRange x := by
  unfold within_ceiling InRange
  by_cases h : -VALUE_LIMIT ≤ x ∧ x ≤ VALUE_LIMIT
  · simp [h]
  · simp [h]

theorem floating_divide_error_of_none {rnd : ℚ → ℚ} {a b : ℚ}
    (hv : (if |b| < rnd (1 / 10000) then none else within_ceiling (rnd (a / b))) = none) :
    ∃ err, floating_divide rnd a b = .error err := by
  unfold floating_divide
  by_cases hg : |b| < rnd (1 / 10000)
  · rw [if_pos hg]
    exact ⟨_, rfl⟩
  · rw [if_neg hg] at hv ⊢
    have hni := within_ceiling_eq_none.mp hv
    rcases hvr : validate_range (rnd (a / b)) with e1 | u
    · exact ⟨e1, by simp only [hvr]⟩
    · exact absurd (validate_range_ok_iff.mp hvr) hni

/-- Float mode fails on the sentence of a well-formed tree whose double value
is not defined, at each grammar level. -/
theorem Tree.fails_float {rnd : ℚ → ℚ} (hrnd : IsDoubleRounding rnd) (e : Tree) :
    e.WellFormed → e.float_value rnd = none →
      (e.level = 0 → FactorFails rnd true e.text) ∧
      (e.level ≤ 1 → TermFails rnd true e.text) ∧
      ExprFails rnd true e.text := by
  have fromF : ∀ {t : List Char} {k : ℕ}, FactorFails rnd true t →
      (k = 0 → FactorFails rnd true t) ∧ (k ≤ 1 → TermFails rnd true t) ∧
        ExprFails rnd true t :=
    fun h => ⟨fun _ => h, fun _ => termFails_of_factorFails h,
      exprFails_of_termFails (termFails_of_factorFails h)⟩
  have fromT : ∀ {l r : Tree} {c : Char}, TermFails rnd true (l.text ++ c :: r.text) →
      (1 = 0 → FactorFails rnd true (l.text ++ c :: r.text)) ∧
      (1 ≤ 1 → TermFails rnd true (l.text ++ c :: r.text)) ∧
        ExprFails rnd true (l.text ++ c :: r.text) :=
    fun h => ⟨fun h0 => absurd h0 (by decide), fun _ => h, exprFails_of_termFails h⟩
  have fromE : ∀ {l r : Tree} {c : Char}, ExprFails rnd true (l.text ++ c :: r.text) →
      (2 = 0 → FactorFails rnd true (l.text ++ c :: r.text)) ∧
      (2 ≤ 1 → TermFails rnd true (l.text ++ c :: r.text)) ∧
        ExprFails rnd true (l.text ++ c :: r.text) :=
    fun h => ⟨fun h0 => absurd h0 (by decide), fun h1 => absurd h1 (by decide), h⟩
  induction e with
  | num d ds =>
    intro _ hv
    by_cases h : digits_value 0 (d :: ds) ≤ 2000000000
    · simp only [Tree.float_value, if_pos h, reduceCtorEq] at hv
    · exact fromF (factorFails_num hrnd true d ds (not_le.mp h))
  | pos e ih =>
    intro hwf hv
    exact fromF (factorFails_pos ((ih hwf.1 hv).1 hwf.2))
  | neg e ih =>
    intro hwf hv
    simp only [Tree.float_value, Option.map_eq_none'] at hv
    exact fromF (factorFails_neg ((ih hwf.1 hv).1 hwf.2))
  | paren e ih =>
    intro hwf hv
    exact fromF (factorFails_paren (ih hwf hv).2.2)
  | mul l r ihl ihr =>
    intro hwf hv
    obtain ⟨wl, wr, ll, lr⟩ := hwf
    rcases hl : l.float_value rnd with _ | a
    · exact fromT (termFails_left (by decide) ((ihl wl hl).2.1 ll))
    · have hL := (l.reads_float hrnd wl a hl).2.1 ll
      rcases hr : r.float_value rnd with _ | b
      · exact fromT (termFails_right (Or.inl rfl) hL ((ihr wr hr).1 lr) r.text_startsDense)
      · have hR := (r.reads_float hrnd wr b hr).1 lr
        simp only [Tree.float_value, hl, hr, Option.some_bind] at hv
        exact fromT (termFails_mul hL hR r.text_startsDense (within_ceiling_eq_none.mp hv))
  | div l r ihl ihr =>
    intro hwf hv
    obtain ⟨wl, wr, ll, lr⟩ := hwf
    rcases hl : l.float_value rnd with _ | a
    · exact fromT (termFails_left (by decide) ((ihl wl hl).2.1 ll))
    · have hL := (l.reads_float hrnd wl a hl).2.1 ll
      rcases hr : r.float_value rnd with _ | b
      · exact fromT (termFails_right (Or.inr rfl) hL ((ihr wr hr).1 lr) r.text_startsDense)
      · have hR := (r.reads_float hrnd wr b hr).1 lr
        simp only [Tree.float_value, hl, hr, Option.some_bind] at hv
        have hq := floating_divide_error_of_none hv
        obtain ⟨err, herr⟩ := hq
        exact fromT (termFails_div hL hR r.text_startsDense (by rw [if_pos rfl]; exact herr))
  | add l r ihl ihr =>
    intro hwf hv
    obtain ⟨wl, wr, lr⟩ := hwf
    rcases hl : l.float_value rnd with _ | a
    · exact fromE (exprFails_left (Or.inl rfl) (ihl wl hl).2.2)
    · have hL := (l.reads_float hrnd wl a hl).2.2
      rcases hr : r.float_value rnd with _ | b
      · exact fromE (exprFails_right (Or.inl rfl) hL ((ihr wr hr).2.1 lr) r.text_startsDense)
      · have hR := (r.reads_float hrnd wr b hr).2.1 lr
        simp only [Tree.float_value, hl, hr, Option.some_bind] at hv
        exact fromE (exprFails_add hL hR r.text_startsDense (within_ceiling_eq_none.mp hv))
  | sub l r ihl ihr =>
    intro hwf hv
    obtain ⟨wl, wr, lr⟩ := hwf
    rcases hl : l.float_value rnd with _ | a
    · exact fromE (exprFails_left (Or.inr rfl) (ihl wl hl).2.2)
    · have hL := (l.reads_float hrnd wl a hl).2.2
      rcases hr : r.float_value rnd with _ | b
      · exact fromE (exprFails_right (Or.inr rfl) hL ((ihr wr hr).2.1 lr) r.text_startsDense)
      · have hR := (r.reads_float hrnd wr b hr).2.1 lr
        simp only [Tree.float_value, hl, hr, Option.some_bind] at hv
        exact fromE (exprFails_sub hL hR r.text_startsDense (within_ceiling_eq_none.mp hv))

/-- A float-mode run on an input whose sanitized form is the sentence of a
well-formed tree prints the double value of the tree when it is defined, and
fails otherwise. -/
theorem main_float_of_tree {rnd : ℚ → ℚ} (hrnd : IsDoubleRounding rnd) (e : Tree)
    (hwf : e.WellFormed) (stdin : List Char) (hlen : stdin.length ≤ 1023)
    (hs : sanitize_input stdin = e.text) :
    (∀ v, e.float_value rnd = some v → main rnd ["--float"] stdin = .ok (.floating v)) ∧
    (e.float_value rnd = none →
      ∃ err, err ≠ .OutOfFuel ∧ main rnd ["--float"] stdin = .error err) := by
  have hvalid : check_valid_chars stdin = .ok () :=
    check_valid_chars_of_sanitize stdin (by rw [hs]; exact e.text_valid)
  refine ⟨fun v hv => main_of_exprReads_float (e.reads_float hrnd hwf v hv).2.2
    e.text_startsDense ["--float"] rfl stdin hvalid hlen hs, fun hv => ?_⟩
  obtain ⟨n, err, herr, hn⟩ := (e.fails_float hrnd hwf hv).2.2 [] (by decide) (by decide)
  rw [List.append_nil] at hn
  have hfuel := evaluate_expression_at_fuel_for hn (settled_error herr)
  have hne : peek (sanitize_input stdin) ≠ '\x00' := by
    rw [hs]
    exact e.peek_text_ne_nul
  refine ⟨err, herr, ?_⟩
  rw [@main_after_gates rnd ["--float"] stdin true rfl hlen hvalid hne, hs, hfuel]

theorem printsFloat_of_ne_zero {v : ℚ} (hv : v ≠ 0) (text : List Char) :
    PrintsFloat v text ↔ text = format_4f (decide (v < 0)) |v| := by
  constructor
  · rintro ⟨negative, hneg, hpos, rfl⟩
    rcases lt_or_gt_of_ne hv with h | h
    · rw [hneg h, decide_eq_true h]
    · rw [hpos h, decide_eq_false (not_lt.mpr h.le)]
  · intro h
    refine ⟨decide (v < 0), fun hlt => decide_eq_true hlt,
      fun hgt => decide_eq_false (not_lt.mpr hgt.le), h⟩

theorem floatModePrints_iff {rnd : ℚ → ℚ} {stdin : List Char} {v : ℚ}
    (h : main rnd ["--float"] stdin = .ok (.floating v)) (text : List Char) :
    FloatModePrints rnd stdin text ↔ PrintsFloat v text := by
  constructor
  · rintro ⟨x, hx, hp⟩
    rw [h] at hx
    cases hx
    exact hp
  · exact fun hp => ⟨v, h, hp⟩

/-- The text of `format_4f` from the number of ten-thousandths. -/
theorem format_4f_of_rounding (negative : Bool) (mag : ℚ) (q : ℕ)
    (h : round_half_even (mag * 10000) = (q : ℤ)) :
    format_4f negative mag =
      (if negative then ['-'] else []) ++ Nat.toDigits 10 (q / 10000) ++
        ['.', Nat.digitChar (q / 1000 % 10), Nat.digitChar (q / 100 % 10),
          Nat.digitChar (q / 10 % 10), Nat.digitChar (q % 10)] := by
  unfold format_4f
  rw [h, Int.toNat_natCast]

/-- C14, as amended. For every float-mode input of at most 1023 bytes whose
sanitized form is a sentence of the grammar: the run succeeds exactly when the
double value of the sentence is defined, that is when in double arithmetic
(every product, quotient, sum and difference rounded to a double) every literal
is at most `2 * 10^9`, every intermediate result is within the range ceiling
and every divisor is at least the double `1e-4` in magnitude.  The run then
hands `printf("%.4f")` that double value `v`, which lies within the range
ceiling; when `v` is not zero the printed text is `v` rounded to 4 decimal
places, halfway cases to even, with a minus sign when `v` is negative; and `v`
is the true value of the expression when the true value of every subexpression
is a double. -/
theorem C14_float_output {rnd : ℚ → ℚ} (hrnd : IsDoubleRounding rnd) (e : Tree)
    (hwf : e.WellFormed) (stdin : List Char) (hlen : stdin.length ≤ 1023)
    (hs : sanitize_input stdin = e.text) :
    ((∃ out, main rnd ["--float"] stdin = .ok out) ↔ ∃ v, e.float_value rnd = some v) ∧
    ∀ v, e.float_value rnd = some v →
      main rnd ["--float"] stdin = .ok (.floating v) ∧ InRange v ∧
      (∀ text, FloatModePrints rnd stdin text ↔ PrintsFloat v text) ∧
      (v ≠ 0 → ∀ text, FloatModePrints rnd stdin text ↔
        text = format_4f (decide (v < 0)) |v|) ∧
      ((∀ t ∈ e.subtrees, ∀ x, t.exact = some x → rnd x = x) → e.exact = some v) := by
  have hmain := main_float_of_tree hrnd e hwf stdin hlen hs
  refine ⟨⟨fun hout => ?_, fun hv => ?_⟩, fun v hv => ?_⟩
  · obtain ⟨out, hout⟩ := hout
    rcases hfv : e.float_value rnd with _ | v
    · obtain ⟨err, -, herr⟩ := hmain.2 hfv
      rw [herr] at hout
      cases hout
    · exact ⟨v, rfl⟩
  · obtain ⟨v, hv⟩ := hv
    exact ⟨_, hmain.1 v hv⟩
  · have hrun := hmain.1 v hv
    refine ⟨hrun, e.float_value_inRange rnd v hv, floatModePrints_iff hrun, fun hv0 text => ?_,
      fun hex => e.float_value_eq_exact hrnd hex v hv⟩
    rw [floatModePrints_iff hrun, printsFloat_of_ne_zero hv0]

theorem Tree.float_value_num (rnd : ℚ → ℚ) (d : Fin 10) (ds : List (Fin 10)) (n : ℕ)
    (h : digits_value 0 (d :: ds) = n) (hn : n ≤ 2000000000) :
    (Tree.num d ds).float_value rnd = some (n : ℚ) := by
  simp only [Tree.float_value, h, if_pos hn]

theorem Tree.float_value_div {rnd : ℚ → ℚ} {l r : Tree} {a b : ℚ}
    (hl : l.float_value rnd = some a) (hr : r.float_value rnd = some b)
    (hg : ¬ |b| < rnd (1 / 10000)) (hin : InRange (rnd (a / b))) :
    (Tree.div l r).float_value rnd = some (rnd (a / b)) := by
  simp only [Tree.float_value, hl, hr, Option.some_bind, if_neg hg]
  exact within_ceiling_eq_some.mpr ⟨hin, rfl⟩

theorem round_half_even_of_lt_half {y : ℚ} {k : ℤ} (hk : (k : ℚ) ≤ y)
    (h : y < (k : ℚ) + 1 / 2) : round_half_even y = k := by
  have hfl : ⌊y⌋ = k := by
    rw [Int.floor_eq_iff]
    exact ⟨hk, by linarith⟩
  unfold round_half_even
  rw [hfl, if_pos (by linarith)]

theorem binary64_exponent_of_bounds {x : ℚ} {k : ℤ} (hx : x ≠ 0) (hk : -1022 ≤ k)
    (hlo : (2 : ℚ) ^ k ≤ |x|) (hhi : |x| < (2 : ℚ) ^ (k + 1)) : binary64_exponent x = k := by
  have hpos : (0 : ℚ) < |x| := abs_pos.mpr hx
  have hlog : Int.log 2 |x| = k := by
    apply le_antisymm
    · have : Int.log 2 |x| < k + 1 := by
        rw [← Int.lt_zpow_iff_log_lt (by norm_num) hpos]
        exact_mod_cast hhi
      omega
    · rw [← Int.zpow_le_iff_le_log (by norm_num) hpos]
      exact_mod_cast hlo
  unfold binary64_exponent
  rw [hlog]
  exact max_eq_left hk

theorem binary64_seven_halves : binary64 (7 / 2) = 7 / 2 := by
  have he : binary64_exponent (7 / 2) = 1 :=
    binary64_exponent_of_bounds (by norm_num) (by norm_num)
      (by rw [abs_of_pos (by norm_num)]; norm_num)
      (by rw [abs_of_pos (by norm_num)]; norm_num)
  refine binary64_of_int_mul_ulp (by norm_num) (7 * 2 ^ 50) ?_
  rw [he]
  norm_num

/-- The double nearest to `3/20000`. -/
theorem binary64_3_20000 :
    binary64 (3 / 20000) = 5534023222112865 / 36893488147419103232 := by
  have he : binary64_exponent (3 / 20000) = -13 :=
    binary64_exponent_of_bounds (by norm_num) (by norm_num)
      (by rw [abs_of_pos (by norm_num)]; norm_num)
      (by rw [abs_of_pos (by norm_num)]; norm_num)
  have hu : (2 : ℚ) ^ ((-13 : ℤ) - 52) = 1 / 36893488147419103232 := by norm_num
  rw [binary64_of_ne_zero (by norm_num), he, hu]
  have hy : (3 : ℚ) / 20000 / (1 / 36893488147419103232) = 3458764513820540928 / 625 := by
    norm_num
  rw [hy]
  have hrhe : round_half_even ((3458764513820540928 : ℚ) / 625) =
      (5534023222112865 : ℤ) :=
    round_half_even_of_lt_half (by norm_num) (by norm_num)
  rw [hrhe]
  norm_num

theorem guard_not_lt_of_one_le {rnd : ℚ → ℚ} (hrnd : IsDoubleRounding rnd) {b : ℚ}
    (hb : 1 ≤ |b|) : ¬ |b| < rnd (1 / 10000) :=
  not_lt.mpr ((guard_pos hrnd).2.le.trans hb)

/-- The rounded quotient of two numbers `0 < a <= b` is between 0 and 1. -/
theorem inRange_rnd_small {rnd : ℚ → ℚ} (hrnd : IsDoubleRounding rnd) {x : ℚ}
    (h0 : 0 ≤ x) (h1 : x ≤ 1) : InRange (rnd x) := by
  have l0 := hrnd.mono 0 x h0
  have l1 := hrnd.mono x 1 h1
  rw [rnd_zero hrnd] at l0
  have h11 : rnd (1 : ℚ) = 1 := by simpa using hrnd.exact_int 1 (by norm_num)
  rw [h11] at l1
  unfold InRange VALUE_LIMIT
  constructor <;> linarith

/-- In float mode too the intermediate value 2000000001 of `2000000000+1-1` is
rejected. -/
theorem main_float_intermediate_out_of_range {rnd : ℚ → ℚ} (hrnd : IsDoubleRounding rnd) :
    main rnd ["--float"] "2000000000+1-1".toList = .error .OutOfRange := by
  have hE : ExprReads rnd true "2000000000".toList 2000000000 := by
    have := exprReads_of_termReads (termReads_of_factorReads
      (factorReads_num hrnd true 2 [0, 0, 0, 0, 0, 0, 0, 0, 0] (by decide)))
    have hv : ((digits_value 0 [2, 0, 0, 0, 0, 0, 0, 0, 0, 0] : ℕ) : ℚ) = 2000000000 := by
      have : digits_value 0 [2, 0, 0, 0, 0, 0, 0, 0, 0, 0] = 2000000000 := by decide
      rw [this]
      norm_num
    rw [hv] at this
    exact this
  have hT : TermReads rnd true "1".toList 1 := by
    have := termReads_of_factorReads (factorReads_num hrnd true 1 [] (by decide))
    have hv : ((digits_value 0 [1] : ℕ) : ℚ) = 1 := by
      have : digits_value 0 [1] = 1 := by decide
      rw [this]
      norm_num
    rw [hv] at this
    exact this
  obtain ⟨n1, h1⟩ := hT "-1".toList (.ok (1, "-1".toList)) (by decide)
    (settled_ok _) ⟨1, evaluate_term_loop_stop rnd true 0 _ _ (by decide)⟩
  have hsum : rnd ((2000000000 : ℚ) + 1) = 2000000001 := by
    have := rnd_int hrnd 2000000001 (by norm_num [INT_LIMIT])
    norm_num at this ⊢
    exact this
  have hloop : evaluate_expression_loop rnd true (n1 + 1) 2000000000
      ('+' :: "1-1".toList) = .error .OutOfRange := by
    refine @evaluate_expression_loop_add_out_of_range rnd true n1 2000000000 1 "1-1".toList
      "-1".toList ?_ ?_
    · exact h1
    · rw [hsum]
      unfold InRange VALUE_LIMIT
      norm_num
  obtain ⟨n2, h2⟩ := hE "+1-1".toList (.error .OutOfRange) (by decide) (by decide)
    (settled_error (by decide)) ⟨n1 + 1, hloop⟩
  have heval := evaluate_expression_at_fuel_for h2 (settled_error (by decide))
  have hmain := @main_after_gates rnd ["--float"] "2000000000+1-1".toList true rfl (by decide)
    rfl (by decide)
  rw [hmain]
  have hs : sanitize_input "2000000000+1-1".toList =
      "2000000000".toList ++ "+1-1".toList := by decide
  rw [hs, heval]

/-- C14 as amended, with binary64 rounding in float mode.  On `7/2` every value
is a double: the double value is the true value `7/2` and the run prints
`3.5000`.  On `1/3` the quotient is rounded: the run prints the double nearest
to `1/3` as `0.3333`. -/
theorem C14_float_output_witness :
    ((Tree.div (.num 7 []) (.num 2 [])).float_value binary64 = some (7 / 2) ∧
      (Tree.div (.num 7 []) (.num 2 [])).exact = some (7 / 2) ∧
      main binary64 ["--float"] "7/2".toList = .ok (.floating (7 / 2)) ∧
      InRange (7 / 2 : ℚ) ∧
      ∀ text, FloatModePrints binary64 "7/2".toList text ↔ text = "3.5000".toList) ∧
    ((Tree.div (.num 1 []) (.num 3 [])).float_value binary64 = some (binary64 (1 / 3)) ∧
      main binary64 ["--float"] "1/3".toList = .ok (.floating (binary64 (1 / 3))) ∧
      ∀ text, FloatModePrints binary64 "1/3".toList text ↔ text = "0.3333".toList) := by
  have hb := isDoubleRounding_binary64
  have f7 := Tree.float_value_num binary64 7 [] 7 (by decide) (by decide)
  have f2 := Tree.float_value_num binary64 2 [] 2 (by decide) (by decide)
  have f1 := Tree.float_value_num binary64 1 [] 1 (by decide) (by decide)
  have f3 := Tree.float_value_num binary64 3 [] 3 (by decide) (by decide)
  have hv72 : (Tree.div (.num 7 []) (.num 2 [])).float_value binary64 = some (7 / 2) := by
    have := Tree.float_value_div f7 f2
      (guard_not_lt_of_one_le hb (by norm_num [abs_of_pos]))
      (by
        norm_num only [Nat.cast_ofNat]
        rw [binary64_seven_halves]
        unfold InRange VALUE_LIMIT
        norm_num)
    norm_num only [Nat.cast_ofNat] at this
    rw [binary64_seven_halves] at this
    exact this
  have hx13 : (0 : ℚ) < 1 / 3 := by norm_num
  have hv13 : (Tree.div (.num 1 []) (.num 3 [])).float_value binary64 =
      some (binary64 (1 / 3)) := by
    have := Tree.float_value_div f1 f3
      (guard_not_lt_of_one_le hb (by norm_num [abs_of_pos]))
      (by
        norm_num only [Nat.cast_ofNat, Nat.cast_one]
        exact inRange_rnd_small hb (by norm_num) (by norm_num))
    norm_num only [Nat.cast_ofNat, Nat.cast_one] at this
    exact this
  have h72 := (C14_float_output hb (.div (.num 7 []) (.num 2 []))
    (by simp [Tree.WellFormed, Tree.level]) "7/2".toList (by decide) (by decide)).2 _ hv72
  have h13 := (C14_float_output hb (.div (.num 1 []) (.num 3 []))
    (by simp [Tree.WellFormed, Tree.level]) "1/3".toList (by decide) (by decide)).2 _ hv13
  have e72 : (Tree.div (.num 7 []) (.num 2 [])).exact = some (7 / 2) := by
    have h7 : (Tree.num 7 []).exact = some (7 : ℚ) := by
      simpa using Tree.exact_num 7 [] 7 (by decide)
    have h2 : (Tree.num 2 []).exact = some (2 : ℚ) := by
      simpa using Tree.exact_num 2 [] 2 (by decide)
    exact Tree.exact_div_rat h7 h2 (by norm_num)
  have t72 : format_4f (decide ((7 / 2 : ℚ) < 0)) |(7 / 2 : ℚ)| = "3.5000".toList := by
    rw [decide_eq_false (by norm_num), abs_of_pos (by norm_num),
      format_4f_of_rounding false (7 / 2) 35000 (by
        have h : (7 / 2 : ℚ) * 10000 = ((35000 : ℤ) : ℚ) := by norm_num
        rw [h, round_half_even_int]
        rfl)]
    decide
  have hrel := binary64_rel_error (1 / 3) (by rw [abs_of_pos hx13]; norm_num)
    (by rw [abs_of_pos hx13]; norm_num)
  rw [abs_of_pos hx13, abs_le] at hrel
  have hlo : (3333 : ℚ) / 10000 < binary64 (1 / 3) := by
    have := hrel.1
    norm_num at this ⊢
    linarith
  have hhi : binary64 (1 / 3) < 33335 / 100000 := by
    have := hrel.2
    norm_num at this ⊢
    linarith
  have hpos13 : (0 : ℚ) < binary64 (1 / 3) := by linarith
  have t13 : format_4f (decide (binary64 (1 / 3) < 0)) |binary64 (1 / 3)| =
      "0.3333".toList := by
    rw [decide_eq_false (not_lt.mpr hpos13.le), abs_of_pos hpos13,
      format_4f_of_rounding false (binary64 (1 / 3)) 3333
        (round_half_even_of_lt_half (by push_cast; linarith) (by push_cast; linarith))]
    decide
  refine ⟨⟨hv72, e72, h72.1, h72.2.1, fun text => ?_⟩, ⟨hv13, h13.1, fun text => ?_⟩⟩
  · rw [h72.2.2.2.1 (by norm_num) text, t72]
  · rw [h13.2.2.2.1 (ne_of_gt hpos13) text, t13]

/-- C14 as stated fails, in float mode with binary64 rounding.  The sentence
`2000000000+1-1` has the true value 2000000000, within the range ceiling, and
the run fails with `OutOfRange` (the intermediate value 2000000001 is above the
ceiling).  The sentence `3/20000` has the true value 0.00015, which rounds to
0.0002 (halfway cases to even, and halfway cases up); the quotient is rounded
to the nearest double, which lies strictly between 0.00005 and 0.00015, and
the run prints `0.0001`. -/
theorem C14_counterexample :
    ((Tree.sub (.add (.num 2 [0, 0, 0, 0, 0, 0, 0, 0, 0]) (.num 1 [])) (.num 1 [])).WellFormed ∧
      sanitize_input "2000000000+1-1".toList =
        (Tree.sub (.add (.num 2 [0, 0, 0, 0, 0, 0, 0, 0, 0]) (.num 1 [])) (.num 1 [])).text ∧
      (Tree.sub (.add (.num 2 [0, 0, 0, 0, 0, 0, 0, 0, 0]) (.num 1 [])) (.num 1 [])).exact =
        some 2000000000 ∧
      main binary64 ["--float"] "2000000000+1-1".toList = .error .OutOfRange) ∧
    ((Tree.div (.num 3 []) (.num 2 [0, 0, 0, 0])).WellFormed ∧
      sanitize_input "3/20000".toList = (Tree.div (.num 3 []) (.num 2 [0, 0, 0, 0])).text ∧
      (Tree.div (.num 3 []) (.num 2 [0, 0, 0, 0])).exact = some (3 / 20000) ∧
      main binary64 ["--float"] "3/20000".toList =
        .ok (.floating (5534023222112865 / 36893488147419103232)) ∧
      (1 / 20000 : ℚ) < 5534023222112865 / 36893488147419103232 ∧
      (5534023222112865 / 36893488147419103232 : ℚ) < 3 / 20000 ∧
      (∀ text, FloatModePrints binary64 "3/20000".toList text ↔ text = "0.0001".toList) ∧
      format_4f false (3 / 20000) = "0.0002".toList ∧
      ⌊(3 / 20000 : ℚ) * 10000 + 1 / 2⌋ = 2) := by
  have hb := isDoubleRounding_binary64
  have hbig := Tree.exact_num 2 [0, 0, 0, 0, 0, 0, 0, 0, 0] 2000000000 (by decide)
  have h1 := Tree.exact_num 1 [] 1 (by decide)
  have hx1 : (Tree.sub (.add (.num 2 [0, 0, 0, 0, 0, 0, 0, 0, 0]) (.num 1 []))
      (.num 1 [])).exact = some 2000000000 := by
    rw [Tree.exact_sub (Tree.exact_add hbig h1) h1]
    norm_num
  have h3 : (Tree.num 3 []).exact = some (3 : ℚ) := by
    simpa using Tree.exact_num 3 [] 3 (by decide)
  have h20000 : (Tree.num 2 [0, 0, 0, 0]).exact = some (20000 : ℚ) := by
    simpa using Tree.exact_num 2 [0, 0, 0, 0] 20000 (by decide)
  have f3 := Tree.float_value_num binary64 3 [] 3 (by decide) (by decide)
  have f20000 := Tree.float_value_num binary64 2 [0, 0, 0, 0] 20000 (by decide) (by decide)
  have hwf : (Tree.div (.num 3 []) (.num 2 [0, 0, 0, 0])).WellFormed := by
    simp [Tree.WellFormed, Tree.level]
  have hv : (Tree.div (.num 3 []) (.num 2 [0, 0, 0, 0])).float_value binary64 =
      some (5534023222112865 / 36893488147419103232) := by
    have := Tree.float_value_div f3 f20000
      (guard_not_lt_of_one_le hb (by norm_num [abs_of_pos]))
      (by
        norm_num only [Nat.cast_ofNat]
        exact inRange_rnd_small hb (by norm_num) (by norm_num))
    norm_num only [Nat.cast_ofNat] at this
    rw [binary64_3_20000] at this
    exact this
  have hmain := (main_float_of_tree hb _ hwf "3/20000".toList (by decide) (by decide)).1 _ hv
  have hpos : (0 : ℚ) < 5534023222112865 / 36893488147419103232 := by norm_num
  have htext : format_4f false (5534023222112865 / 36893488147419103232) =
      "0.0001".toList := by
    rw [format_4f_of_rounding false _ 1
      (round_half_even_of_lt_half (by norm_num) (by norm_num))]
    decide
  have htrue : format_4f false (3 / 20000) = "0.0002".toList := by
    have hr : round_half_even ((3 / 20000 : ℚ) * 10000) = ((2 : ℕ) : ℤ) := by
      have hfl : ⌊(3 / 20000 : ℚ) * 10000⌋ = 1 := by
        rw [Int.floor_eq_iff]
        norm_num
      unfold round_half_even
      rw [hfl]
      norm_num
    rw [format_4f_of_rounding false _ 2 hr]
    decide
  refine ⟨⟨by simp [Tree.WellFormed, Tree.level], by decide, hx1,
      main_float_intermediate_out_of_range hb⟩,
    ⟨hwf, by decide, Tree.exact_div_rat h3 h20000 (by norm_num), hmain, by norm_num,
      by norm_num, fun text => ?_, htrue, ?_⟩⟩
  · rw [floatModePrints_iff hmain, printsFloat_of_ne_zero (ne_of_gt hpos),
      decide_eq_false (not_lt.mpr hpos.le), abs_of_pos hpos, htext]
  · rw [Int.floor_eq_iff]
    norm_num

end Calculator
